import Mathlib

/-!
Shallow embedding of the `radixtree` Go package (gammazero/radixtree).

Keys are byte strings, modelled as `List Nat`; values are an arbitrary type
`α` (Go `any`).  Go's `(value, found bool)` return pairs are modelled as
`Option α`.  Mutating methods on `*Tree` become functions returning the new
tree together with the reported boolean.
-/

namespace Radix

/-- `Item` from tree.go: the leaf payload `{key, value}`. -/
structure Item (α : Type) where
  key : List Nat
  value : α
deriving Repr

/-- `radixNode` from tree.go: `{prefix, edges, leaf}`.  The edge array is a
list of `(radix, child)` pairs; Go's nil/empty slice distinction is
irrelevant to behaviour (see `prune`, which normalizes empty to nil), so both
are `[]`. -/
inductive radixNode (α : Type) : Type where
  | mk (pre : List Nat) (edges : List (Nat × radixNode α)) (leaf : Option (Item α)) : radixNode α

namespace radixNode

variable {α : Type}

def pre : radixNode α → List Nat
  | .mk p _ _ => p

def edges : radixNode α → List (Nat × radixNode α)
  | .mk _ e _ => e

def leaf : radixNode α → Option (Item α)
  | .mk _ _ l => l

@[simp] theorem pre_mk (p : List Nat) (e : List (Nat × radixNode α)) (l : Option (Item α)) :
    (radixNode.mk p e l).pre = p := rfl

@[simp] theorem edges_mk (p : List Nat) (e : List (Nat × radixNode α)) (l : Option (Item α)) :
    (radixNode.mk p e l).edges = e := rfl

@[simp] theorem leaf_mk (p : List Nat) (e : List (Nat × radixNode α)) (l : Option (Item α)) :
    (radixNode.mk p e l).leaf = l := rfl

theorem ext_iff (n : radixNode α) : n = .mk n.pre n.edges n.leaf := by
  cases n
  rfl

instance : Inhabited (radixNode α) := ⟨.mk [] [] none⟩

/-- The binary-search loop of `indexEdge` (tree.go).  `i`, `j` are the
current bounds; out-of-range reads never occur at call sites because
`j ≤ edges.length`. -/
def indexEdgeAux (edges : List (Nat × radixNode α)) (radix : Nat) (i j : Nat) : Nat :=
  if h : i < j then
    let m := (i + j) / 2
    if (edges.getD m default).1 < radix then
      indexEdgeAux edges radix (m + 1) j
    else
      indexEdgeAux edges radix i m
  else i
termination_by j - i
decreasing_by
  · have h1 : (i + j) / 2 < j := by omega
    omega
  · have h1 : i ≤ (i + j) / 2 := by omega
    have h2 : (i + j) / 2 < j := by omega
    omega

/-- `indexEdge` from tree.go: binary search for the insertion point of
`radix` in the sorted edge array. -/
def indexEdge (node : radixNode α) (radix : Nat) : Nat :=
  indexEdgeAux node.edges radix 0 node.edges.length

/-- `getEdge` from tree.go. -/
def getEdge (node : radixNode α) (radix : Nat) : Option (radixNode α) :=
  let idx := node.indexEdge radix
  if h : idx < node.edges.length then
    if (node.edges.get ⟨idx, h⟩).1 = radix then some (node.edges.get ⟨idx, h⟩).2
    else none
  else none

/-- `addEdge` from tree.go: insert the edge at the binary-search index. -/
def addEdge (node : radixNode α) (e : Nat × radixNode α) : radixNode α :=
  let idx := node.indexEdge e.1
  .mk node.pre (node.edges.take idx ++ e :: node.edges.drop idx) node.leaf

/-- `delEdge` from tree.go: remove the edge at the binary-search index if its
radix matches. -/
def delEdge (node : radixNode α) (radix : Nat) : radixNode α :=
  let idx := node.indexEdge radix
  if h : idx < node.edges.length then
    if (node.edges.get ⟨idx, h⟩).1 = radix then
      .mk node.pre (node.edges.take idx ++ node.edges.drop (idx + 1)) node.leaf
    else node
  else node

/-- Functional write-back of Go's in-place mutation of the child node
reached through the edge for `radix`: the edge entry keeps its symbol but
now points at `child`.  Call sites guarantee the edge exists. -/
def setEdge (node : radixNode α) (radix : Nat) (child : radixNode α) : radixNode α :=
  let idx := node.indexEdge radix
  .mk node.pre (node.edges.take idx ++ (radix, child) :: node.edges.drop (idx + 1)) node.leaf

/-- `split` from tree.go: turn `("prefix", leaf, edges)` into
`("pre", nil, [prefix[p] -> ("ix", leaf, edges)])`.  Call sites guarantee
`p < node.pre.length`. -/
def split (node : radixNode α) (p : Nat) : radixNode α :=
  let sp : radixNode α :=
    .mk (if p < node.pre.length - 1 then node.pre.drop (p + 1) else [])
      node.edges node.leaf
  let withEdge := radixNode.addEdge (.mk node.pre [] node.leaf) (node.pre.getD p 0, sp)
  .mk (if p = 0 then [] else node.pre.take p) withEdge.edges none

/-- `compress` from tree.go: a node with exactly one edge and no leaf is
merged with its single child. -/
def compress (node : radixNode α) : radixNode α :=
  match node.edges, node.leaf with
  | [(r, c)], none => .mk (node.pre ++ r :: c.pre) c.edges c.leaf
  | _, _ => node

end radixNode

open radixNode

/-- `Tree` from tree.go.  `size` is a Go `int`; it is modelled as `Int`
because the code never guards it against going negative. -/
structure Tree (α : Type) where
  root : radixNode α
  size : Int

/-- `New` from tree.go: the zero-valued tree. -/
def Tree.new {α : Type} : Tree α := ⟨.mk [] [] none, 0⟩

/-- `Len` from tree.go. -/
def Tree.len {α : Type} (t : Tree α) : Int := t.size

/-- The loop body of `Get` (tree.go), with the current node's prefix already
consumed: match an edge on the next byte, then the child's prefix, and
recurse on the remaining key. -/
def getRest {α : Type} : radixNode α → List Nat → Option α
  | node, [] => node.leaf.map Item.value
  | node, r :: rest =>
    match node.getEdge r with
    | none => none
    | some child =>
      if child.pre.isPrefixOf rest then getRest child (rest.drop child.pre.length)
      else none
termination_by _ key => key.length
decreasing_by simp only [List.length_drop, List.length_cons]; omega

/-- `Get` from tree.go. -/
def Tree.get {α : Type} (t : Tree α) (key : List Nat) : Option α :=
  getRest t.root key

/-- The descent loop of `Put` (tree.go).  `p` is the offset into the current
node's prefix, `key` the unconsumed key bytes, `fullKey` the original key
(stored in the leaf).  Returns the rebuilt node, `isNewValue`, and whether
`size` was incremented. -/
def putNode {α : Type} : radixNode α → Nat → List Nat → List Nat → α → radixNode α × Bool × Bool
  | node, p, [], fullKey, value =>
    -- key consumed by the loop
    if p < node.pre.length then
      -- partial match of the node's prefix: split, then store at the node
      let n := node.split p
      (.mk n.pre n.edges (some ⟨fullKey, value⟩), true, true)
    else
      (.mk node.pre node.edges (some ⟨fullKey, value⟩), node.leaf.isNone, node.leaf.isNone)
  | node, p, r :: rest, fullKey, value =>
    if h : p < node.pre.length then
      if r = node.pre.get ⟨p, h⟩ then
        putNode node (p + 1) rest fullKey value
      else
        -- mismatch inside the prefix: split, then add an edge to a new child
        -- holding the unmatched key tail (Go's `key[i+1:]`, i.e. `rest`)
        let newChild : radixNode α := .mk rest [] (some ⟨fullKey, value⟩)
        ((node.split p).addEdge (r, newChild), true, true)
    else
      match node.getEdge r with
      | some child =>
        let res := putNode child 0 rest fullKey value
        (node.setEdge r res.1, res.2.1, res.2.2)
      | none =>
        let newChild : radixNode α := .mk rest [] (some ⟨fullKey, value⟩)
        (node.addEdge (r, newChild), true, true)
termination_by _ _ key _ _ => key.length

/-- `Put` from tree.go. -/
def Tree.put {α : Type} (t : Tree α) (key : List Nat) (value : α) : Tree α × Bool :=
  let res := putNode t.root 0 key key value
  (⟨res.1, t.size + (if res.2.2 then 1 else 0)⟩, res.2.1)

/-! Traversal.  Go visitors are closures over mutable state; they are
modelled as state-passing functions `σ → key → value → σ × Bool`, the `Bool`
being the walk-stopping result. -/

mutual

/-- `radixNode.walk` from tree.go: visit the node's own leaf, then every
subtree in edge order, stopping as soon as the visitor returns `true`. -/
def walkNode {α σ : Type} (node : radixNode α) (f : σ → List Nat → α → σ × Bool) (s : σ) :
    σ × Bool :=
  match node with
  | .mk _ es l =>
    match l with
    | some it =>
      match f s it.key it.value with
      | (s', true) => (s', true)
      | (s', false) => walkEdges es f s'
    | none => walkEdges es f s

/-- The edge loop of `radixNode.walk`. -/
def walkEdges {α σ : Type} (es : List (Nat × radixNode α)) (f : σ → List Nat → α → σ × Bool)
    (s : σ) : σ × Bool :=
  match es with
  | [] => (s, false)
  | (_, c) :: rest =>
    match walkNode c f s with
    | (s', true) => (s', true)
    | (s', false) => walkEdges rest f s'

end

/-- The descent loop of `Walk` (tree.go): find the node whose subtree holds
every key prefixed by `key` (the prefix may end inside a node's own
prefix). -/
def walkDescend {α : Type} : radixNode α → List Nat → Option (radixNode α)
  | node, [] => some node
  | node, r :: rest =>
    match node.getEdge r with
    | none => none
    | some child =>
      if child.pre.isPrefixOf rest then walkDescend child (rest.drop child.pre.length)
      else if rest.isPrefixOf child.pre then some child
      else none
termination_by _ key => key.length
decreasing_by simp only [List.length_drop, List.length_cons]; omega

/-- `Walk` from tree.go. -/
def Tree.walk {α σ : Type} (t : Tree α) (key : List Nat) (f : σ → List Nat → α → σ × Bool)
    (s : σ) : σ × Bool :=
  match walkDescend t.root key with
  | none => (s, false)
  | some node => walkNode node f s

/-- `WalkPath` from tree.go: visit the leaf of every node on the descent
path from the root to `key`. -/
def walkPathRec {α σ : Type} : radixNode α → List Nat → (σ → List Nat → α → σ × Bool) → σ →
    σ × Bool
  | node, key, f, s =>
    let step : σ × Bool :=
      match node.leaf with
      | some it => f s it.key it.value
      | none => (s, false)
    match step with
    | (s', true) => (s', true)
    | (s', false) =>
      match key with
      | [] => (s', false)
      | r :: rest =>
        match node.getEdge r with
        | none => (s', false)
        | some child =>
          if child.pre.isPrefixOf rest then walkPathRec child (rest.drop child.pre.length) f s'
          else (s', false)
termination_by _ key _ _ => key.length
decreasing_by simp only [List.length_drop, List.length_cons]; omega

/-- `WalkPath` from tree.go. -/
def Tree.walkPath {α σ : Type} (t : Tree α) (key : List Nat) (f : σ → List Nat → α → σ × Bool)
    (s : σ) : σ × Bool :=
  walkPathRec t.root key f s

/-! Deletion.  Go's `Delete`/`DeletePrefix` record the parent chain and then
prune/compress through pointers; functionally, each level receives the
rebuilt child and performs the `prune` step for it, and the node where
pruning stops is compressed unless it is the root. -/

/-- One parent-level step of `radixNode.prune` followed by the conditional
`compress` from `Delete`/`DeletePrefix` (tree.go): if the rebuilt child
has become empty, delete its edge; if this node still has edges or a leaf,
pruning stops here and the node is compressed (a no-op unless it has exactly
one edge and no leaf) unless it is the root. -/
def pruneChild {α : Type} (isRoot : Bool) (node : radixNode α) (r : Nat)
    (child : radixNode α) : radixNode α :=
  match child.edges, child.leaf with
  | [], none =>
    let node' := node.delEdge r
    match node'.edges, node'.leaf with
    | [], none => node'
    | _, _ => if isRoot then node' else node'.compress
  | _, _ => node.setEdge r child

/-- `Delete` from tree.go, as a recursion over the key.  Returns `none` when
the key does not resolve to a node with a leaf (Go returns `false`),
otherwise the rebuilt subtree after clearing the leaf, pruning and
compressing. -/
def deleteRec {α : Type} : Bool → radixNode α → List Nat → Option (radixNode α)
  | isRoot, node, [] =>
    match node.leaf with
    | none => none
    | some _ =>
      let node' : radixNode α := .mk node.pre node.edges none
      match node'.edges with
      | [] => some node'
      | _ => some (if isRoot then node' else node'.compress)
  | isRoot, node, r :: rest =>
    match node.getEdge r with
    | none => none
    | some child =>
      if child.pre.isPrefixOf rest then
        match deleteRec false child (rest.drop child.pre.length) with
        | none => none
        | some child' => some (pruneChild isRoot node r child')
      else none
termination_by _ _ key => key.length
decreasing_by simp only [List.length_drop, List.length_cons]; omega

/-- `Delete` from tree.go. -/
def Tree.delete {α : Type} (t : Tree α) (key : List Nat) : Tree α × Bool :=
  match deleteRec true t.root key with
  | none => (t, false)
  | some root' => (⟨root', t.size - 1⟩, true)

/-- `DeletePrefix` from tree.go, as a recursion over the prefix.  The `[]`
case is the removal of the target subtree: the size delta is the number of
leaves counted by an internal walk when the node has edges, and 1 otherwise;
the node's edges and leaf are cleared.  A remaining prefix that ends inside
a child's own prefix targets that whole child.  Pruning and compression are
as in `deleteRec`. -/
def deletePrefixRec {α : Type} : Bool → radixNode α → List Nat → Option (radixNode α × Int)
  | _, node, [] =>
    let delta : Int :=
      match node.edges with
      | [] => 1
      | _ => ((walkNode node (fun (c : Nat) _ _ => (c + 1, false)) 0).1 : Int)
    some (.mk node.pre [] none, delta)
  | isRoot, node, r :: rest =>
    match node.getEdge r with
    | none => none
    | some child =>
      if child.pre.isPrefixOf rest then
        match deletePrefixRec false child (rest.drop child.pre.length) with
        | none => none
        | some (child', delta) => some (pruneChild isRoot node r child', delta)
      else if rest.isPrefixOf child.pre then
        match deletePrefixRec false child [] with
        | none => none
        | some (child', delta) => some (pruneChild isRoot node r child', delta)
      else none
termination_by _ _ key => key.length
decreasing_by
  · simp only [List.length_drop, List.length_cons]; omega
  · simp only [List.length_nil, List.length_cons]; omega

/-- `DeletePrefix` from tree.go. -/
def Tree.deletePrefix {α : Type} (t : Tree α) (key : List Nat) : Tree α × Bool :=
  match deletePrefixRec true t.root key with
  | none => (t, false)
  | some (root', delta) => (⟨root', t.size - delta⟩, true)

/-! The iterator (iterator.go): an explicit stack of nodes.  Go keeps the
stack top at the slice end and pushes children in reverse edge order; with
the list head as the stack top this is an in-order push, so a pop takes the
smallest remaining symbol first. -/

mutual

/-- Number of nodes in a subtree (termination measure for the iterator). -/
def nodeSize {α : Type} : radixNode α → Nat
  | .mk _ es _ => 1 + edgesSize es

def edgesSize {α : Type} : List (Nat × radixNode α) → Nat
  | [] => 0
  | e :: es => nodeSize e.2 + edgesSize es

end

def stackSize {α : Type} : List (radixNode α) → Nat
  | [] => 0
  | n :: rest => nodeSize n + stackSize rest

theorem stackSize_append {α : Type} (a b : List (radixNode α)) :
    stackSize (a ++ b) = stackSize a + stackSize b := by
  induction a with
  | nil => simp [stackSize]
  | cons n rest ih => simp [stackSize, ih]; omega

theorem stackSize_map_snd {α : Type} (es : List (Nat × radixNode α)) :
    stackSize (es.map (fun e => e.2)) = edgesSize es := by
  induction es with
  | nil => simp [stackSize, edgesSize]
  | cons e es ih => simp [stackSize, edgesSize, ih]

/-- `Iterator.Next` from iterator.go: pop a node, push its children, return
its leaf if it has one, otherwise keep popping. -/
def iterNext {α : Type} : List (radixNode α) → Option (Item α) × List (radixNode α)
  | [] => (none, [])
  | .mk _ es l :: rest =>
    let stack' := es.map (fun e => e.2) ++ rest
    match l with
    | some it => (some it, stack')
    | none => iterNext stack'
termination_by st => stackSize st
decreasing_by
  simp only [stackSize, stackSize_append, stackSize_map_snd, nodeSize]
  omega

/-- `NewIterator` from iterator.go: the stack holds the root. -/
def Tree.newIterator {α : Type} (t : Tree α) : List (radixNode α) := [t.root]

theorem iterNext_none {α : Type} (st : List (radixNode α)) :
    ∀ st', iterNext st = (none, st') → st' = [] := by
  induction st using iterNext.induct with
  | case1 =>
    intro st' h
    rw [iterNext] at h
    injection h with h1 h2
    exact h2.symm
  | case2 p es rest it =>
    intro st' h
    rw [iterNext] at h
    injection h with h1 h2
    simp at h1
  | case3 p es rest stack' ih =>
    intro st' h
    rw [iterNext] at h
    exact ih st' h

theorem iterNext_some_size {α : Type} (st : List (radixNode α)) :
    ∀ st' (it : Item α), iterNext st = (some it, st') → stackSize st' < stackSize st := by
  induction st using iterNext.induct with
  | case1 =>
    intro st' it h
    rw [iterNext] at h
    injection h with h1 h2
    simp at h1
  | case2 p es rest it' =>
    intro st' it h
    rw [iterNext] at h
    injection h with h1 h2
    subst h2
    simp only [stackSize, stackSize_append, stackSize_map_snd, nodeSize]
    omega
  | case3 p es rest stack' ih =>
    intro st' it h
    rw [iterNext] at h
    have hlt := ih st' it h
    have hs : stackSize stack' = edgesSize es + stackSize rest := by
      simp only [stack', stackSize_append, stackSize_map_snd]
    simp only [stackSize, nodeSize]
    omega

/-- Repeatedly calling `Next` until `done` — the drained entry sequence. -/
def iterDrain {α : Type} (st : List (radixNode α)) : List (Item α) :=
  match h : iterNext st with
  | (none, _) => []
  | (some it, st') => it :: iterDrain st'
termination_by stackSize st
decreasing_by exact iterNext_some_size st st' it h

theorem iterDrain_of_none {α : Type} {st st2 : List (radixNode α)}
    (h : iterNext st = (none, st2)) : iterDrain st = [] := by
  rw [iterDrain]
  split
  · rfl
  · rename_i it st' heq
    rw [h] at heq
    cases heq

theorem iterDrain_of_some {α : Type} {st st' : List (radixNode α)} {it : Item α}
    (h : iterNext st = (some it, st')) : iterDrain st = it :: iterDrain st' := by
  rw [iterDrain]
  split
  · rename_i st2 heq
    rw [h] at heq
    cases heq
  · rename_i it2 st2 heq
    rw [h] at heq
    cases heq
    rfl

/-! The stepper (stepper.go): a cursor `(p, node)`, `p` being the offset
into `node`'s prefix. -/

structure Stepper (α : Type) where
  p : Nat
  node : radixNode α

/-- `NewStepper` from stepper.go. -/
def Tree.newStepper {α : Type} (t : Tree α) : Stepper α := ⟨0, t.root⟩

/-- `Stepper.Next` from stepper.go. -/
def stepperNext {α : Type} (s : Stepper α) (radix : Nat) : Bool × Stepper α :=
  if h : s.p < s.node.pre.length then
    if radix = s.node.pre.get ⟨s.p, h⟩ then (true, ⟨s.p + 1, s.node⟩)
    else (false, s)
  else
    match s.node.getEdge radix with
    | none => (false, s)
    | some child => (true, ⟨0, child⟩)

/-- `Stepper.Item` from stepper.go. -/
def stepperItem {α : Type} (s : Stepper α) : Option (Item α) :=
  if s.p = s.node.pre.length then s.node.leaf else none

/-- `Stepper.Value` from stepper.go. -/
def stepperValue {α : Type} (s : Stepper α) : Option α :=
  (stepperItem s).map Item.value

/-- Feed a byte sequence to the stepper, stopping at the first `Next` that
does not advance. -/
def stepperRun {α : Type} (s : Stepper α) : List Nat → Bool × Stepper α
  | [] => (true, s)
  | r :: rest =>
    match stepperNext s r with
    | (true, s') => stepperRun s' rest
    | (false, s') => (false, s')

/-! The entry-list abstraction: every `Item` in a subtree, in depth-first
edge order (the order `radixNode.walk` visits them). -/

mutual

def elems {α : Type} : radixNode α → List (Item α)
  | .mk _ es l => l.toList ++ elemsL es

def elemsL {α : Type} : List (Nat × radixNode α) → List (Item α)
  | [] => []
  | e :: es => elems e.2 ++ elemsL es

end

/-! ### The sorted-edges representation invariant and the edge store -/

/-- Invariant 1 of the spec: the edge array is sorted strictly ascending by
symbol (which also rules out duplicate symbols). -/
def EdgesSorted {α : Type} (es : List (Nat × radixNode α)) : Prop :=
  es.Pairwise (fun a b => a.1 < b.1)

/-- Linear association-list lookup; `getEdge` agrees with it on sorted edge
arrays. -/
def findE {α : Type} : List (Nat × radixNode α) → Nat → Option (radixNode α)
  | [], _ => none
  | (r', c) :: rest, r => if r' = r then some c else findE rest r

theorem indexEdgeAux_spec {α : Type} (es : List (Nat × radixNode α)) (r : Nat)
    (hmono : EdgesSorted es) :
    ∀ i j, i ≤ j → j ≤ es.length →
      i ≤ indexEdgeAux es r i j ∧ indexEdgeAux es r i j ≤ j ∧
      (∀ k (hk : k < es.length), i ≤ k → k < indexEdgeAux es r i j →
        (es.get ⟨k, hk⟩).1 < r) ∧
      (∀ k (hk : k < es.length), indexEdgeAux es r i j ≤ k → k < j →
        r ≤ (es.get ⟨k, hk⟩).1) := by
  have hpg := List.pairwise_iff_get.mp hmono
  intro i j
  induction i, j using indexEdgeAux.induct es r with
  | case1 i j hij m hm ih =>
    intro hij' hj
    have hmdef : m = (i + j) / 2 := rfl
    have hmj : m < j := by omega
    have hmi : i ≤ m := by omega
    have hmlen : m < es.length := by omega
    have heq : indexEdgeAux es r i j = indexEdgeAux es r (m + 1) j := by
      conv_lhs => rw [indexEdgeAux]
      simp only [dif_pos hij, ← hmdef, if_pos hm]
    have hgd : (es.getD m default) = es.get ⟨m, hmlen⟩ := by
      rw [List.getD_eq_getElem?_getD, List.getElem?_eq_getElem hmlen]
      rfl
    rw [hgd] at hm
    rw [heq]
    obtain ⟨h1, h2, h3, h4⟩ := ih (by omega) hj
    refine ⟨by omega, h2, ?_, h4⟩
    intro k hk hik hkidx
    by_cases hkm : k < m
    · exact lt_trans (hpg ⟨k, hk⟩ ⟨m, hmlen⟩ hkm) hm
    · by_cases hkm' : k = m
      · subst hkm'; exact hm
      · exact h3 k hk (by omega) hkidx
  | case2 i j hij m hm ih =>
    intro hij' hj
    have hmdef : m = (i + j) / 2 := rfl
    have hmj : m < j := by omega
    have hmi : i ≤ m := by omega
    have hmlen : m < es.length := by omega
    have heq : indexEdgeAux es r i j = indexEdgeAux es r i m := by
      conv_lhs => rw [indexEdgeAux]
      simp only [dif_pos hij, ← hmdef, if_neg hm]
    have hgd : (es.getD m default) = es.get ⟨m, hmlen⟩ := by
      rw [List.getD_eq_getElem?_getD, List.getElem?_eq_getElem hmlen]
      rfl
    rw [hgd] at hm
    push_neg at hm
    rw [heq]
    obtain ⟨h1, h2, h3, h4⟩ := ih (by omega) (by omega)
    refine ⟨h1, by omega, h3, ?_⟩
    intro k hk hidx hkj
    by_cases hkm : m < k
    · exact le_trans hm (le_of_lt (hpg ⟨m, hmlen⟩ ⟨k, hk⟩ hkm))
    · by_cases hkm' : k = m
      · subst hkm'; exact hm
      · exact h4 k hk hidx (by omega)
  | case3 i j hij =>
    intro hij' hj
    have heq : indexEdgeAux es r i j = i := by
      rw [indexEdgeAux]
      simp only [dif_neg hij]
    rw [heq]
    exact ⟨le_refl i, by omega, fun k hk h1 h2 => by omega, fun k hk h1 h2 => by omega⟩

theorem indexEdge_spec {α : Type} (node : radixNode α) (r : Nat)
    (hmono : EdgesSorted node.edges) :
    node.indexEdge r ≤ node.edges.length ∧
    (∀ k (hk : k < node.edges.length), k < node.indexEdge r →
      (node.edges.get ⟨k, hk⟩).1 < r) ∧
    (∀ k (hk : k < node.edges.length), node.indexEdge r ≤ k →
      r ≤ (node.edges.get ⟨k, hk⟩).1) := by
  obtain ⟨h1, h2, h3, h4⟩ :=
    indexEdgeAux_spec node.edges r hmono 0 node.edges.length (Nat.zero_le _) (le_refl _)
  exact ⟨h2, fun k hk hki => h3 k hk (Nat.zero_le _) hki,
    fun k hk hki => h4 k hk hki hk⟩

theorem EdgesSorted.key_eq_index {α : Type} {es : List (Nat × radixNode α)}
    (hmono : EdgesSorted es) {k k' : Nat} (hk : k < es.length) (hk' : k' < es.length)
    (heq : (es.get ⟨k, hk⟩).1 = (es.get ⟨k', hk'⟩).1) : k = k' := by
  have hpg := List.pairwise_iff_get.mp hmono
  rcases Nat.lt_trichotomy k k' with h | h | h
  · exact absurd heq (Nat.ne_of_lt (hpg ⟨k, hk⟩ ⟨k', hk'⟩ h))
  · exact h
  · exact absurd heq.symm (Nat.ne_of_lt (hpg ⟨k', hk'⟩ ⟨k, hk⟩ h))

theorem getEdge_mem {α : Type} {node : radixNode α} {r : Nat} {c : radixNode α}
    (h : node.getEdge r = some c) : (r, c) ∈ node.edges := by
  simp only [radixNode.getEdge] at h
  split at h
  · split at h
    · rename_i hlt hr
      injection h with h
      subst h
      have : node.edges.get ⟨node.indexEdge r, hlt⟩ = (r, _) := Prod.ext hr rfl
      rw [← this]
      exact List.get_mem _ _ _
    · cases h
  · cases h

theorem getEdge_none_not_mem {α : Type} {node : radixNode α} {r : Nat}
    (hmono : EdgesSorted node.edges) (h : node.getEdge r = none) :
    ∀ c, (r, c) ∉ node.edges := by
  intro c hc
  obtain ⟨hle, hlt, hge⟩ := indexEdge_spec node r hmono
  obtain ⟨k, hk, hkv⟩ := List.mem_iff_getElem.mp hc
  have hkv1 : (node.edges.get ⟨k, hk⟩).1 = r := by
    rw [List.get_eq_getElem, hkv]
  simp only [radixNode.getEdge] at h
  split at h
  · split at h
    · cases h
    · rename_i hidx hne
      -- the entry for r sits at index k; binary search places it at idx
      rcases Nat.lt_or_ge k (node.indexEdge r) with hlt' | hge'
      · exact absurd hkv1 (Nat.ne_of_lt (hlt k hk hlt'))
      · rcases Nat.eq_or_lt_of_le hge' with heq | hgt
        · subst heq; exact hne hkv1
        · have h1 := hge k hk (le_of_lt hgt)
          have h2 := hge (node.indexEdge r) hidx (le_refl _)
          have h3 := List.pairwise_iff_get.mp hmono ⟨node.indexEdge r, hidx⟩ ⟨k, hk⟩ hgt
          omega
  · rename_i hidx
    have := hlt k hk (by omega)
    omega

theorem mem_getEdge {α : Type} {node : radixNode α} {r : Nat} {c : radixNode α}
    (hmono : EdgesSorted node.edges) (h : (r, c) ∈ node.edges) :
    node.getEdge r = some c := by
  cases hg : node.getEdge r with
  | none => exact absurd h (getEdge_none_not_mem hmono hg c)
  | some c' =>
    have h' := getEdge_mem hg
    obtain ⟨k, hk, hkv⟩ := List.mem_iff_getElem.mp h
    obtain ⟨k', hk', hkv'⟩ := List.mem_iff_getElem.mp h'
    have : k = k' := by
      apply hmono.key_eq_index hk hk'
      rw [List.get_eq_getElem, List.get_eq_getElem, hkv, hkv']
    subst this
    rw [hkv] at hkv'
    injection hkv' with h1 h2
    rw [h2]

theorem findE_some_mem {α : Type} {es : List (Nat × radixNode α)} {r : Nat} {c : radixNode α}
    (h : findE es r = some c) : (r, c) ∈ es := by
  induction es with
  | nil => cases h
  | cons e rest ih =>
    obtain ⟨r', c'⟩ := e
    rw [findE] at h
    split at h
    · rename_i hr
      injection h with h
      subst hr h
      exact List.mem_cons_self _ _
    · exact List.mem_cons_of_mem _ (ih h)

theorem findE_none_iff {α : Type} {es : List (Nat × radixNode α)} {r : Nat} :
    findE es r = none ↔ ∀ c, (r, c) ∉ es := by
  induction es with
  | nil => simp [findE]
  | cons e rest ih =>
    obtain ⟨r', c'⟩ := e
    rw [findE]
    constructor
    · intro h c hc
      split at h
      · cases h
      · rename_i hne
        rcases List.mem_cons.mp hc with heq | hmem
        · injection heq with h1 h2; exact hne h1.symm
        · exact (ih.mp h) c hmem
    · intro h
      split
      · rename_i hr
        subst hr
        exact absurd (List.mem_cons_self _ _) (h c')
      · exact ih.mpr fun c hc => h c (List.mem_cons_of_mem _ hc)

theorem mem_findE {α : Type} {es : List (Nat × radixNode α)} {r : Nat} {c : radixNode α}
    (hmono : EdgesSorted es) (h : (r, c) ∈ es) : findE es r = some c := by
  cases hf : findE es r with
  | none => exact absurd h (findE_none_iff.mp hf c)
  | some c' =>
    have h' := findE_some_mem hf
    obtain ⟨k, hk, hkv⟩ := List.mem_iff_getElem.mp h
    obtain ⟨k', hk', hkv'⟩ := List.mem_iff_getElem.mp h'
    have : k = k' := by
      apply hmono.key_eq_index hk hk'
      rw [List.get_eq_getElem, List.get_eq_getElem, hkv, hkv']
    subst this
    rw [hkv] at hkv'
    injection hkv' with h1 h2
    rw [h2]

/-- On a sorted edge array the binary search `getEdge` agrees with linear
association-list lookup. -/
theorem getEdge_eq_findE {α : Type} (node : radixNode α) (r : Nat)
    (hmono : EdgesSorted node.edges) : node.getEdge r = findE node.edges r := by
  cases hf : findE node.edges r with
  | none =>
    cases hg : node.getEdge r with
    | none => rfl
    | some c => exact absurd (getEdge_mem hg) (findE_none_iff.mp hf c)
  | some c => exact mem_getEdge hmono (findE_some_mem hf)

theorem getElem_mem_take {β : Type} (l : List β) (n k : Nat) (hk : k < l.length)
    (hkn : k < n) : l[k] ∈ l.take n := by
  rw [List.mem_iff_getElem]
  refine ⟨k, by simp only [List.length_take]; omega, ?_⟩
  rw [List.getElem_take]

theorem getElem_idx_congr {β : Type} (l : List β) {i j : Nat} (h : i < l.length)
    (he : i = j) : l[i] = l.get ⟨j, he ▸ h⟩ := by
  subst he
  rfl

theorem getElem_mem_drop {β : Type} (l : List β) (n k : Nat) (hk : k < l.length)
    (hnk : n ≤ k) : l[k] ∈ l.drop n := by
  rw [List.mem_iff_getElem]
  refine ⟨k - n, by simp only [List.length_drop]; omega, ?_⟩
  rw [List.getElem_drop]
  exact getElem_idx_congr l (by omega) (by omega)

theorem indexEdge_of_mem {α : Type} {node : radixNode α} {r : Nat} {c : radixNode α}
    (hmono : EdgesSorted node.edges) (hmem : (r, c) ∈ node.edges) :
    ∃ h : node.indexEdge r < node.edges.length,
      node.edges.get ⟨node.indexEdge r, h⟩ = (r, c) := by
  obtain ⟨hle, hlt, hge⟩ := indexEdge_spec node r hmono
  obtain ⟨k, hk, hkv⟩ := List.mem_iff_getElem.mp hmem
  have hkv1 : (node.edges.get ⟨k, hk⟩).1 = r := by rw [List.get_eq_getElem, hkv]
  have hk_ge : node.indexEdge r ≤ k := by
    by_contra hcon
    exact absurd hkv1 (Nat.ne_of_lt (hlt k hk (by omega)))
  have hk_eq : node.indexEdge r = k := by
    rcases Nat.eq_or_lt_of_le hk_ge with h | h
    · exact h
    · have h1 := hge (node.indexEdge r) (by omega) (le_refl _)
      have h2 := List.pairwise_iff_get.mp hmono ⟨node.indexEdge r, by omega⟩ ⟨k, hk⟩ h
      omega
  subst hk_eq
  exact ⟨hk, by rw [List.get_eq_getElem, hkv]⟩

theorem addEdge_mem_iff {α : Type} {node : radixNode α} {e x : Nat × radixNode α} :
    x ∈ (node.addEdge e).edges ↔ x = e ∨ x ∈ node.edges := by
  simp only [radixNode.addEdge, radixNode.edges_mk]
  rw [List.mem_append, List.mem_cons]
  constructor
  · rintro (h | h | h)
    · exact Or.inr (List.mem_of_mem_take h)
    · exact Or.inl h
    · exact Or.inr (List.mem_of_mem_drop h)
  · rintro (h | h)
    · exact Or.inr (Or.inl h)
    · rw [← List.take_append_drop (node.indexEdge e.1) node.edges, List.mem_append] at h
      rcases h with h | h
      · exact Or.inl h
      · exact Or.inr (Or.inr h)

theorem addEdge_sorted {α : Type} {node : radixNode α} {e : Nat × radixNode α}
    (hmono : EdgesSorted node.edges) (hfresh : ∀ c, (e.1, c) ∉ node.edges) :
    EdgesSorted (node.addEdge e).edges := by
  obtain ⟨hle, hlt, hge⟩ := indexEdge_spec node e.1 hmono
  simp only [radixNode.addEdge, radixNode.edges_mk]
  rw [EdgesSorted, List.pairwise_append]
  refine ⟨hmono.sublist (List.take_sublist _ _), ?_, ?_⟩
  · rw [List.pairwise_cons]
    refine ⟨?_, hmono.sublist (List.drop_sublist _ _)⟩
    intro y hy
    obtain ⟨k, hk, hkv⟩ := List.mem_iff_getElem.mp hy
    rw [List.getElem_drop] at hkv
    have hklen : node.indexEdge e.1 + k < node.edges.length := by
      simp only [List.length_drop] at hk
      omega
    have h1 := hge (node.indexEdge e.1 + k) hklen (by omega)
    rw [List.get_eq_getElem, hkv] at h1
    have hne : y.1 ≠ e.1 := by
      intro hc
      exact hfresh y.2 (by rw [← hc, Prod.mk.eta]; exact List.mem_of_mem_drop hy)
    omega
  · intro x hx y hy
    obtain ⟨k, hk, hkv⟩ := List.mem_iff_getElem.mp hx
    have hklen : k < node.edges.length := by
      have := List.length_take_le (node.indexEdge e.1) node.edges
      omega
    have hkidx : k < node.indexEdge e.1 := by
      simp only [List.length_take] at hk
      omega
    rw [List.getElem_take] at hkv
    have h1 := hlt k hklen hkidx
    rw [List.get_eq_getElem, hkv] at h1
    rcases List.mem_cons.mp hy with h | h
    · subst h; exact h1
    · obtain ⟨k', hk', hkv'⟩ := List.mem_iff_getElem.mp h
      rw [List.getElem_drop] at hkv'
      have hklen' : node.indexEdge e.1 + k' < node.edges.length := by
        simp only [List.length_drop] at hk'
        omega
      have h2 := hge (node.indexEdge e.1 + k') hklen' (by omega)
      rw [List.get_eq_getElem, hkv'] at h2
      omega

theorem findE_addEdge {α : Type} {node : radixNode α} {e : Nat × radixNode α}
    (hmono : EdgesSorted node.edges) (hfresh : ∀ c, (e.1, c) ∉ node.edges) (r' : Nat) :
    findE (node.addEdge e).edges r' =
      if r' = e.1 then some e.2 else findE node.edges r' := by
  have hsorted' := addEdge_sorted hmono hfresh
  by_cases hr : r' = e.1
  · subst hr
    rw [if_pos rfl]
    exact mem_findE hsorted' (addEdge_mem_iff.mpr (Or.inl (Prod.mk.eta).symm))
  · rw [if_neg hr]
    cases hf : findE node.edges r' with
    | some c => exact mem_findE hsorted' (addEdge_mem_iff.mpr (Or.inr (findE_some_mem hf)))
    | none =>
      rw [findE_none_iff]
      intro c hc
      rcases addEdge_mem_iff.mp hc with h | h
      · exact hr (congrArg Prod.fst h)
      · exact findE_none_iff.mp hf c h

theorem addEdge_length {α : Type} {node : radixNode α} {e : Nat × radixNode α}
    (hmono : EdgesSorted node.edges) :
    (node.addEdge e).edges.length = node.edges.length + 1 := by
  obtain ⟨hle, _, _⟩ := indexEdge_spec node e.1 hmono
  simp only [radixNode.addEdge, radixNode.edges_mk, List.length_append, List.length_cons,
    List.length_take, List.length_drop]
  omega

theorem delEdge_pre {α : Type} (node : radixNode α) (r : Nat) :
    (node.delEdge r).pre = node.pre := by
  simp only [radixNode.delEdge]
  split
  · split <;> rfl
  · rfl

theorem delEdge_leaf {α : Type} (node : radixNode α) (r : Nat) :
    (node.delEdge r).leaf = node.leaf := by
  simp only [radixNode.delEdge]
  split
  · split <;> rfl
  · rfl

theorem delEdge_mem_iff {α : Type} {node : radixNode α} {r : Nat} {x : Nat × radixNode α}
    (hmono : EdgesSorted node.edges) :
    x ∈ (node.delEdge r).edges ↔ x ∈ node.edges ∧ x.1 ≠ r := by
  obtain ⟨hle, hlt, hge⟩ := indexEdge_spec node r hmono
  simp only [radixNode.delEdge]
  split
  · rename_i hidx
    split
    · rename_i hkey
      simp only [radixNode.edges_mk]
      rw [List.mem_append]
      constructor
      · rintro (h | h)
        · obtain ⟨k, hk, hkv⟩ := List.mem_iff_getElem.mp h
          have hkidx : k < node.indexEdge r := by
            simp only [List.length_take] at hk
            omega
          have hklen : k < node.edges.length := by omega
          rw [List.getElem_take] at hkv
          have h1 := hlt k hklen hkidx
          rw [List.get_eq_getElem, hkv] at h1
          exact ⟨List.mem_of_mem_take h, by omega⟩
        · obtain ⟨k, hk, hkv⟩ := List.mem_iff_getElem.mp h
          rw [List.getElem_drop] at hkv
          have hklen : node.indexEdge r + 1 + k < node.edges.length := by
            simp only [List.length_drop] at hk
            omega
          have h2 := List.pairwise_iff_get.mp hmono ⟨node.indexEdge r, hidx⟩
            ⟨node.indexEdge r + 1 + k, hklen⟩ (Fin.mk_lt_mk.mpr (by omega))
          have hget : node.edges.get ⟨node.indexEdge r + 1 + k, hklen⟩ = x := hkv
          rw [hget, hkey] at h2
          exact ⟨List.mem_of_mem_drop h, by omega⟩
      · rintro ⟨hmem, hne⟩
        obtain ⟨k, hk, hkv⟩ := List.mem_iff_getElem.mp hmem
        have hkne : k ≠ node.indexEdge r := by
          intro hc
          subst hc
          rw [List.get_eq_getElem, hkv] at hkey
          exact hne hkey
        rcases Nat.lt_or_ge k (node.indexEdge r) with hkidx | hkidx
        · left
          rw [List.mem_iff_getElem]
          refine ⟨k, ?_, ?_⟩
          · simp only [List.length_take]
            omega
          · rw [List.getElem_take]
            exact hkv
        · right
          rw [← hkv]
          exact getElem_mem_drop _ _ _ hk (by omega)
    · rename_i hkey
      have hg : node.getEdge r = none := by
        simp only [radixNode.getEdge]
        rw [dif_pos hidx, if_neg hkey]
      have hnot := getEdge_none_not_mem hmono hg
      constructor
      · intro h
        refine ⟨h, fun hc => ?_⟩
        exact hnot x.2 (by rw [← hc, Prod.mk.eta]; exact h)
      · exact fun h => h.1
  · rename_i hidx
    have hg : node.getEdge r = none := by
      simp only [radixNode.getEdge]
      rw [dif_neg hidx]
    have hnot := getEdge_none_not_mem hmono hg
    constructor
    · intro h
      refine ⟨h, fun hc => ?_⟩
      exact hnot x.2 (by rw [← hc, Prod.mk.eta]; exact h)
    · exact fun h => h.1

theorem delEdge_sorted {α : Type} {node : radixNode α} {r : Nat}
    (hmono : EdgesSorted node.edges) : EdgesSorted (node.delEdge r).edges := by
  simp only [radixNode.delEdge]
  split
  · rename_i hidx
    split
    · simp only [radixNode.edges_mk]
      apply hmono.sublist
      have h1 : List.Sublist (node.edges.drop (node.indexEdge r + 1))
          (node.edges.drop (node.indexEdge r)) := by
        rw [← @List.cons_getElem_drop_succ _ node.edges (node.indexEdge r) hidx]
        exact List.sublist_cons_self _ _
      have h2 := List.Sublist.append_left h1 (node.edges.take (node.indexEdge r))
      rw [List.take_append_drop] at h2
      exact h2
    · exact hmono
  · exact hmono

theorem findE_delEdge {α : Type} {node : radixNode α} {r : Nat}
    (hmono : EdgesSorted node.edges) (r' : Nat) :
    findE (node.delEdge r).edges r' = if r' = r then none else findE node.edges r' := by
  have hsorted' := delEdge_sorted (r := r) hmono
  by_cases hr : r' = r
  · subst hr
    rw [if_pos rfl, findE_none_iff]
    intro c hc
    exact absurd rfl ((delEdge_mem_iff hmono).mp hc).2
  · rw [if_neg hr]
    cases hf : findE node.edges r' with
    | some c => exact mem_findE hsorted' ((delEdge_mem_iff hmono).mpr ⟨findE_some_mem hf, hr⟩)
    | none =>
      rw [findE_none_iff]
      intro c hc
      exact findE_none_iff.mp hf c ((delEdge_mem_iff hmono).mp hc).1

theorem delEdge_length_of_mem {α : Type} {node : radixNode α} {r : Nat} {c : radixNode α}
    (hmono : EdgesSorted node.edges) (hmem : (r, c) ∈ node.edges) :
    (node.delEdge r).edges.length + 1 = node.edges.length := by
  obtain ⟨hidx, hval⟩ := indexEdge_of_mem hmono hmem
  simp only [radixNode.delEdge]
  rw [dif_pos hidx, if_pos (by rw [hval])]
  simp only [radixNode.edges_mk, List.length_append, List.length_take, List.length_drop]
  omega

theorem setEdge_mem_iff {α : Type} {node : radixNode α} {r : Nat} {c child : radixNode α}
    {x : Nat × radixNode α} (hmono : EdgesSorted node.edges) (hmem : (r, c) ∈ node.edges) :
    x ∈ (node.setEdge r child).edges ↔ x = (r, child) ∨ (x ∈ node.edges ∧ x.1 ≠ r) := by
  obtain ⟨hle, hlt, hge⟩ := indexEdge_spec node r hmono
  obtain ⟨hidx, hval⟩ := indexEdge_of_mem hmono hmem
  have hkeyidx : (node.edges.get ⟨node.indexEdge r, hidx⟩).1 = r := by rw [hval]
  simp only [radixNode.setEdge, radixNode.edges_mk]
  rw [List.mem_append, List.mem_cons]
  constructor
  · rintro (h | h | h)
    · obtain ⟨k, hk, hkv⟩ := List.mem_iff_getElem.mp h
      have hkidx : k < node.indexEdge r := by
        simp only [List.length_take] at hk
        omega
      have hklen : k < node.edges.length := by omega
      rw [List.getElem_take] at hkv
      have h1 := hlt k hklen hkidx
      rw [List.get_eq_getElem, hkv] at h1
      exact Or.inr ⟨List.mem_of_mem_take h, by omega⟩
    · exact Or.inl h
    · obtain ⟨k, hk, hkv⟩ := List.mem_iff_getElem.mp h
      rw [List.getElem_drop] at hkv
      have hklen : node.indexEdge r + 1 + k < node.edges.length := by
        simp only [List.length_drop] at hk
        omega
      have h2 := List.pairwise_iff_get.mp hmono ⟨node.indexEdge r, hidx⟩
        ⟨node.indexEdge r + 1 + k, hklen⟩ (Fin.mk_lt_mk.mpr (by omega))
      have hget : node.edges.get ⟨node.indexEdge r + 1 + k, hklen⟩ = x := hkv
      rw [hget, hkeyidx] at h2
      exact Or.inr ⟨List.mem_of_mem_drop h, by omega⟩
  · rintro (h | ⟨hmem', hne⟩)
    · exact Or.inr (Or.inl h)
    · obtain ⟨k, hk, hkv⟩ := List.mem_iff_getElem.mp hmem'
      have hkne : k ≠ node.indexEdge r := by
        intro hc
        subst hc
        rw [List.get_eq_getElem, hkv] at hkeyidx
        exact hne hkeyidx
      rcases Nat.lt_or_ge k (node.indexEdge r) with hkidx | hkidx
      · left
        rw [List.mem_iff_getElem]
        refine ⟨k, ?_, ?_⟩
        · simp only [List.length_take]
          omega
        · rw [List.getElem_take]
          exact hkv
      · right; right
        rw [← hkv]
        exact getElem_mem_drop _ _ _ hk (by omega)

theorem setEdge_sorted {α : Type} {node : radixNode α} {r : Nat} {c child : radixNode α}
    (hmono : EdgesSorted node.edges) (hmem : (r, c) ∈ node.edges) :
    EdgesSorted (node.setEdge r child).edges := by
  obtain ⟨hle, hlt, hge⟩ := indexEdge_spec node r hmono
  obtain ⟨hidx, hval⟩ := indexEdge_of_mem hmono hmem
  have hkeyidx : (node.edges.get ⟨node.indexEdge r, hidx⟩).1 = r := by rw [hval]
  simp only [radixNode.setEdge, radixNode.edges_mk]
  rw [EdgesSorted, List.pairwise_append]
  refine ⟨hmono.sublist (List.take_sublist _ _), ?_, ?_⟩
  · rw [List.pairwise_cons]
    refine ⟨?_, (delEdge_sorted (r := r) hmono).sublist ?_⟩
    · intro y hy
      obtain ⟨k, hk, hkv⟩ := List.mem_iff_getElem.mp hy
      rw [List.getElem_drop] at hkv
      have hklen : node.indexEdge r + 1 + k < node.edges.length := by
        simp only [List.length_drop] at hk
        omega
      have h2 := List.pairwise_iff_get.mp hmono ⟨node.indexEdge r, hidx⟩
        ⟨node.indexEdge r + 1 + k, hklen⟩ (Fin.mk_lt_mk.mpr (by omega))
      have hget : node.edges.get ⟨node.indexEdge r + 1 + k, hklen⟩ = y := hkv
      rw [hget, hkeyidx] at h2
      exact h2
    · -- the tail is a sublist of the deleted-edge array, which is sorted
      simp only [radixNode.delEdge]
      rw [dif_pos hidx, if_pos hkeyidx]
      simp only [radixNode.edges_mk]
      exact List.sublist_append_right _ _
  · intro x hx y hy
    obtain ⟨k, hk, hkv⟩ := List.mem_iff_getElem.mp hx
    have hkidx : k < node.indexEdge r := by
      simp only [List.length_take] at hk
      omega
    have hklen : k < node.edges.length := by omega
    rw [List.getElem_take] at hkv
    have h1 := hlt k hklen hkidx
    rw [List.get_eq_getElem, hkv] at h1
    rcases List.mem_cons.mp hy with h | h
    · subst h; exact h1
    · obtain ⟨k', hk', hkv'⟩ := List.mem_iff_getElem.mp h
      rw [List.getElem_drop] at hkv'
      have hklen' : node.indexEdge r + 1 + k' < node.edges.length := by
        simp only [List.length_drop] at hk'
        omega
      have h2 := List.pairwise_iff_get.mp hmono ⟨k, hklen⟩
        ⟨node.indexEdge r + 1 + k', hklen'⟩ (Fin.mk_lt_mk.mpr (by omega))
      have hget : node.edges.get ⟨node.indexEdge r + 1 + k', hklen'⟩ = y := hkv'
      have hget2 : node.edges.get ⟨k, hklen⟩ = x := hkv
      rw [hget, hget2] at h2
      exact h2

theorem findE_setEdge {α : Type} {node : radixNode α} {r : Nat} {c child : radixNode α}
    (hmono : EdgesSorted node.edges) (hmem : (r, c) ∈ node.edges) (r' : Nat) :
    findE (node.setEdge r child).edges r' =
      if r' = r then some child else findE node.edges r' := by
  have hsorted' := @setEdge_sorted _ node r c child hmono hmem
  by_cases hr : r' = r
  · subst hr
    rw [if_pos rfl]
    exact mem_findE hsorted' ((setEdge_mem_iff hmono hmem).mpr (Or.inl rfl))
  · rw [if_neg hr]
    cases hf : findE node.edges r' with
    | some c' =>
      exact mem_findE hsorted' ((setEdge_mem_iff hmono hmem).mpr (Or.inr ⟨findE_some_mem hf, hr⟩))
    | none =>
      rw [findE_none_iff]
      intro c' hc
      rcases (setEdge_mem_iff hmono hmem).mp hc with h | h
      · exact hr (congrArg Prod.fst h)
      · exact findE_none_iff.mp hf c' h.1

theorem setEdge_length {α : Type} {node : radixNode α} {r : Nat} {c child : radixNode α}
    (hmono : EdgesSorted node.edges) (hmem : (r, c) ∈ node.edges) :
    (node.setEdge r child).edges.length = node.edges.length := by
  obtain ⟨hidx, _⟩ := indexEdge_of_mem hmono hmem
  simp only [radixNode.setEdge, radixNode.edges_mk, List.length_append, List.length_cons,
    List.length_take, List.length_drop]
  omega

/-! ### The recursive sorted-edges invariant and lookup support lemmas -/

mutual

/-- Every edge array in the subtree is sorted strictly ascending by symbol
(spec invariant 1, applied recursively). -/
def WFNode {α : Type} : radixNode α → Prop
  | .mk _ es _ => EdgesSorted es ∧ WFEdges es

def WFEdges {α : Type} : List (Nat × radixNode α) → Prop
  | [] => True
  | e :: es => WFNode e.2 ∧ WFEdges es

end

theorem WFNode.sorted {α : Type} {node : radixNode α} (h : WFNode node) :
    EdgesSorted node.edges := by
  cases node
  rw [WFNode] at h
  exact h.1

theorem WFNode.wfEdges {α : Type} {node : radixNode α} (h : WFNode node) :
    WFEdges node.edges := by
  cases node
  rw [WFNode] at h
  exact h.2

theorem WFNode.mk_intro {α : Type} {p : List Nat} {es : List (Nat × radixNode α)}
    {l : Option (Item α)} (h1 : EdgesSorted es) (h2 : WFEdges es) :
    WFNode (radixNode.mk p es l) := by
  rw [WFNode]
  exact ⟨h1, h2⟩

theorem WFEdges_mem {α : Type} {es : List (Nat × radixNode α)} (h : WFEdges es)
    {e : Nat × radixNode α} (hmem : e ∈ es) : WFNode e.2 := by
  induction es with
  | nil => cases hmem
  | cons x xs ih =>
    rw [WFEdges] at h
    rcases List.mem_cons.mp hmem with heq | hmem'
    · subst heq; exact h.1
    · exact ih h.2 hmem'

theorem WFEdges_of_forall {α : Type} {es : List (Nat × radixNode α)}
    (h : ∀ e ∈ es, WFNode e.2) : WFEdges es := by
  induction es with
  | nil => rw [WFEdges]; trivial
  | cons x xs ih =>
    rw [WFEdges]
    exact ⟨h x (List.mem_cons_self _ _), ih fun e he => h e (List.mem_cons_of_mem _ he)⟩

theorem WFNode.child {α : Type} {node : radixNode α} (h : WFNode node)
    {r : Nat} {c : radixNode α} (hmem : (r, c) ∈ node.edges) : WFNode c :=
  WFEdges_mem h.wfEdges hmem

theorem getRest_nil {α : Type} (node : radixNode α) :
    getRest node [] = node.leaf.map Item.value := by
  rw [getRest]

theorem getRest_cons {α : Type} (node : radixNode α) (r : Nat) (rest : List Nat) :
    getRest node (r :: rest) =
      match node.getEdge r with
      | none => none
      | some child =>
        if child.pre.isPrefixOf rest then getRest child (rest.drop child.pre.length)
        else none := by
  rw [getRest]

theorem getEdge_congr {α : Type} {n1 n2 : radixNode α} (h : n1.edges = n2.edges) (r : Nat) :
    n1.getEdge r = n2.getEdge r := by
  cases n1
  cases n2
  simp only [radixNode.edges_mk] at h
  subst h
  rfl

theorem getRest_congr {α : Type} {n1 n2 : radixNode α} (hE : n1.edges = n2.edges)
    (hL : n1.leaf = n2.leaf) (key : List Nat) : getRest n1 key = getRest n2 key := by
  cases key with
  | nil => rw [getRest_nil, getRest_nil, hL]
  | cons r rest => rw [getRest_cons, getRest_cons, getEdge_congr hE]

theorem getEdge_empty {α : Type} (p : List Nat) (l : Option (Item α)) (r : Nat) :
    (radixNode.mk p [] l).getEdge r = none := by
  simp only [radixNode.getEdge]
  rw [dif_neg]
  simp

/-- `getRest` as seen from the parent: first match this node's prefix, then
continue inside the node.  This is the semantics of arriving at a node
through its parent edge. -/
def getAt {α : Type} (node : radixNode α) (p : Nat) (key : List Nat) : Option α :=
  if (node.pre.drop p).isPrefixOf key then getRest node (key.drop (node.pre.length - p))
  else none

theorem getAt_len {α : Type} (node : radixNode α) (key : List Nat) :
    getAt node node.pre.length key = getRest node key := by
  rw [getAt, List.drop_length, if_pos (by rw [List.isPrefixOf_iff_prefix]; exact List.nil_prefix)]
  simp

theorem getAt_zero {α : Type} (node : radixNode α) (key : List Nat) :
    getAt node 0 key =
      if node.pre.isPrefixOf key then getRest node (key.drop node.pre.length) else none := by
  rw [getAt, List.drop_zero, Nat.sub_zero]

theorem getAt_nil_of_lt {α : Type} {node : radixNode α} {p : Nat}
    (h : p < node.pre.length) : getAt node p [] = none := by
  rw [getAt, if_neg]
  intro hc
  rw [List.isPrefixOf_iff_prefix] at hc
  have := hc.length_le
  simp only [List.length_drop, List.length_nil] at this
  omega

theorem getAt_nil_of_eq {α : Type} {node : radixNode α} {p : Nat}
    (h : p = node.pre.length) : getAt node p [] = node.leaf.map Item.value := by
  subst h
  rw [getAt_len, getRest_nil]

theorem getAt_cons_eq {α : Type} {node : radixNode α} {p : Nat} (h : p < node.pre.length)
    {r : Nat} (hr : node.pre.get ⟨p, h⟩ = r) (rest : List Nat) :
    getAt node p (r :: rest) = getAt node (p + 1) rest := by
  rw [getAt, getAt]
  have hd : node.pre.drop p = r :: node.pre.drop (p + 1) := by
    rw [List.drop_eq_getElem_cons h]
    rw [← hr]
    rfl
  rw [hd]
  have : (r :: node.pre.drop (p + 1)).isPrefixOf (r :: rest) =
      (node.pre.drop (p + 1)).isPrefixOf rest := by
    simp [List.isPrefixOf]
  rw [this]
  have hsub : node.pre.length - p = (node.pre.length - (p + 1)) + 1 := by omega
  rw [hsub, List.drop_succ_cons]

theorem getAt_cons_ne {α : Type} {node : radixNode α} {p : Nat} (h : p < node.pre.length)
    {r : Nat} (hr : node.pre.get ⟨p, h⟩ ≠ r) (rest : List Nat) :
    getAt node p (r :: rest) = none := by
  rw [getAt, if_neg]
  intro hc
  have hd : node.pre.drop p = node.pre.get ⟨p, h⟩ :: node.pre.drop (p + 1) := by
    rw [List.drop_eq_getElem_cons h]
    rfl
  rw [hd, List.isPrefixOf_iff_prefix] at hc
  obtain ⟨t, ht⟩ := hc
  rw [List.cons_append] at ht
  injection ht with h1 h2
  exact hr h1

theorem getRest_cons_sorted {α : Type} {node : radixNode α}
    (hmono : EdgesSorted node.edges) (r : Nat) (rest : List Nat) :
    getRest node (r :: rest) =
      match findE node.edges r with
      | none => none
      | some child => getAt child 0 rest := by
  rw [getRest_cons, getEdge_eq_findE node r hmono]
  cases findE node.edges r with
  | none => rfl
  | some child =>
    show (if child.pre.isPrefixOf rest then getRest child (rest.drop child.pre.length) else none) =
      getAt child 0 rest
    rw [getAt_zero]

theorem addEdge_pre {α : Type} (node : radixNode α) (e : Nat × radixNode α) :
    (node.addEdge e).pre = node.pre := rfl

theorem addEdge_leaf {α : Type} (node : radixNode α) (e : Nat × radixNode α) :
    (node.addEdge e).leaf = node.leaf := rfl

theorem setEdge_pre {α : Type} (node : radixNode α) (r : Nat) (c : radixNode α) :
    (node.setEdge r c).pre = node.pre := rfl

theorem setEdge_leaf {α : Type} (node : radixNode α) (r : Nat) (c : radixNode α) :
    (node.setEdge r c).leaf = node.leaf := rfl

theorem WFNode.intro {α : Type} {n : radixNode α} (h1 : EdgesSorted n.edges)
    (h2 : WFEdges n.edges) : WFNode n := by
  cases n
  exact WFNode.mk_intro h1 h2

theorem indexEdgeAux_refl {α : Type} (es : List (Nat × radixNode α)) (r i : Nat) :
    indexEdgeAux es r i i = i := by
  rw [indexEdgeAux]
  simp

theorem split_eq {α : Type} (node : radixNode α) (p : Nat) (h : p < node.pre.length) :
    node.split p = .mk (node.pre.take p)
      [(node.pre.getD p 0, .mk (node.pre.drop (p + 1)) node.edges node.leaf)] none := by
  simp only [radixNode.split, radixNode.addEdge, radixNode.edges_mk, List.take_nil,
    List.drop_nil, List.nil_append, radixNode.mk.injEq]
  refine ⟨?_, ?_, trivial⟩
  · split
    · rename_i h0
      subst h0
      rw [List.take_zero]
    · rfl
  · refine congrArg (fun z => [(node.pre.getD p 0, z)]) ?_
    refine congrArg (fun w => radixNode.mk w node.edges node.leaf) ?_
    split
    · rfl
    · rename_i hge
      rw [List.drop_eq_nil_of_le (by omega)]

theorem getAt_leafchild_self {α : Type} (restKey : List Nat) (it : Item α) :
    getAt (.mk restKey [] (some it)) 0 restKey = some it.value := by
  rw [getAt_zero]
  rw [if_pos (by rw [List.isPrefixOf_iff_prefix]; exact List.prefix_refl _)]
  simp only [radixNode.pre_mk, List.drop_length, getRest_nil, radixNode.leaf_mk]
  rfl

theorem getAt_leafchild_ne {α : Type} {restKey rest' : List Nat} (it : Item α)
    (h : rest' ≠ restKey) : getAt (.mk restKey [] (some it)) 0 rest' = none := by
  rw [getAt_zero]
  simp only [radixNode.pre_mk]
  split
  · rename_i hpre
    rw [List.isPrefixOf_iff_prefix] at hpre
    obtain ⟨t, ht⟩ := hpre
    cases t with
    | nil => rw [List.append_nil] at ht; exact absurd ht.symm h
    | cons x u =>
      rw [← ht, List.drop_left]
      rw [getRest_cons]
      rw [getEdge_empty]
  · rfl

theorem getAt_split_child {α : Type} (node : radixNode α) (p : Nat) (key : List Nat) :
    getAt (.mk (node.pre.drop (p + 1)) node.edges node.leaf) 0 key = getAt node (p + 1) key := by
  rw [getAt_zero, getAt]
  simp only [radixNode.pre_mk, List.length_drop]
  by_cases hc : (node.pre.drop (p + 1)).isPrefixOf key
  · rw [if_pos hc, if_pos hc]
    exact @getRest_congr _ (.mk (node.pre.drop (p + 1)) node.edges node.leaf) node rfl rfl _
  · rw [if_neg hc, if_neg hc]

set_option maxHeartbeats 1000000

theorem getAt_of_len_eq {α : Type} {node : radixNode α} {p : Nat}
    (h : node.pre.length = p) (key : List Nat) : getAt node p key = getRest node key := by
  subst h
  exact getAt_len node key

theorem putNode_spec {α : Type} (key : List Nat) :
    ∀ (node : radixNode α) (p : Nat) (fk : List Nat) (v : α),
      WFNode node → p ≤ node.pre.length →
      WFNode (putNode node p key fk v).1 ∧
      (∃ q, p ≤ q ∧ (putNode node p key fk v).1.pre = node.pre.take q) ∧
      getAt (putNode node p key fk v).1 p key = some v ∧
      ((putNode node p key fk v).2.1 = true ↔ getAt node p key = none) ∧
      (putNode node p key fk v).2.2 = (putNode node p key fk v).2.1 ∧
      (∀ key', key' ≠ key → getAt (putNode node p key fk v).1 p key' = getAt node p key') := by
  induction key with
  | nil =>
    intro node p fk v hwf hp
    rw [putNode]
    by_cases hlt : p < node.pre.length
    · rw [if_pos hlt]
      simp only [split_eq node p hlt, radixNode.pre_mk, radixNode.edges_mk]
      have hgd : node.pre.getD p 0 = node.pre.get ⟨p, hlt⟩ := by
        rw [List.getD_eq_getElem?_getD, List.getElem?_eq_getElem hlt]
        rfl
      have hlen : (node.pre.take p).length = p := by
        simp only [List.length_take]
        omega
      refine ⟨?_, ?_, ?_, ?_, ?_, ?_⟩
      · refine WFNode.mk_intro (List.pairwise_singleton _ _) ?_
        rw [WFEdges, WFEdges]
        exact ⟨WFNode.mk_intro hwf.sorted hwf.wfEdges, trivial⟩
      · exact ⟨p, le_refl p, rfl⟩
      · rw [getAt_nil_of_eq (by simp only [radixNode.pre_mk, hlen])]
        rfl
      · simp only [getAt_nil_of_lt hlt]
      · trivial
      · intro key' hk'
        cases key' with
        | nil => exact absurd rfl hk'
        | cons r' rest' =>
          rw [getAt_of_len_eq (by simp only [radixNode.pre_mk, hlen])]
          rw [getRest_cons_sorted (by exact List.pairwise_singleton _ _) r' rest']
          simp only [radixNode.edges_mk]
          by_cases hr' : r' = node.pre.get ⟨p, hlt⟩
          · subst hr'
            rw [show findE [(node.pre.getD p 0, radixNode.mk (node.pre.drop (p + 1))
                node.edges node.leaf)] (node.pre.get ⟨p, hlt⟩) = some (radixNode.mk
                (node.pre.drop (p + 1)) node.edges node.leaf) from by
              rw [findE, if_pos hgd]]
            rw [getAt_cons_eq hlt rfl rest']
            exact getAt_split_child node p rest'
          · rw [show findE [(node.pre.getD p 0, radixNode.mk (node.pre.drop (p + 1))
                node.edges node.leaf)] r' = none from by
              rw [findE, if_neg (by rw [hgd]; exact fun hc => hr' hc.symm), findE]]
            rw [getAt_cons_ne hlt (fun hc => hr' hc.symm) rest']
    · rw [if_neg hlt]
      have hpe : p = node.pre.length := by omega
      subst hpe
      simp only []
      refine ⟨WFNode.mk_intro hwf.sorted hwf.wfEdges, ⟨node.pre.length, le_refl _, (List.take_length _).symm⟩, ?_, ?_, trivial, ?_⟩
      · rw [getAt_nil_of_eq (show node.pre.length =
          (radixNode.mk node.pre node.edges (some ⟨fk, v⟩)).pre.length from rfl)]
        rfl
      · rw [getAt_nil_of_eq (Eq.refl node.pre.length)]
        cases node.leaf with
        | none => simp
        | some it => simp
      · intro key' hk'
        cases key' with
        | nil => exact absurd rfl hk'
        | cons r' rest' =>
          rw [getAt_of_len_eq (show
            (radixNode.mk node.pre node.edges (some ⟨fk, v⟩)).pre.length = node.pre.length
            from rfl), getAt_len, getRest_cons, getRest_cons,
            @getEdge_congr _ (radixNode.mk node.pre node.edges (some ⟨fk, v⟩)) node rfl r']
  | cons r rest ih =>
    intro node p fk v hwf hp
    rw [putNode]
    by_cases hlt : p < node.pre.length
    · rw [dif_pos hlt]
      by_cases hr : r = node.pre.get ⟨p, hlt⟩
      · rw [if_pos hr]
        obtain ⟨ih1, ⟨q, hq, hqpre⟩, ih3, ih4, ih5, ih6⟩ :=
          ih node (p + 1) fk v hwf (by omega)
        have hplen' : p < (putNode node (p + 1) rest fk v).1.pre.length := by
          rw [hqpre, List.length_take]
          omega
        have hget' : ∀ hh : p < (putNode node (p + 1) rest fk v).1.pre.length,
            (putNode node (p + 1) rest fk v).1.pre.get ⟨p, hh⟩ = r := by
          rw [hqpre]
          intro hh
          have h2 : (node.pre.take q).get ⟨p, hh⟩ = node.pre[p] := List.getElem_take _
          rw [h2]
          exact hr.symm
        refine ⟨ih1, ⟨q, by omega, hqpre⟩, ?_, ?_, ih5, ?_⟩
        · rw [getAt_cons_eq hplen' (hget' hplen')]
          exact ih3
        · rw [getAt_cons_eq hlt hr.symm]
          exact ih4
        · intro key' hk'
          cases key' with
          | nil =>
            rw [getAt_nil_of_lt hplen', getAt_nil_of_lt hlt]
          | cons r' rest' =>
            by_cases hr' : r' = r
            · subst hr'
              have hrest' : rest' ≠ rest := by
                intro hc
                exact hk' (by rw [hc])
              rw [getAt_cons_eq hplen' (hget' hplen'), getAt_cons_eq hlt hr.symm]
              exact ih6 rest' hrest'
            · rw [getAt_cons_ne hplen' (by rw [hget' hplen']; exact fun hc => hr' hc.symm),
                getAt_cons_ne hlt (by rw [← hr]; exact fun hc => hr' hc.symm)]
      · rw [if_neg hr]
        simp only []
        have hgd : node.pre.getD p 0 = node.pre.get ⟨p, hlt⟩ := by
          rw [List.getD_eq_getElem?_getD, List.getElem?_eq_getElem hlt]
          rfl
        have hSsorted : EdgesSorted (node.split p).edges := by
          rw [split_eq node p hlt]
          simp only [radixNode.edges_mk]
          exact List.pairwise_singleton _ _
        have hfresh : ∀ c, (r, c) ∉ (node.split p).edges := by
          rw [split_eq node p hlt]
          simp only [radixNode.edges_mk]
          intro c hc
          simp only [radixNode.edges_mk, List.mem_singleton] at hc
          injection hc with hc1 hc2
          rw [hgd] at hc1
          exact hr hc1
        have hAsorted : EdgesSorted
            ((node.split p).addEdge (r, radixNode.mk rest [] (some ⟨fk, v⟩))).edges :=
          addEdge_sorted hSsorted hfresh
        have hApre : ((node.split p).addEdge (r, radixNode.mk rest [] (some ⟨fk, v⟩))).pre =
            node.pre.take p := by
          rw [addEdge_pre, split_eq node p hlt]
          rfl
        have hAlen : ((node.split p).addEdge (r, radixNode.mk rest [] (some ⟨fk, v⟩))).pre.length
            = p := by
          rw [hApre, List.length_take]
          omega
        have hAleaf : ((node.split p).addEdge (r, radixNode.mk rest [] (some ⟨fk, v⟩))).leaf
            = none := by
          rw [addEdge_leaf, split_eq node p hlt]
          rfl
        have hfind := @findE_addEdge _ (node.split p)
          (r, radixNode.mk rest [] (some ⟨fk, v⟩)) hSsorted hfresh
        have hfindS : ∀ r', findE (node.split p).edges r' =
            if node.pre.get ⟨p, hlt⟩ = r' then
              some (radixNode.mk (node.pre.drop (p + 1)) node.edges node.leaf)
            else none := by
          intro r'
          rw [split_eq node p hlt]
          simp only [radixNode.edges_mk]
          rw [findE, hgd]
          split
          · rfl
          · rw [findE]
        refine ⟨?_, ⟨p, le_refl p, hApre⟩, ?_, ?_, trivial, ?_⟩
        · refine WFNode.intro hAsorted (WFEdges_of_forall ?_)
          intro e he
          rcases addEdge_mem_iff.mp he with heq | hmem
          · subst heq
            exact WFNode.mk_intro (List.Pairwise.nil) trivial
          · rw [split_eq node p hlt] at hmem
            simp only [radixNode.edges_mk, List.mem_singleton] at hmem
            subst hmem
            exact WFNode.mk_intro hwf.sorted hwf.wfEdges
        · rw [getAt_of_len_eq hAlen, getRest_cons_sorted hAsorted, hfind r]
          rw [if_pos rfl]
          exact getAt_leafchild_self rest ⟨fk, v⟩
        · rw [getAt_cons_ne hlt (fun hc => hr hc.symm)]
          simp
        · intro key' hk'
          cases key' with
          | nil =>
            rw [getAt_nil_of_eq hAlen.symm, hAleaf, getAt_nil_of_lt hlt]
            rfl
          | cons r' rest' =>
            rw [getAt_of_len_eq hAlen, getRest_cons_sorted hAsorted, hfind r']
            by_cases hr' : r' = r
            · subst hr'
              rw [if_pos rfl]
              have hrest' : rest' ≠ rest := by
                intro hc
                exact hk' (by rw [hc])
              simp only []
              rw [getAt_leafchild_ne _ hrest', getAt_cons_ne hlt (fun hc => hr hc.symm)]
            · rw [if_neg hr', hfindS r']
              by_cases hrp : node.pre.get ⟨p, hlt⟩ = r'
              · rw [if_pos hrp]
                simp only []
                rw [getAt_cons_eq hlt hrp]
                exact getAt_split_child node p rest'
              · rw [if_neg hrp]
                simp only []
                rw [getAt_cons_ne hlt hrp]
    · rw [dif_neg hlt]
      have hpe : p = node.pre.length := by omega
      subst hpe
      have hsorted := hwf.sorted
      cases hge : node.getEdge r with
      | some child =>
        simp only []
        have hchild_mem : (r, child) ∈ node.edges := getEdge_mem hge
        have hchildWF : WFNode child := hwf.child hchild_mem
        obtain ⟨ih1, ⟨q, hq0, hqpre⟩, ih3, ih4, ih5, ih6⟩ :=
          ih child 0 fk v hchildWF (Nat.zero_le _)
        have hsorted' := @setEdge_sorted _ node r child (putNode child 0 rest fk v).1
          hsorted hchild_mem
        have hfindE : findE node.edges r = some child := by
          rw [← getEdge_eq_findE node r hsorted]
          exact hge
        have hfindSet := @findE_setEdge _ node r child (putNode child 0 rest fk v).1
          hsorted hchild_mem
        have hSEpre : (node.setEdge r (putNode child 0 rest fk v).1).pre.length =
            node.pre.length := rfl
        refine ⟨?_, ⟨node.pre.length, le_refl _, (List.take_length _).symm⟩, ?_, ?_, ih5, ?_⟩
        · refine WFNode.intro hsorted' (WFEdges_of_forall ?_)
          intro e he
          rcases (setEdge_mem_iff hsorted hchild_mem).mp he with heq | hmem
          · subst heq
            exact ih1
          · exact WFEdges_mem hwf.wfEdges hmem.1
        · rw [getAt_of_len_eq hSEpre, getRest_cons_sorted hsorted', hfindSet r, if_pos rfl]
          simp only []
          exact ih3
        · rw [getAt_len, getRest_cons_sorted hsorted, hfindE]
          simp only []
          exact ih4
        · intro key' hk'
          cases key' with
          | nil =>
            rw [getAt_nil_of_eq hSEpre.symm, getAt_nil_of_eq rfl, setEdge_leaf]
          | cons r' rest' =>
            rw [getAt_of_len_eq hSEpre, getRest_cons_sorted hsorted', hfindSet r',
              getAt_len, getRest_cons_sorted hsorted]
            by_cases hr' : r' = r
            · subst hr'
              rw [if_pos rfl, hfindE]
              simp only []
              have hrest' : rest' ≠ rest := by
                intro hc
                exact hk' (by rw [hc])
              exact ih6 rest' hrest'
            · rw [if_neg hr']
      | none =>
        simp only []
        have hnotmem := getEdge_none_not_mem hsorted hge
        have hfindnone : findE node.edges r = none := by
          rw [← getEdge_eq_findE node r hsorted]
          exact hge
        have hsorted' : EdgesSorted
            ((node.addEdge (r, radixNode.mk rest [] (some ⟨fk, v⟩))).edges) :=
          @addEdge_sorted _ node (r, radixNode.mk rest [] (some ⟨fk, v⟩)) hsorted hnotmem
        have hfindAdd := @findE_addEdge _ node (r, radixNode.mk rest [] (some ⟨fk, v⟩))
          hsorted hnotmem
        have hAEpre : (node.addEdge (r, radixNode.mk rest [] (some ⟨fk, v⟩))).pre.length =
            node.pre.length := rfl
        refine ⟨?_, ⟨node.pre.length, le_refl _, (List.take_length _).symm⟩, ?_, ?_, trivial, ?_⟩
        · refine WFNode.intro hsorted' (WFEdges_of_forall ?_)
          intro e he
          rcases addEdge_mem_iff.mp he with heq | hmem
          · subst heq
            exact WFNode.mk_intro List.Pairwise.nil trivial
          · exact WFEdges_mem hwf.wfEdges hmem
        · rw [getAt_of_len_eq hAEpre, getRest_cons_sorted hsorted', hfindAdd r, if_pos rfl]
          exact getAt_leafchild_self rest ⟨fk, v⟩
        · rw [getAt_len, getRest_cons_sorted hsorted, hfindnone]
          simp
        · intro key' hk'
          cases key' with
          | nil =>
            rw [getAt_nil_of_eq hAEpre.symm, getAt_nil_of_eq rfl, addEdge_leaf]
          | cons r' rest' =>
            rw [getAt_of_len_eq hAEpre, getRest_cons_sorted hsorted', hfindAdd r',
              getAt_len, getRest_cons_sorted hsorted]
            by_cases hr' : r' = r
            · subst hr'
              rw [if_pos rfl, hfindnone]
              simp only []
              have hrest' : rest' ≠ rest := by
                intro hc
                exact hk' (by rw [hc])
              exact getAt_leafchild_ne _ hrest'
            · rw [if_neg hr']

/-- The tree representation invariant: the root carries no prefix (it never
acquires one: `split` never fires at the root and `compress` skips it), and
every edge array in the tree is sorted. -/
def TreeWF {α : Type} (t : Tree α) : Prop :=
  t.root.pre = [] ∧ WFNode t.root

theorem getAt_zero_of_pre_nil {α : Type} {node : radixNode α} (h : node.pre = [])
    (key : List Nat) : getAt node 0 key = getRest node key := by
  rw [getAt_zero, h]
  simp [List.isPrefixOf]

theorem put_root_spec {α : Type} (t : Tree α) (k : List Nat) (v : α) (hwf : TreeWF t) :
    TreeWF (Tree.put t k v).1 ∧
    Tree.get (Tree.put t k v).1 k = some v ∧
    ((Tree.put t k v).2 = true ↔ Tree.get t k = none) ∧
    (∀ k', k' ≠ k → Tree.get (Tree.put t k v).1 k' = Tree.get t k') ∧
    (Tree.put t k v).1.size = t.size + (if (Tree.put t k v).2 then 1 else 0) := by
  obtain ⟨hpre, hwfn⟩ := hwf
  obtain ⟨s1, ⟨q, hq, hqpre⟩, s3, s4, s5, s6⟩ :=
    putNode_spec k t.root 0 k v hwfn (by rw [hpre]; exact Nat.le_refl 0)
  have hpre' : (putNode t.root 0 k k v).1.pre = [] := by
    rw [hqpre, hpre, List.take_nil]
  refine ⟨⟨hpre', s1⟩, ?_, ?_, ?_, ?_⟩
  · show getRest (putNode t.root 0 k k v).1 k = some v
    rw [← getAt_zero_of_pre_nil hpre']
    exact s3
  · show (putNode t.root 0 k k v).2.1 = true ↔ getRest t.root k = none
    rw [← getAt_zero_of_pre_nil hpre]
    exact s4
  · intro k' hk'
    show getRest (putNode t.root 0 k k v).1 k' = getRest t.root k'
    rw [← getAt_zero_of_pre_nil hpre', ← getAt_zero_of_pre_nil hpre]
    exact s6 k' hk'
  · show t.size + _ = t.size + _
    rw [s5]
    rfl

/-! ### Delete correctness -/

theorem getAt_empty {α : Type} {node : radixNode α} (hE : node.edges = [])
    (hL : node.leaf = none) (k : List Nat) : getAt node 0 k = none := by
  rw [getAt_zero]
  split
  · cases k2 : k.drop node.pre.length with
    | nil => rw [getRest_nil, hL]; rfl
    | cons x xs =>
      rw [getRest_cons]
      rw [@getEdge_congr _ node (radixNode.mk node.pre [] node.leaf) (by rw [hE]; rfl) x]
      rw [getEdge_empty]
  · rfl

theorem WF_compress {α : Type} {node : radixNode α} (h : WFNode node) :
    WFNode node.compress := by
  rw [radixNode.compress]
  split
  · rename_i r c heq hleaf
    have hc : WFNode c := h.child (by rw [heq]; exact List.mem_singleton.mpr rfl)
    exact WFNode.mk_intro hc.sorted hc.wfEdges
  · exact h

theorem getAt_compress {α : Type} (node : radixNode α) (k : List Nat) :
    getAt node.compress 0 k = getAt node 0 k := by
  rw [radixNode.compress]
  split
  · rename_i r c heq hleaf
    have hsingle : node.getEdge = (radixNode.mk node.pre [(r, c)] node.leaf).getEdge := by
      funext x
      exact @getEdge_congr _ node (radixNode.mk node.pre [(r, c)] node.leaf) (by rw [heq]; rfl) x
    rw [getAt_zero, getAt_zero]
    simp only [radixNode.pre_mk]
    by_cases hp : List.IsPrefix node.pre k
    · obtain ⟨k2, hk2⟩ := hp
      subst hk2
      rw [if_pos (List.isPrefixOf_iff_prefix.mpr (List.prefix_append _ _)), List.drop_left]
      cases k2 with
      | nil =>
        rw [getRest_nil, hleaf]
        rw [if_neg (by
          intro hc
          rw [List.isPrefixOf_iff_prefix] at hc
          have := hc.length_le
          simp only [List.length_append, List.length_cons, List.append_nil] at this
          omega)]
        rfl
      | cons x xs =>
        rw [getRest_cons, hsingle]
        rw [show (radixNode.mk node.pre [(r, c)] node.leaf).getEdge x = findE [(r, c)] x from
          getEdge_eq_findE _ x (List.pairwise_singleton _ _)]
        rw [findE]
        by_cases hx : r = x
        · subst hx
          rw [if_pos rfl]
          simp only []
          by_cases hcp : List.IsPrefix c.pre xs
          · obtain ⟨k3, hk3⟩ := hcp
            subst hk3
            rw [if_pos (List.isPrefixOf_iff_prefix.mpr (List.prefix_append _ _)), List.drop_left]
            rw [if_pos (by
              rw [List.isPrefixOf_iff_prefix]
              refine (List.prefix_append_right_inj node.pre).mpr ?_
              rw [List.cons_prefix_cons]
              exact ⟨rfl, List.prefix_append _ _⟩)]
            have heq2 : node.pre ++ r :: (c.pre ++ k3) = (node.pre ++ r :: c.pre) ++ k3 := by
              simp
            rw [heq2, List.drop_left]
            exact @getRest_congr _ (radixNode.mk (node.pre ++ r :: c.pre) c.edges c.leaf)
              c rfl rfl k3
          · rw [if_neg (by
              intro hc2
              rw [List.isPrefixOf_iff_prefix] at hc2
              have h2 := (List.prefix_append_right_inj node.pre).mp hc2
              rw [List.cons_prefix_cons] at h2
              exact hcp h2.2)]
            rw [if_neg (by
              intro hc2
              rw [List.isPrefixOf_iff_prefix] at hc2
              exact hcp hc2)]
        · rw [if_neg hx, findE]
          simp only []
          rw [if_neg (by
            intro hc2
            rw [List.isPrefixOf_iff_prefix] at hc2
            have h2 := (List.prefix_append_right_inj node.pre).mp hc2
            rw [List.cons_prefix_cons] at h2
            exact hx h2.1)]
    · rw [if_neg (by
        intro hc
        rw [List.isPrefixOf_iff_prefix] at hc
        exact hp (List.IsPrefix.trans (List.prefix_append _ _) hc)), if_neg (by
        intro hc
        rw [List.isPrefixOf_iff_prefix] at hc
        exact hp hc)]
  · rfl

theorem getAt_unfold {α : Type} (node : radixNode α) (hmono : EdgesSorted node.edges)
    (k : List Nat) :
    getAt node 0 k =
      if node.pre.isPrefixOf k then
        (match k.drop node.pre.length with
         | [] => node.leaf.map Item.value
         | x :: xs =>
           match findE node.edges x with
           | none => none
           | some c => getAt c 0 xs)
      else none := by
  rw [getAt_zero]
  by_cases hp : node.pre.isPrefixOf k
  · rw [if_pos hp, if_pos hp]
    cases hd : k.drop node.pre.length with
    | nil => rw [getRest_nil]
    | cons x xs => rw [getRest_cons_sorted hmono]
  · rw [if_neg hp, if_neg hp]

theorem pruneChild_getAt {α : Type} (b : Bool) (node : radixNode α) (r : Nat)
    (child' c : radixNode α) (hmono : EdgesSorted node.edges) (hmem : (r, c) ∈ node.edges)
    (k : List Nat) :
    getAt (pruneChild b node r child') 0 k =
      if node.pre.isPrefixOf k then
        (match k.drop node.pre.length with
         | [] => node.leaf.map Item.value
         | x :: xs =>
           if x = r then getAt child' 0 xs
           else
             match findE node.edges x with
             | none => none
             | some cc => getAt cc 0 xs)
      else none := by
  rw [pruneChild]
  split
  · rename_i hEc' hLc'
    simp only []
    have hfd := findE_delEdge (r := r) hmono
    split
    · rename_i hE1 hL1
      rw [getAt_empty hE1 hL1]
      have hL : node.leaf = none := by rw [← delEdge_leaf node r]; exact hL1
      have hfE : ∀ x, x ≠ r → findE node.edges x = none := by
        intro x hx
        have := hfd x
        rw [if_neg hx] at this
        rw [← this]
        have : (node.delEdge r).edges = [] := hE1
        rw [this, findE]
      split
      · rename_i hp
        split
        · rw [hL]
          rfl
        · rename_i x xs hd
          by_cases hx : x = r
          · rw [if_pos hx, getAt_empty hEc' hLc']
          · rw [if_neg hx, hfE x hx]
      · rfl
    · have hgoal : ∀ m : radixNode α, (∀ kk, getAt m 0 kk = getAt (node.delEdge r) 0 kk) →
          getAt m 0 k =
          if node.pre.isPrefixOf k then
            (match k.drop node.pre.length with
             | [] => node.leaf.map Item.value
             | x :: xs =>
               if x = r then getAt child' 0 xs
               else
                 match findE node.edges x with
                 | none => none
                 | some cc => getAt cc 0 xs)
          else none := by
        intro m hm
        rw [hm k, getAt_unfold _ (delEdge_sorted hmono), delEdge_pre, delEdge_leaf]
        by_cases hp : node.pre.isPrefixOf k
        · rw [if_pos hp, if_pos hp]
          cases hd : k.drop node.pre.length with
          | nil => rfl
          | cons x xs =>
            simp only []
            rw [hfd x]
            by_cases hx : x = r
            · rw [if_pos hx, if_pos hx, getAt_empty hEc' hLc']
            · rw [if_neg hx, if_neg hx]
        · rw [if_neg hp, if_neg hp]
      split
      · exact hgoal _ (fun kk => rfl)
      · exact hgoal _ (fun kk => getAt_compress (node.delEdge r) kk)
  · rename_i hne
    rw [getAt_unfold _ (setEdge_sorted hmono hmem), setEdge_pre, setEdge_leaf]
    by_cases hp : node.pre.isPrefixOf k
    · rw [if_pos hp, if_pos hp]
      cases hd : k.drop node.pre.length with
      | nil => rfl
      | cons x xs =>
        simp only []
        rw [findE_setEdge hmono hmem x]
        by_cases hx : x = r
        · rw [if_pos hx, if_pos hx]
        · rw [if_neg hx, if_neg hx]
    · rw [if_neg hp, if_neg hp]

theorem pruneChild_WF {α : Type} (b : Bool) {node : radixNode α} {r : Nat}
    {child' c : radixNode α} (hwf : WFNode node) (hwfc' : WFNode child')
    (hmem : (r, c) ∈ node.edges) : WFNode (pruneChild b node r child') := by
  have hdel : WFNode (node.delEdge r) := by
    refine WFNode.intro (delEdge_sorted hwf.sorted) (WFEdges_of_forall ?_)
    intro e he
    exact WFEdges_mem hwf.wfEdges ((delEdge_mem_iff hwf.sorted).mp he).1
  rw [pruneChild]
  simp only []
  split
  · split
    · exact hdel
    · split
      · exact hdel
      · exact WF_compress hdel
  · refine WFNode.intro (setEdge_sorted hwf.sorted hmem) (WFEdges_of_forall ?_)
    intro e he
    rcases (setEdge_mem_iff hwf.sorted hmem).mp he with heq | hm
    · rw [heq]
      exact hwfc'
    · exact WFEdges_mem hwf.wfEdges hm.1

theorem pruneChild_pre_of_root {α : Type} (node : radixNode α) (r : Nat)
    (child' : radixNode α) : (pruneChild true node r child').pre = node.pre := by
  rw [pruneChild]
  simp only []
  split
  · split
    · exact delEdge_pre node r
    · rw [if_pos trivial]
      exact delEdge_pre node r
  · exact setEdge_pre node r child'

theorem deleteRec_none_iff_aux {α : Type} :
    ∀ (n : Nat) (key : List Nat), key.length ≤ n →
      ∀ (b : Bool) (node : radixNode α),
        (deleteRec b node key = none ↔ getRest node key = none) := by
  intro n
  induction n with
  | zero =>
    intro key hk b node
    have : key = [] := List.eq_nil_of_length_eq_zero (by omega)
    subst this
    rw [deleteRec, getRest_nil]
    cases hL : node.leaf with
    | none => simp
    | some it =>
      simp only []
      constructor
      · intro h
        split at h
        · cases h
        · cases h
      · intro h
        simp at h
  | succ n ihn =>
    intro key hk b node
    cases key with
    | nil =>
      rw [deleteRec, getRest_nil]
      cases hL : node.leaf with
      | none => simp
      | some it =>
        simp only []
        constructor
        · intro h
          split at h
          · cases h
          · cases h
        · intro h
          simp at h
    | cons r rest =>
      rw [deleteRec, getRest_cons]
      cases hge : node.getEdge r with
      | none => simp
      | some child =>
        simp only []
        by_cases hpre : child.pre.isPrefixOf rest
        · rw [if_pos hpre, if_pos hpre]
          have hlen : (rest.drop child.pre.length).length ≤ n := by
            simp only [List.length_drop, List.length_cons] at hk ⊢
            omega
          cases hrec : deleteRec false child (rest.drop child.pre.length) with
          | none =>
            simp only []
            rw [(ihn _ hlen false child).mp hrec]
            simp
          | some child' =>
            simp only []
            constructor
            · intro h
              cases h
            · intro h
              have h2 := (ihn _ hlen false child).mpr h
              rw [hrec] at h2
              cases h2
        · rw [if_neg hpre, if_neg hpre]
          simp

theorem deleteRec_none_iff {α : Type} (b : Bool) (node : radixNode α) (key : List Nat) :
    deleteRec b node key = none ↔ getRest node key = none :=
  deleteRec_none_iff_aux key.length key (le_refl _) b node

theorem deleteRec_nil_spec {α : Type} (b : Bool) (node node' : radixNode α) (hwf : WFNode node)
    (hdel : deleteRec b node [] = some node') :
    WFNode node' ∧
    ∀ k, getAt node' 0 k = if k = node.pre ++ [] then none else getAt node 0 k := by
  rw [deleteRec] at hdel
  cases hL : node.leaf with
  | none =>
    rw [hL] at hdel
    cases hdel
  | some it =>
    rw [hL] at hdel
    simp only [] at hdel
    have hWFN0 : WFNode (radixNode.mk node.pre node.edges none) :=
      WFNode.mk_intro hwf.sorted hwf.wfEdges
    have hbase : ∀ k, getAt (radixNode.mk node.pre node.edges none) 0 k =
        if k = node.pre ++ [] then none else getAt node 0 k := by
      intro k
      rw [List.append_nil]
      rw [getAt_unfold (radixNode.mk node.pre node.edges none) hwf.sorted,
        getAt_unfold node hwf.sorted]
      simp only [radixNode.pre_mk, radixNode.edges_mk, radixNode.leaf_mk]
      by_cases hp : node.pre.isPrefixOf k
      · rw [if_pos hp, if_pos hp]
        obtain ⟨k2, hk2⟩ := List.isPrefixOf_iff_prefix.mp hp
        subst hk2
        rw [List.drop_left]
        by_cases hk2n : k2 = []
        · subst hk2n
          rw [if_pos (List.append_nil _)]
          rfl
        · rw [if_neg (by
            intro hc
            apply hk2n
            have hlen2 := congrArg List.length hc
            simp only [List.length_append] at hlen2
            exact List.eq_nil_of_length_eq_zero (by omega))]
          cases k2 with
          | nil => exact absurd rfl hk2n
          | cons x xs => rfl
      · rw [if_neg hp, if_neg hp, ite_self]
    split at hdel
    · injection hdel with hdel
      subst hdel
      exact ⟨hWFN0, hbase⟩
    · injection hdel with hdel
      subst hdel
      cases b with
      | true =>
        simp only [if_pos rfl] at *
        exact ⟨hWFN0, hbase⟩
      | false =>
        simp only [Bool.false_eq_true, if_false]
        refine ⟨WF_compress hWFN0, ?_⟩
        intro k
        rw [getAt_compress]
        exact hbase k

theorem deleteRec_spec_aux {α : Type} :
    ∀ (n : Nat) (key : List Nat), key.length ≤ n →
      ∀ (b : Bool) (node node' : radixNode α), WFNode node →
        deleteRec b node key = some node' →
        WFNode node' ∧
        ∀ k, getAt node' 0 k = if k = node.pre ++ key then none else getAt node 0 k := by
  intro n
  induction n with
  | zero =>
    intro key hk b node node' hwf hdel
    have : key = [] := List.eq_nil_of_length_eq_zero (by omega)
    subst this
    exact deleteRec_nil_spec b node node' hwf hdel
  | succ n ihn =>
    intro key hk b node node' hwf hdel
    cases key with
    | nil => exact deleteRec_nil_spec b node node' hwf hdel
    | cons r rest =>
      rw [deleteRec] at hdel
      cases hge : node.getEdge r with
      | none =>
        rw [hge] at hdel
        cases hdel
      | some child =>
        rw [hge] at hdel
        simp only [] at hdel
        by_cases hpre : child.pre.isPrefixOf rest
        · rw [if_pos hpre] at hdel
          cases hrec : deleteRec false child (rest.drop child.pre.length) with
          | none =>
            rw [hrec] at hdel
            cases hdel
          | some child' =>
            rw [hrec] at hdel
            simp only [] at hdel
            injection hdel with hdel
            subst hdel
            have hmem := getEdge_mem hge
            have hwfc : WFNode child := hwf.child hmem
            have hlen : (rest.drop child.pre.length).length ≤ n := by
              simp only [List.length_drop, List.length_cons] at hk ⊢
              omega
            obtain ⟨ihWF, ihGet⟩ := ihn _ hlen false child child' hwfc hrec
            refine ⟨pruneChild_WF b hwf ihWF hmem, ?_⟩
            intro k
            rw [pruneChild_getAt b node r child' child hwf.sorted hmem k]
            have hfindr : findE node.edges r = some child := by
              rw [← getEdge_eq_findE node r hwf.sorted]
              exact hge
            have hrest_eq : child.pre ++ rest.drop child.pre.length = rest := by
              obtain ⟨t, ht⟩ := List.isPrefixOf_iff_prefix.mp hpre
              rw [← ht, List.drop_left]
            by_cases hp : node.pre.isPrefixOf k
            · rw [if_pos hp]
              obtain ⟨k2, hk2⟩ := List.isPrefixOf_iff_prefix.mp hp
              subst hk2
              rw [List.drop_left]
              by_cases hk2r : k2 = r :: rest
              · subst hk2r
                conv_rhs => rw [if_pos rfl]
                simp only []
                rw [if_pos trivial, ihGet rest, if_pos hrest_eq.symm]
              · rw [if_neg (fun hc => hk2r ((List.append_right_inj node.pre).mp hc))]
                rw [getAt_unfold node hwf.sorted, if_pos hp, List.drop_left]
                cases k2 with
                | nil => rfl
                | cons x xs =>
                  simp only []
                  by_cases hx : x = r
                  · subst hx
                    rw [if_pos rfl, hfindr]
                    simp only []
                    rw [ihGet xs]
                    rw [if_neg (by
                      rw [hrest_eq]
                      intro hc
                      exact hk2r (by rw [hc]))]
                  · rw [if_neg hx]
            · rw [if_neg hp]
              rw [if_neg (by
                intro hc
                apply hp
                rw [hc, List.isPrefixOf_iff_prefix]
                exact List.prefix_append _ _)]
              rw [getAt_unfold node hwf.sorted, if_neg hp]
        · rw [if_neg hpre] at hdel
          cases hdel

theorem deleteRec_spec {α : Type} (b : Bool) (node node' : radixNode α) (key : List Nat)
    (hwf : WFNode node) (hdel : deleteRec b node key = some node') :
    WFNode node' ∧
    ∀ k, getAt node' 0 k = if k = node.pre ++ key then none else getAt node 0 k :=
  deleteRec_spec_aux key.length key (le_refl _) b node node' hwf hdel

theorem deleteRec_root_pre {α : Type} (node node' : radixNode α) (key : List Nat)
    (hdel : deleteRec true node key = some node') : node'.pre = node.pre := by
  cases key with
  | nil =>
    rw [deleteRec] at hdel
    cases hL : node.leaf with
    | none =>
      rw [hL] at hdel
      cases hdel
    | some it =>
      rw [hL] at hdel
      simp only [] at hdel
      split at hdel
      · injection hdel with hdel
        subst hdel
        rfl
      · injection hdel with hdel
        subst hdel
        rw [if_pos trivial]
        rfl
  | cons r rest =>
    rw [deleteRec] at hdel
    cases hge : node.getEdge r with
    | none =>
      rw [hge] at hdel
      cases hdel
    | some child =>
      rw [hge] at hdel
      simp only [] at hdel
      by_cases hpre : child.pre.isPrefixOf rest
      · rw [if_pos hpre] at hdel
        cases hrec : deleteRec false child (rest.drop child.pre.length) with
        | none =>
          rw [hrec] at hdel
          cases hdel
        | some child' =>
          rw [hrec] at hdel
          simp only [] at hdel
          injection hdel with hdel
          subst hdel
          exact pruneChild_pre_of_root node r child'
      · rw [if_neg hpre] at hdel
        cases hdel

theorem delete_root_spec {α : Type} (t : Tree α) (k : List Nat) (hwf : TreeWF t) :
    ((Tree.delete t k).2 = true ↔ Tree.get t k ≠ none) ∧
    ((Tree.delete t k).2 = false → (Tree.delete t k).1 = t) ∧
    ((Tree.delete t k).2 = true →
      TreeWF (Tree.delete t k).1 ∧
      Tree.get (Tree.delete t k).1 k = none ∧
      (∀ k', k' ≠ k → Tree.get (Tree.delete t k).1 k' = Tree.get t k') ∧
      (Tree.delete t k).1.size = t.size - 1) := by
  obtain ⟨hpre, hwfn⟩ := hwf
  cases hdel : deleteRec true t.root k with
  | none =>
    have hget : Tree.get t k = none := (deleteRec_none_iff true t.root k).mp hdel
    simp only [Tree.delete, hdel]
    refine ⟨?_, ?_, ?_⟩
    · simp [hget]
    · first
      | trivial
      | intro _
        rfl
    · intro h
      cases h
  | some root' =>
    obtain ⟨hWF', hGet'⟩ := deleteRec_spec true t.root root' k hwfn hdel
    have hpre' : root'.pre = [] := by rw [deleteRec_root_pre t.root root' k hdel, hpre]
    have hget_ne : Tree.get t k ≠ none := by
      intro hc
      have := (deleteRec_none_iff true t.root k).mpr hc
      rw [hdel] at this
      cases this
    simp only [Tree.delete, hdel]
    refine ⟨by simp [hget_ne], ?_, ?_⟩
    · intro h
      cases h
    · intro _
      refine ⟨⟨hpre', hWF'⟩, ?_, ?_, by first | trivial | rfl⟩
      · show getRest root' k = none
        rw [← getAt_zero_of_pre_nil hpre', hGet' k, if_pos (by rw [hpre, List.nil_append])]
      · intro k' hk'
        show getRest root' k' = getRest t.root k'
        rw [← getAt_zero_of_pre_nil hpre', ← getAt_zero_of_pre_nil hpre, hGet' k',
          if_neg (by rw [hpre, List.nil_append]; exact hk')]

/-! ### DeletePrefix on the empty tree (concrete evaluation) -/

theorem deletePrefixRec_new_eval :
    deletePrefixRec true (radixNode.mk [] [] none : radixNode Nat) [] =
      some (radixNode.mk [] [] none, 1) := by
  rw [deletePrefixRec]
  rfl

theorem deletePrefix_new_eval :
    Tree.deletePrefix (Tree.new : Tree Nat) [] =
      (⟨radixNode.mk [] [] none, -1⟩, true) := by
  rw [Tree.deletePrefix]
  rw [show deletePrefixRec true (Tree.new : Tree Nat).root [] =
    some (radixNode.mk [] [] none, 1) from deletePrefixRec_new_eval]
  rfl

theorem get_new_none (k : List Nat) : Tree.get (Tree.new : Tree Nat) k = none := by
  show getRest (radixNode.mk [] [] none) k = none
  cases k with
  | nil =>
    rw [getRest_nil]
    rfl
  | cons r rest =>
    rw [getRest_cons, getEdge_empty]

/-! ### Stepper refinement -/

theorem stepperNext_false_eq {α : Type} (s : Stepper α) (r : Nat) (s' : Stepper α)
    (h : stepperNext s r = (false, s')) : s' = s := by
  rw [stepperNext] at h
  split at h
  · split at h
    · injection h with h1 h2
      cases h1
    · injection h with h1 h2
      exact h2.symm
  · split at h
    · injection h with h1 h2
      exact h2.symm
    · injection h with h1 h2
      cases h1

theorem stepperRun_spec {α : Type} (key : List Nat) :
    ∀ (node : radixNode α) (p : Nat), p ≤ node.pre.length →
      (∀ s', stepperRun ⟨p, node⟩ key = (true, s') → stepperValue s' = getAt node p key) ∧
      (∀ s', stepperRun ⟨p, node⟩ key = (false, s') → getAt node p key = none) := by
  induction key with
  | nil =>
    intro node p hp
    constructor
    · intro s' h
      rw [stepperRun] at h
      injection h with h1 h2
      subst h2
      by_cases hpe : p = node.pre.length
      · rw [getAt_nil_of_eq hpe, stepperValue, stepperItem]
        simp only []
        rw [if_pos hpe]
      · rw [getAt_nil_of_lt (by omega), stepperValue, stepperItem]
        simp only []
        rw [if_neg hpe]
        rfl
    · intro s' h
      rw [stepperRun] at h
      injection h with h1 h2
      cases h1
  | cons r rest ih =>
    intro node p hp
    rw [stepperRun]
    rw [stepperNext]
    by_cases hlt : p < node.pre.length
    · rw [dif_pos hlt]
      by_cases hr : r = node.pre.get ⟨p, hlt⟩
      · rw [if_pos hr]
        simp only []
        obtain ⟨ih1, ih2⟩ := ih node (p + 1) (by omega)
        rw [getAt_cons_eq hlt hr.symm]
        exact ⟨ih1, ih2⟩
      · rw [if_neg hr]
        simp only []
        constructor
        · intro s' h
          injection h with h1 h2
          cases h1
        · intro s' h
          exact getAt_cons_ne hlt (fun hc => hr hc.symm) rest
    · rw [dif_neg hlt]
      have hpe : p = node.pre.length := by omega
      subst hpe
      cases hge : node.getEdge r with
      | none =>
        simp only []
        constructor
        · intro s' h
          injection h with h1 h2
          cases h1
        · intro s' h
          rw [getAt_len, getRest_cons, hge]
      | some child =>
        simp only []
        obtain ⟨ih1, ih2⟩ := ih child 0 (Nat.zero_le _)
        have hstep : getAt node node.pre.length (r :: rest) = getAt child 0 rest := by
          rw [getAt_len, getRest_cons, hge, getAt_zero]
        rw [hstep]
        exact ⟨ih1, ih2⟩

theorem stepper_refines_get {α : Type} (t : Tree α) (key : List Nat)
    (hpre : t.root.pre = []) :
    (∀ s', stepperRun (Tree.newStepper t) key = (true, s') →
      stepperValue s' = Tree.get t key) ∧
    (∀ s', stepperRun (Tree.newStepper t) key = (false, s') → Tree.get t key = none) := by
  obtain ⟨h1, h2⟩ := stepperRun_spec key t.root 0 (by rw [hpre]; exact Nat.le_refl 0)
  have hg : getAt t.root 0 key = Tree.get t key := getAt_zero_of_pre_nil hpre key
  rw [hg] at h1 h2
  exact ⟨h1, h2⟩

/-! ### The full structural invariant of the spec (sortedness plus the
compression/pruning conditions on non-root nodes) -/

/-- A non-root node must hold a leaf or at least two edges (otherwise it
should have been pruned or compressed away). -/
def filled {α : Type} (n : radixNode α) : Prop :=
  n.leaf.isSome = true ∨ 2 ≤ n.edges.length

mutual

/-- The invariant of a non-root node: `filled`, sorted edges, recursively. -/
def nodeOK {α : Type} : radixNode α → Prop
  | .mk _ es l =>
    ((l.isSome = true ∨ 2 ≤ es.length) ∧ EdgesSorted es) ∧ edgesOK es

def edgesOK {α : Type} : List (Nat × radixNode α) → Prop
  | [] => True
  | e :: es => nodeOK e.2 ∧ edgesOK es

end

/-- The structural invariant of a whole tree (the root is exempt from
`filled` and carries no prefix). -/
def StructOK {α : Type} (t : Tree α) : Prop :=
  t.root.pre = [] ∧ EdgesSorted t.root.edges ∧ edgesOK t.root.edges

theorem nodeOK_iff {α : Type} (n : radixNode α) :
    nodeOK n ↔ (filled n ∧ EdgesSorted n.edges) ∧ edgesOK n.edges := by
  cases n
  rw [nodeOK]
  rfl

theorem nodeOK.isFilled {α : Type} {n : radixNode α} (h : nodeOK n) : filled n :=
  ((nodeOK_iff n).mp h).1.1

theorem nodeOK.sortedEdges {α : Type} {n : radixNode α} (h : nodeOK n) : EdgesSorted n.edges :=
  ((nodeOK_iff n).mp h).1.2

theorem nodeOK.edgesOK' {α : Type} {n : radixNode α} (h : nodeOK n) : edgesOK n.edges :=
  ((nodeOK_iff n).mp h).2

theorem nodeOK.build {α : Type} {n : radixNode α} (h1 : filled n) (h2 : EdgesSorted n.edges)
    (h3 : edgesOK n.edges) : nodeOK n :=
  (nodeOK_iff n).mpr ⟨⟨h1, h2⟩, h3⟩

theorem edgesOK_mem {α : Type} {es : List (Nat × radixNode α)} (h : edgesOK es)
    {e : Nat × radixNode α} (hmem : e ∈ es) : nodeOK e.2 := by
  induction es with
  | nil => cases hmem
  | cons x xs ih =>
    rw [edgesOK] at h
    rcases List.mem_cons.mp hmem with heq | hmem'
    · subst heq
      exact h.1
    · exact ih h.2 hmem'

theorem edgesOK_of_forall {α : Type} {es : List (Nat × radixNode α)}
    (h : ∀ e ∈ es, nodeOK e.2) : edgesOK es := by
  induction es with
  | nil => rw [edgesOK]; trivial
  | cons x xs ih =>
    rw [edgesOK]
    exact ⟨h x (List.mem_cons_self _ _), ih fun e he => h e (List.mem_cons_of_mem _ he)⟩

theorem compress_sorted {α : Type} {n : radixNode α} (hs : EdgesSorted n.edges)
    (hok : edgesOK n.edges) : EdgesSorted n.compress.edges ∧ edgesOK n.compress.edges := by
  rw [radixNode.compress]
  split
  · rename_i r c heq hleaf
    have hc : nodeOK c := edgesOK_mem hok (by rw [heq]; exact List.mem_singleton.mpr rfl)
    exact ⟨hc.sortedEdges, hc.edgesOK'⟩
  · exact ⟨hs, hok⟩

theorem compress_filled {α : Type} {n : radixNode α} (hok : edgesOK n.edges)
    (hne : ¬(n.edges = [] ∧ n.leaf = none)) : filled n.compress := by
  rw [radixNode.compress]
  split
  · rename_i r c heq hleaf
    have hc : nodeOK c := edgesOK_mem hok (by rw [heq]; exact List.mem_singleton.mpr rfl)
    rcases hc.isFilled with h | h
    · left
      simpa using h
    · right
      simpa using h
  · rename_i hnm
    rcases hes : n.edges with _ | ⟨e, _ | ⟨e2, es2⟩⟩
    · cases hL : n.leaf with
      | none => exact absurd ⟨hes, hL⟩ hne
      | some it => exact Or.inl (by rw [hL]; rfl)
    · obtain ⟨r, c⟩ := e
      cases hL : n.leaf with
      | none => exact (hnm r c hes hL).elim
      | some it => exact Or.inl (by rw [hL]; rfl)
    · exact Or.inr (by rw [hes]; simp only [List.length_cons]; omega)

theorem nodeSize_le_edgesSize_of_mem {α : Type} {es : List (Nat × radixNode α)}
    {e : Nat × radixNode α} (h : e ∈ es) : nodeSize e.2 ≤ edgesSize es := by
  induction es with
  | nil => cases h
  | cons x xs ih =>
    rw [edgesSize]
    rcases List.mem_cons.mp h with heq | hmem
    · subst heq
      omega
    · have := ih hmem
      omega

theorem nodeOK_imp_WF_aux {α : Type} :
    ∀ (m : Nat) (n : radixNode α), nodeSize n ≤ m → nodeOK n → WFNode n := by
  intro m
  induction m with
  | zero =>
    intro n hsz
    cases n
    rw [nodeSize] at hsz
    omega
  | succ m ihm =>
    intro n hsz hok
    refine WFNode.intro hok.sortedEdges (WFEdges_of_forall ?_)
    intro e he
    refine ihm e.2 ?_ (edgesOK_mem hok.edgesOK' he)
    have h1 := nodeSize_le_edgesSize_of_mem he
    cases n
    rw [nodeSize] at hsz
    simp only [radixNode.edges_mk] at he h1
    omega

theorem nodeOK_imp_WF {α : Type} {n : radixNode α} (h : nodeOK n) : WFNode n :=
  nodeOK_imp_WF_aux (nodeSize n) n (le_refl _) h

theorem edgesOK_imp_WFEdges {α : Type} {es : List (Nat × radixNode α)} (h : edgesOK es) :
    WFEdges es :=
  WFEdges_of_forall fun e he => nodeOK_imp_WF (edgesOK_mem h he)

theorem putNode_structOK {α : Type} (key : List Nat) :
    ∀ (node : radixNode α) (p : Nat) (fk : List Nat) (v : α),
      p ≤ node.pre.length →
      EdgesSorted node.edges → edgesOK node.edges →
      (filled node ∨ node.pre = []) →
      EdgesSorted (putNode node p key fk v).1.edges ∧
      edgesOK (putNode node p key fk v).1.edges ∧
      (filled node → filled (putNode node p key fk v).1) := by
  induction key with
  | nil =>
    intro node p fk v hp hs hok hfill
    rw [putNode]
    by_cases hlt : p < node.pre.length
    · rw [if_pos hlt]
      simp only [split_eq node p hlt, radixNode.pre_mk, radixNode.edges_mk]
      have hfillednode : filled node := by
        rcases hfill with h | h
        · exact h
        · rw [h] at hlt
          cases hlt
      refine ⟨List.pairwise_singleton _ _, ?_, fun _ => Or.inl rfl⟩
      rw [edgesOK, edgesOK]
      refine ⟨?_, trivial⟩
      refine nodeOK.build ?_ hs hok
      rcases hfillednode with h | h
      · exact Or.inl h
      · exact Or.inr h
    · rw [if_neg hlt]
      simp only []
      exact ⟨hs, hok, fun _ => Or.inl rfl⟩
  | cons r rest ih =>
    intro node p fk v hp hs hok hfill
    rw [putNode]
    by_cases hlt : p < node.pre.length
    · rw [dif_pos hlt]
      by_cases hr : r = node.pre.get ⟨p, hlt⟩
      · rw [if_pos hr]
        exact ih node (p + 1) fk v (by omega) hs hok hfill
      · rw [if_neg hr]
        simp only []
        have hfillednode : filled node := by
          rcases hfill with h | h
          · exact h
          · rw [h] at hlt
            cases hlt
        have hgd : node.pre.getD p 0 = node.pre.get ⟨p, hlt⟩ := by
          rw [List.getD_eq_getElem?_getD, List.getElem?_eq_getElem hlt]
          rfl
        have hSsorted : EdgesSorted (node.split p).edges := by
          rw [split_eq node p hlt]
          simp only [radixNode.edges_mk]
          exact List.pairwise_singleton _ _
        have hfresh : ∀ c, (r, c) ∉ (node.split p).edges := by
          rw [split_eq node p hlt]
          simp only [radixNode.edges_mk]
          intro c hc
          rw [List.mem_singleton] at hc
          injection hc with hc1 hc2
          rw [hgd] at hc1
          exact hr hc1
        have hlen2 : ((node.split p).addEdge (r, radixNode.mk rest []
            (some ⟨fk, v⟩))).edges.length = 2 := by
          rw [@addEdge_length _ (node.split p) (r, radixNode.mk rest [] (some ⟨fk, v⟩)) hSsorted]
          rw [split_eq node p hlt]
          rfl
        refine ⟨addEdge_sorted hSsorted hfresh, ?_, fun _ => Or.inr (by omega)⟩
        refine edgesOK_of_forall ?_
        intro e he
        rcases addEdge_mem_iff.mp he with heq | hmem
        · subst heq
          exact nodeOK.build (Or.inl rfl) List.Pairwise.nil (edgesOK_of_forall fun e he => by simp only [radixNode.edges_mk] at he; cases he)
        · rw [split_eq node p hlt] at hmem
          simp only [radixNode.edges_mk, List.mem_singleton] at hmem
          subst hmem
          refine nodeOK.build ?_ hs hok
          rcases hfillednode with h | h
          · exact Or.inl h
          · exact Or.inr h
    · rw [dif_neg hlt]
      cases hge : node.getEdge r with
      | some child =>
        simp only []
        have hmem := getEdge_mem hge
        have hcOK : nodeOK child := edgesOK_mem hok hmem
        obtain ⟨ihs, ihok, ihfill⟩ :=
          ih child 0 fk v (Nat.zero_le _) hcOK.sortedEdges hcOK.edgesOK' (Or.inl hcOK.isFilled)
        refine ⟨setEdge_sorted hs hmem, ?_, ?_⟩
        · refine edgesOK_of_forall ?_
          intro e he
          rcases (setEdge_mem_iff hs hmem).mp he with heq | hm
          · rw [heq]
            exact nodeOK.build (ihfill hcOK.isFilled) ihs ihok
          · exact edgesOK_mem hok hm.1
        · intro hf
          rcases hf with h | h
          · exact Or.inl (by rw [setEdge_leaf]; exact h)
          · exact Or.inr (by rw [setEdge_length hs hmem]; exact h)
      | none =>
        simp only []
        have hfresh := getEdge_none_not_mem hs hge
        refine ⟨@addEdge_sorted _ node (r, radixNode.mk rest [] (some ⟨fk, v⟩)) hs hfresh,
          ?_, ?_⟩
        · refine edgesOK_of_forall ?_
          intro e he
          rcases addEdge_mem_iff.mp he with heq | hmem
          · subst heq
            exact nodeOK.build (Or.inl rfl) List.Pairwise.nil (edgesOK_of_forall fun e he => by simp only [radixNode.edges_mk] at he; cases he)
          · exact edgesOK_mem hok hmem
        · intro hf
          rcases hf with h | h
          · exact Or.inl (by rw [addEdge_leaf]; exact h)
          · refine Or.inr ?_
            rw [@addEdge_length _ node (r, radixNode.mk rest [] (some ⟨fk, v⟩)) hs]
            omega

theorem pruneChild_structOK {α : Type} (b : Bool) (node : radixNode α) (r : Nat)
    (child' : radixNode α) {c0 : radixNode α}
    (hs : EdgesSorted node.edges) (hok : edgesOK node.edges)
    (hmem : (r, c0) ∈ node.edges)
    (hchild : (child'.edges = [] ∧ child'.leaf = none) ∨ nodeOK child') :
    EdgesSorted (pruneChild b node r child').edges ∧
    edgesOK (pruneChild b node r child').edges ∧
    (b = false → filled node →
      ((pruneChild b node r child').edges = [] ∧ (pruneChild b node r child').leaf = none) ∨
        filled (pruneChild b node r child')) := by
  have hokDel : edgesOK (node.delEdge r).edges :=
    edgesOK_of_forall fun e he => edgesOK_mem hok ((delEdge_mem_iff hs).mp he).1
  rw [pruneChild]
  rcases hce : child'.edges with _ | ⟨ce, ces⟩
  · rcases hcl : child'.leaf with _ | cv
    · simp only []
      rcases h1 : (node.delEdge r).edges with _ | ⟨d1, ds⟩
      · rcases h2 : (node.delEdge r).leaf with _ | dv
        · exact ⟨by rw [h1]; exact List.Pairwise.nil,
            by rw [h1]; exact edgesOK_of_forall fun e he => absurd he (List.not_mem_nil e),
            fun _ _ => Or.inl ⟨h1, h2⟩⟩
        · simp only []
          cases b with
          | true =>
            rw [if_pos rfl]
            exact ⟨by rw [h1]; exact List.Pairwise.nil,
              by rw [h1]; exact edgesOK_of_forall fun e he => absurd he (List.not_mem_nil e),
              fun hb => by cases hb⟩
          | false =>
            rw [if_neg (by simp)]
            obtain ⟨cs1, cs2⟩ := compress_sorted (delEdge_sorted hs) hokDel
            refine ⟨cs1, cs2, fun _ _ => Or.inr ?_⟩
            exact compress_filled hokDel (by rw [h2]; intro hcon; exact Option.noConfusion hcon.2)
      · simp only []
        cases b with
        | true =>
          rw [if_pos rfl]
          exact ⟨delEdge_sorted hs, hokDel, fun hb => by cases hb⟩
        | false =>
          rw [if_neg (by simp)]
          obtain ⟨cs1, cs2⟩ := compress_sorted (delEdge_sorted hs) hokDel
          refine ⟨cs1, cs2, fun _ _ => Or.inr ?_⟩
          exact compress_filled hokDel (by rw [h1]; intro hcon; exact (List.cons_ne_nil _ _ hcon.1).elim)
    · -- child' has a leaf: the second match arm, setEdge
      simp only []
      have hcOK : nodeOK child' := by
        rcases hchild with ⟨_, hl⟩ | h
        · rw [hcl] at hl
          cases hl
        · exact h
      refine ⟨setEdge_sorted hs hmem, ?_, ?_⟩
      · refine edgesOK_of_forall ?_
        intro e he
        rcases (setEdge_mem_iff hs hmem).mp he with heq | hm
        · rw [heq]
          exact hcOK
        · exact edgesOK_mem hok hm.1
      · intro _ hf
        rcases hf with h | h
        · exact Or.inr (Or.inl (by rw [setEdge_leaf]; exact h))
        · exact Or.inr (Or.inr (by rw [setEdge_length hs hmem]; exact h))
  · -- child' has edges: second match arm, setEdge
    simp only []
    have hcOK : nodeOK child' := by
      rcases hchild with ⟨hl, _⟩ | h
      · rw [hce] at hl
        cases hl
      · exact h
    refine ⟨setEdge_sorted hs hmem, ?_, ?_⟩
    · refine edgesOK_of_forall ?_
      intro e he
      rcases (setEdge_mem_iff hs hmem).mp he with heq | hm
      · rw [heq]
        exact hcOK
      · exact edgesOK_mem hok hm.1
    · intro _ hf
      rcases hf with h | h
      · exact Or.inr (Or.inl (by rw [setEdge_leaf]; exact h))
      · exact Or.inr (Or.inr (by rw [setEdge_length hs hmem]; exact h))

theorem deleteRec_structOK_nil {α : Type} (b : Bool) (node node' : radixNode α)
    (hs : EdgesSorted node.edges) (hok : edgesOK node.edges)
    (hdel : deleteRec b node [] = some node') :
    EdgesSorted node'.edges ∧ edgesOK node'.edges ∧
    (b = false → (node'.edges = [] ∧ node'.leaf = none) ∨ filled node') := by
  rw [deleteRec] at hdel
  cases hL : node.leaf with
  | none =>
    rw [hL] at hdel
    cases hdel
  | some it =>
    rw [hL] at hdel
    simp only [] at hdel
    split at hdel
    · rename_i hes
      injection hdel with hdel
      subst hdel
      simp only [radixNode.edges_mk] at hes ⊢
      exact ⟨by rw [hes]; exact List.Pairwise.nil,
        by rw [hes]; exact edgesOK_of_forall fun e he => absurd he (List.not_mem_nil e),
        fun _ => Or.inl ⟨hes, rfl⟩⟩
    · rename_i hes
      injection hdel with hdel
      subst hdel
      cases b with
      | true =>
        simp only [if_pos rfl]
        exact ⟨hs, hok, fun hb => by cases hb⟩
      | false =>
        simp only [Bool.false_eq_true, if_false]
        obtain ⟨cs1, cs2⟩ := compress_sorted (show EdgesSorted
          (radixNode.mk node.pre node.edges none).edges from hs) hok
        refine ⟨cs1, cs2, fun _ => Or.inr ?_⟩
        exact compress_filled (show edgesOK (radixNode.mk node.pre node.edges none).edges
          from hok) (by intro hcon; exact hes hcon.1)

theorem deleteRec_structOK_aux {α : Type} :
    ∀ (n : Nat) (key : List Nat), key.length ≤ n →
      ∀ (b : Bool) (node node' : radixNode α),
        EdgesSorted node.edges → edgesOK node.edges → (b = false → filled node) →
        deleteRec b node key = some node' →
        EdgesSorted node'.edges ∧ edgesOK node'.edges ∧
        (b = false → (node'.edges = [] ∧ node'.leaf = none) ∨ filled node') := by
  intro n
  induction n with
  | zero =>
    intro key hk b node node' hs hok _ hdel
    have : key = [] := List.eq_nil_of_length_eq_zero (by omega)
    subst this
    exact deleteRec_structOK_nil b node node' hs hok hdel
  | succ n ihn =>
    intro key hk b node node' hs hok hfill hdel
    cases key with
    | nil => exact deleteRec_structOK_nil b node node' hs hok hdel
    | cons r rest =>
      rw [deleteRec] at hdel
      cases hge : node.getEdge r with
      | none =>
        rw [hge] at hdel
        cases hdel
      | some child =>
        rw [hge] at hdel
        simp only [] at hdel
        by_cases hpre : child.pre.isPrefixOf rest
        · rw [if_pos hpre] at hdel
          cases hrec : deleteRec false child (rest.drop child.pre.length) with
          | none =>
            rw [hrec] at hdel
            cases hdel
          | some child' =>
            rw [hrec] at hdel
            simp only [] at hdel
            injection hdel with hdel
            subst hdel
            have hmem := getEdge_mem hge
            have hcOK : nodeOK child := edgesOK_mem hok hmem
            have hlen : (rest.drop child.pre.length).length ≤ n := by
              simp only [List.length_drop, List.length_cons] at hk ⊢
              omega
            obtain ⟨ihS, ihOK, ihF⟩ :=
              ihn _ hlen false child child' hcOK.sortedEdges hcOK.edgesOK'
                (fun _ => hcOK.isFilled) hrec
            have hchild : (child'.edges = [] ∧ child'.leaf = none) ∨ nodeOK child' := by
              rcases ihF rfl with h | h
              · exact Or.inl h
              · exact Or.inr (nodeOK.build h ihS ihOK)
            obtain ⟨p1, p2, p3⟩ := pruneChild_structOK b node r child' hs hok hmem hchild
            exact ⟨p1, p2, fun hb => p3 hb (hfill hb)⟩
        · rw [if_neg hpre] at hdel
          cases hdel

theorem deletePrefixRec_structOK_aux {α : Type} :
    ∀ (n : Nat) (key : List Nat), key.length ≤ n →
      ∀ (b : Bool) (node node' : radixNode α) (delta : Int),
        EdgesSorted node.edges → edgesOK node.edges → (b = false → filled node) →
        deletePrefixRec b node key = some (node', delta) →
        EdgesSorted node'.edges ∧ edgesOK node'.edges ∧
        (b = false → (node'.edges = [] ∧ node'.leaf = none) ∨ filled node') := by
  intro n
  induction n with
  | zero =>
    intro key hk b node node' delta hs hok _ hdel
    have : key = [] := List.eq_nil_of_length_eq_zero (by omega)
    subst this
    rw [deletePrefixRec] at hdel
    injection hdel with hdel
    have h1 : node' = radixNode.mk node.pre [] none := by
      have := congrArg Prod.fst hdel
      exact this.symm
    subst h1
    exact ⟨List.Pairwise.nil,
      edgesOK_of_forall fun e he => absurd he (List.not_mem_nil e),
      fun _ => Or.inl ⟨rfl, rfl⟩⟩
  | succ n ihn =>
    intro key hk b node node' delta hs hok hfill hdel
    cases key with
    | nil =>
      rw [deletePrefixRec] at hdel
      injection hdel with hdel
      have h1 : node' = radixNode.mk node.pre [] none := by
        have := congrArg Prod.fst hdel
        exact this.symm
      subst h1
      exact ⟨List.Pairwise.nil,
        edgesOK_of_forall fun e he => absurd he (List.not_mem_nil e),
        fun _ => Or.inl ⟨rfl, rfl⟩⟩
    | cons r rest =>
      rw [deletePrefixRec] at hdel
      cases hge : node.getEdge r with
      | none =>
        rw [hge] at hdel
        cases hdel
      | some child =>
        rw [hge] at hdel
        simp only [] at hdel
        have hmem := getEdge_mem hge
        have hcOK : nodeOK child := edgesOK_mem hok hmem
        by_cases hpre : child.pre.isPrefixOf rest
        · rw [if_pos hpre] at hdel
          cases hrec : deletePrefixRec false child (rest.drop child.pre.length) with
          | none =>
            rw [hrec] at hdel
            cases hdel
          | some cd =>
            rw [hrec] at hdel
            simp only [] at hdel
            injection hdel with hdel
            have hc1 : pruneChild b node r cd.1 = node' := congrArg Prod.fst hdel
            subst hc1
            have hlen : (rest.drop child.pre.length).length ≤ n := by
              simp only [List.length_drop, List.length_cons] at hk ⊢
              omega
            obtain ⟨ihS, ihOK, ihF⟩ :=
              ihn _ hlen false child cd.1 cd.2 hcOK.sortedEdges hcOK.edgesOK'
                (fun _ => hcOK.isFilled) (by rw [hrec])
            have hchild : (cd.1.edges = [] ∧ cd.1.leaf = none) ∨ nodeOK cd.1 := by
              rcases ihF rfl with h | h
              · exact Or.inl h
              · exact Or.inr (nodeOK.build h ihS ihOK)
            obtain ⟨p1, p2, p3⟩ := pruneChild_structOK b node r cd.1 hs hok hmem hchild
            exact ⟨p1, p2, fun hb => p3 hb (hfill hb)⟩
        · rw [if_neg hpre] at hdel
          by_cases hpre2 : rest.isPrefixOf child.pre
          · rw [if_pos hpre2] at hdel
            cases hrec : deletePrefixRec false child ([] : List Nat) with
            | none =>
              rw [hrec] at hdel
              cases hdel
            | some cd =>
              rw [hrec] at hdel
              simp only [] at hdel
              injection hdel with hdel
              have hc1 : pruneChild b node r cd.1 = node' := congrArg Prod.fst hdel
              subst hc1
              obtain ⟨ihS, ihOK, ihF⟩ :=
                ihn ([] : List Nat) (Nat.zero_le n) false child cd.1 cd.2 hcOK.sortedEdges hcOK.edgesOK'
                  (fun _ => hcOK.isFilled) (by rw [hrec])
              have hchild : (cd.1.edges = [] ∧ cd.1.leaf = none) ∨ nodeOK cd.1 := by
                rcases ihF rfl with h | h
                · exact Or.inl h
                · exact Or.inr (nodeOK.build h ihS ihOK)
              obtain ⟨p1, p2, p3⟩ := pruneChild_structOK b node r cd.1 hs hok hmem hchild
              exact ⟨p1, p2, fun hb => p3 hb (hfill hb)⟩
          · rw [if_neg hpre2] at hdel
            cases hdel

theorem deletePrefixRec_root_pre {α : Type} (node node' : radixNode α) (key : List Nat)
    (delta : Int) (hdel : deletePrefixRec true node key = some (node', delta)) :
    node'.pre = node.pre := by
  cases key with
  | nil =>
    rw [deletePrefixRec] at hdel
    injection hdel with hdel
    have h1 : node' = radixNode.mk node.pre [] none := (congrArg Prod.fst hdel).symm
    subst h1
    rfl
  | cons r rest =>
    rw [deletePrefixRec] at hdel
    cases hge : node.getEdge r with
    | none =>
      rw [hge] at hdel
      cases hdel
    | some child =>
      rw [hge] at hdel
      simp only [] at hdel
      by_cases hpre : child.pre.isPrefixOf rest
      · rw [if_pos hpre] at hdel
        cases hrec : deletePrefixRec false child (rest.drop child.pre.length) with
        | none =>
          rw [hrec] at hdel
          cases hdel
        | some cd =>
          rw [hrec] at hdel
          simp only [] at hdel
          injection hdel with hdel
          have hc1 : pruneChild true node r cd.1 = node' := congrArg Prod.fst hdel
          rw [← hc1]
          exact pruneChild_pre_of_root node r cd.1
      · rw [if_neg hpre] at hdel
        by_cases hpre2 : rest.isPrefixOf child.pre
        · rw [if_pos hpre2] at hdel
          cases hrec : deletePrefixRec false child ([] : List Nat) with
          | none =>
            rw [hrec] at hdel
            cases hdel
          | some cd =>
            rw [hrec] at hdel
            simp only [] at hdel
            injection hdel with hdel
            have hc1 : pruneChild true node r cd.1 = node' := congrArg Prod.fst hdel
            rw [← hc1]
            exact pruneChild_pre_of_root node r cd.1
        · rw [if_neg hpre2] at hdel
          cases hdel

theorem structOK_new {α : Type} : StructOK (Tree.new : Tree α) :=
  ⟨rfl, List.Pairwise.nil, edgesOK_of_forall fun e he => absurd he (List.not_mem_nil e)⟩

theorem structOK_put {α : Type} (t : Tree α) (k : List Nat) (v : α) (h : StructOK t) :
    StructOK (Tree.put t k v).1 := by
  obtain ⟨hpre, hs, hok⟩ := h
  obtain ⟨ps, pok, _⟩ := putNode_structOK k t.root 0 k v (Nat.zero_le _) hs hok (Or.inr hpre)
  have hWF : WFNode t.root := WFNode.intro hs (edgesOK_imp_WFEdges hok)
  obtain ⟨_, ⟨q, _, hqpre⟩, _⟩ :=
    putNode_spec k t.root 0 k v hWF (by rw [hpre]; exact Nat.le_refl 0)
  have hroot : (Tree.put t k v).1.root = (putNode t.root 0 k k v).1 := rfl
  refine ⟨?_, ?_, ?_⟩
  · rw [hroot, hqpre, hpre, List.take_nil]
  · rw [hroot]
    exact ps
  · rw [hroot]
    exact pok

theorem structOK_delete {α : Type} (t : Tree α) (k : List Nat) (h : StructOK t) :
    StructOK (Tree.delete t k).1 := by
  obtain ⟨hpre, hs, hok⟩ := h
  rw [Tree.delete]
  cases hdel : deleteRec true t.root k with
  | none => exact ⟨hpre, hs, hok⟩
  | some root' =>
    simp only []
    obtain ⟨ds, dok, _⟩ := deleteRec_structOK_aux k.length k (le_refl _) true t.root root'
      hs hok (fun hc => by cases hc) hdel
    exact ⟨by rw [deleteRec_root_pre t.root root' k hdel]; exact hpre, ds, dok⟩

theorem structOK_deletePrefix {α : Type} (t : Tree α) (k : List Nat) (h : StructOK t) :
    StructOK (Tree.deletePrefix t k).1 := by
  obtain ⟨hpre, hs, hok⟩ := h
  rw [Tree.deletePrefix]
  cases hdel : deletePrefixRec true t.root k with
  | none => exact ⟨hpre, hs, hok⟩
  | some cd =>
    simp only []
    obtain ⟨ds, dok, _⟩ := deletePrefixRec_structOK_aux k.length k (le_refl _) true t.root
      cd.1 cd.2 hs hok (fun hc => by cases hc) (by rw [hdel])
    exact ⟨by rw [deletePrefixRec_root_pre t.root cd.1 k cd.2 (by rw [hdel])]; exact hpre,
      ds, dok⟩

/-! ### Walk semantics: the visit sequence as a list fold -/

/-- Run a visitor over a list of items, stopping at the first `true`. -/
def runVisit {α σ : Type} (f : σ → List Nat → α → σ × Bool) : σ → List (Item α) → σ × Bool
  | s, [] => (s, false)
  | s, it :: rest =>
    match f s it.key it.value with
    | (s', true) => (s', true)
    | (s', false) => runVisit f s' rest

theorem runVisit_append {α σ : Type} (f : σ → List Nat → α → σ × Bool) (a b : List (Item α))
    (s : σ) :
    runVisit f s (a ++ b) =
      match runVisit f s a with
      | (s', true) => (s', true)
      | (s', false) => runVisit f s' b := by
  induction a generalizing s with
  | nil => rw [List.nil_append, runVisit]
  | cons it rest ih =>
    rw [List.cons_append, runVisit, runVisit]
    rcases hf : f s it.key it.value with ⟨s', b'⟩
    cases b' with
    | true => rfl
    | false => exact ih s'

theorem walkEdges_runVisit_aux {α σ : Type} (f : σ → List Nat → α → σ × Bool) :
    ∀ (m : Nat) (es : List (Nat × radixNode α)), edgesSize es ≤ m →
      ∀ s, walkEdges es f s = runVisit f s (elemsL es) := by
  intro m
  induction m with
  | zero =>
    intro es hsz s
    cases es with
    | nil => rw [walkEdges, elemsL, runVisit]
    | cons e rest =>
      rw [edgesSize] at hsz
      rcases e with ⟨r, c⟩
      cases c
      rw [nodeSize] at hsz
      omega
  | succ m ihm =>
    intro es hsz s
    induction es generalizing s with
    | nil => rw [walkEdges, elemsL, runVisit]
    | cons e rest ihl =>
      rcases e with ⟨r, c⟩
      rcases c with ⟨pc, esc, lc⟩
      rw [edgesSize, nodeSize] at hsz
      have hnode : ∀ s', walkNode (radixNode.mk pc esc lc) f s' =
          runVisit f s' (elems (radixNode.mk pc esc lc)) := by
        intro s'
        rw [walkNode.eq_def, elems]
        simp only []
        cases lc with
        | none =>
          simp only [Option.toList_none, List.nil_append]
          exact ihm esc (by omega) s'
        | some it =>
          simp only [Option.toList_some, List.singleton_append, runVisit]
          rcases hf : f s' it.key it.value with ⟨s2, b'⟩
          cases b' with
          | true => rfl
          | false =>
            simp only []
            exact ihm esc (by omega) s2
      rw [walkEdges, elemsL, runVisit_append]
      rw [hnode s]
      rcases hv : runVisit f s (elems (radixNode.mk pc esc lc)) with ⟨s', b'⟩
      cases b' with
      | true => rfl
      | false =>
        simp only []
        exact ihl (by omega) s'

theorem walkNode_runVisit {α σ : Type} (f : σ → List Nat → α → σ × Bool)
    (node : radixNode α) (s : σ) : walkNode node f s = runVisit f s (elems node) := by
  rcases node with ⟨p, es, l⟩
  rw [walkNode.eq_def, elems]
  simp only []
  cases l with
  | none =>
    simp only [Option.toList_none, List.nil_append]
    exact walkEdges_runVisit_aux f (edgesSize es) es (le_refl _) s
  | some it =>
    simp only [Option.toList_some, List.singleton_append, runVisit]
    rcases hf : f s it.key it.value with ⟨s2, b'⟩
    cases b' with
    | true => rfl
    | false =>
      simp only []
      exact walkEdges_runVisit_aux f (edgesSize es) es (le_refl _) s2

theorem elemsL_mem {α : Type} (es : List (Nat × radixNode α)) (it : Item α) :
    it ∈ elemsL es ↔ ∃ e ∈ es, it ∈ elems e.2 := by
  induction es with
  | nil =>
    rw [elemsL]
    simp
  | cons e rest ih =>
    rw [elemsL, List.mem_append, ih]
    constructor
    · rintro (h | ⟨e', he', hin⟩)
      · exact ⟨e, List.mem_cons_self _ _, h⟩
      · exact ⟨e', List.mem_cons_of_mem _ he', hin⟩
    · rintro ⟨e', he', hin⟩
      rcases List.mem_cons.mp he' with heq | hm
      · subst heq
        exact Or.inl hin
      · exact Or.inr ⟨e', hm, hin⟩

/-! ### The stored-key invariant: each `Item.key` equals the path to its
leaf.  `Put` stores the full key in the leaf; this records that fact as the
representation invariant the traversals rely on. -/

mutual

/-- All items in `node`'s subtree carry the key of their position, `q`
being the bytes consumed from the root up to and including `node.pre`. -/
def keysOK {α : Type} : List Nat → radixNode α → Prop
  | q, .mk _ es l => (∀ it, l = some it → Item.key it = q) ∧ keysOKL q es

def keysOKL {α : Type} : List Nat → List (Nat × radixNode α) → Prop
  | _, [] => True
  | q, e :: es => keysOK (q ++ e.1 :: e.2.pre) e.2 ∧ keysOKL q es

end

theorem keysOK_leaf {α : Type} {q : List Nat} {node : radixNode α} (h : keysOK q node)
    {it : Item α} (hl : node.leaf = some it) : Item.key it = q := by
  rcases node with ⟨p, es, l⟩
  rw [keysOK] at h
  exact h.1 it hl

theorem keysOK_edges {α : Type} {q : List Nat} {node : radixNode α} (h : keysOK q node) :
    keysOKL q node.edges := by
  rcases node with ⟨p, es, l⟩
  rw [keysOK] at h
  exact h.2

theorem keysOKL_mem {α : Type} {q : List Nat} {es : List (Nat × radixNode α)}
    (h : keysOKL q es) {e : Nat × radixNode α} (he : e ∈ es) :
    keysOK (q ++ e.1 :: e.2.pre) e.2 := by
  induction es with
  | nil => cases he
  | cons x xs ih =>
    rw [keysOKL] at h
    rcases List.mem_cons.mp he with heq | hm
    · subst heq
      exact h.1
    · exact ih h.2 hm

theorem keysOK_intro {α : Type} (q : List Nat) (node : radixNode α)
    (h1 : ∀ it, node.leaf = some it → Item.key it = q)
    (h2 : ∀ e ∈ node.edges, keysOK (q ++ e.1 :: e.2.pre) e.2) : keysOK q node := by
  rcases node with ⟨p, es, l⟩
  rw [keysOK]
  refine ⟨h1, ?_⟩
  simp only [radixNode.edges_mk] at h2
  clear h1
  induction es with
  | nil => rw [keysOKL]; trivial
  | cons x xs ih =>
    rw [keysOKL]
    exact ⟨h2 x (List.mem_cons_self _ _), ih fun e he => h2 e (List.mem_cons_of_mem _ he)⟩

theorem elems_key_prefix_aux {α : Type} :
    ∀ (m : Nat) (node : radixNode α), nodeSize node ≤ m →
      ∀ (q : List Nat), keysOK q node →
        ∀ it ∈ elems node, ∃ s, Item.key it = q ++ s := by
  intro m
  induction m with
  | zero =>
    intro node hsz
    cases node
    rw [nodeSize] at hsz
    omega
  | succ m ihm =>
    intro node hsz q hko it hin
    rcases node with ⟨p, es, l⟩
    rw [elems] at hin
    rcases List.mem_append.mp hin with hl | he
    · cases l with
      | none => cases hl
      | some it0 =>
        rw [Option.toList_some, List.mem_singleton] at hl
        subst hl
        exact ⟨[], by rw [keysOK_leaf hko rfl, List.append_nil]⟩
    · obtain ⟨e, hees, hec⟩ := (elemsL_mem es it).mp he
      have hko' := keysOKL_mem (keysOK_edges hko) hees
      have hsz' : nodeSize e.2 ≤ m := by
        have := nodeSize_le_edgesSize_of_mem hees
        rw [nodeSize] at hsz
        omega
      obtain ⟨s', hs'⟩ := ihm e.2 hsz' _ hko' it hec
      refine ⟨e.1 :: (e.2.pre ++ s'), ?_⟩
      rw [hs', List.append_assoc]
      rfl

theorem elems_get_aux {α : Type} :
    ∀ (m : Nat) (node : radixNode α), nodeSize node ≤ m →
      ∀ (q : List Nat), WFNode node → keysOK q node →
        ∀ (k : List Nat) (v : α),
          (Item.mk k v ∈ elems node ↔ ∃ s, k = q ++ s ∧ getRest node s = some v) := by
  intro m
  induction m with
  | zero =>
    intro node hsz
    cases node
    rw [nodeSize] at hsz
    omega
  | succ m ihm =>
    intro node hsz q hwf hko k v
    rcases node with ⟨p, es, l⟩
    rw [elems]
    constructor
    · intro hin
      rcases List.mem_append.mp hin with hl | he
      · cases l with
        | none => cases hl
        | some it0 =>
          rw [Option.toList_some, List.mem_singleton] at hl
          have hk : k = q := by
            have := keysOK_leaf hko (show (radixNode.mk p es (some it0)).leaf = some it0
              from rfl)
            rw [← hl] at this
            exact this
          refine ⟨[], by rw [hk, List.append_nil], ?_⟩
          rw [getRest]
          simp only [radixNode.leaf_mk]
          rw [← hl]
          rfl
      · obtain ⟨e, hees, hec⟩ := (elemsL_mem es (Item.mk k v)).mp he
        rcases e with ⟨r, c⟩
        have hko' := keysOKL_mem (keysOK_edges hko) hees
        have hsz' : nodeSize c ≤ m := by
          have := nodeSize_le_edgesSize_of_mem hees
          rw [nodeSize] at hsz
          simp only [] at this
          omega
        obtain ⟨s', hs', hg'⟩ :=
          (ihm c hsz' _ (hwf.child hees) hko' k v).mp hec
        refine ⟨r :: (c.pre ++ s'), by rw [hs', List.append_assoc]; rfl, ?_⟩
        rw [getRest]
        rw [show (radixNode.mk p es l).getEdge r = some c from mem_getEdge hwf.sorted hees]
        simp only []
        rw [if_pos (List.isPrefixOf_iff_prefix.mpr (List.prefix_append _ _)), List.drop_left]
        exact hg'
    · rintro ⟨s, hk, hg⟩
      cases s with
      | nil =>
        rw [getRest] at hg
        simp only [radixNode.leaf_mk] at hg
        cases l with
        | none => cases hg
        | some it0 =>
          refine List.mem_append.mpr (Or.inl ?_)
          rw [Option.toList_some, List.mem_singleton]
          have hkey : Item.key it0 = q := keysOK_leaf hko rfl
          have hval : Item.value it0 = v := by
            injection hg
          rcases it0 with ⟨ik, iv⟩
          simp only [] at hkey hval
          rw [hk, List.append_nil, ← hkey, ← hval]
      | cons r srest =>
        rw [getRest] at hg
        cases hge : (radixNode.mk p es l).getEdge r with
        | none =>
          rw [hge] at hg
          cases hg
        | some c =>
          rw [hge] at hg
          simp only [] at hg
          by_cases hpre : c.pre.isPrefixOf srest
          · rw [if_pos hpre] at hg
            have hees := getEdge_mem hge
            simp only [radixNode.edges_mk] at hees
            have hko' := keysOKL_mem (keysOK_edges hko) hees
            have hsz' : nodeSize c ≤ m := by
              have := nodeSize_le_edgesSize_of_mem hees
              rw [nodeSize] at hsz
              simp only [] at this
              omega
            obtain ⟨s3, hs3⟩ := List.isPrefixOf_iff_prefix.mp hpre
            refine List.mem_append.mpr (Or.inr ?_)
            refine (elemsL_mem es (Item.mk k v)).mpr ⟨(r, c), hees, ?_⟩
            refine (ihm c hsz' _ (hwf.child hees) hko' k v).mpr
              ⟨srest.drop c.pre.length, ?_, hg⟩
            rw [hk, ← hs3, List.drop_left, List.append_assoc]
            rfl
          · rw [if_neg hpre] at hg
            cases hg

/-- Ascending byte-lexicographic order on keys (shorter prefixes first). -/
def keyLt (a b : List Nat) : Prop :=
  List.Lex (fun x y => x < y) a b

theorem keyLt_prefix_cons (q : List Nat) (r : Nat) (x : List Nat) :
    keyLt q (q ++ r :: x) := by
  induction q with
  | nil => exact List.Lex.nil
  | cons a as ih => exact List.Lex.cons ih

theorem keyLt_middle (q : List Nat) {r1 r2 : Nat} (h : r1 < r2) (x y : List Nat) :
    keyLt (q ++ r1 :: x) (q ++ r2 :: y) := by
  induction q with
  | nil => exact List.Lex.rel h
  | cons a as ih => exact List.Lex.cons ih

theorem elemsL_key_shape {α : Type} {q : List Nat} {es : List (Nat × radixNode α)}
    (hko : keysOKL q es) :
    ∀ it ∈ elemsL es, ∃ e ∈ es, ∃ x, Item.key it = q ++ e.1 :: x := by
  intro it hin
  obtain ⟨e, he, hec⟩ := (elemsL_mem es it).mp hin
  obtain ⟨s, hs⟩ := elems_key_prefix_aux (nodeSize e.2) e.2 (le_refl _) _
    (keysOKL_mem hko he) it hec
  refine ⟨e, he, e.2.pre ++ s, ?_⟩
  rw [hs, List.append_assoc]
  rfl

theorem elems_keys_sorted_aux {α : Type} :
    ∀ (m : Nat) (node : radixNode α), nodeSize node ≤ m →
      ∀ (q : List Nat), WFNode node → keysOK q node →
        ((elems node).map Item.key).Pairwise keyLt := by
  intro m
  induction m with
  | zero =>
    intro node hsz
    cases node
    rw [nodeSize] at hsz
    omega
  | succ m ihm =>
    intro node hsz q hwf hko
    rcases node with ⟨p, es, l⟩
    rw [elems, List.map_append]
    rw [nodeSize] at hsz
    refine (List.pairwise_append).mpr ⟨?_, ?_, ?_⟩
    · cases l with
      | none => simp
      | some it => simp
    · have hinner : ∀ (es' : List (Nat × radixNode α)), edgesSize es' ≤ edgesSize es →
          EdgesSorted es' → WFEdges es' → keysOKL q es' →
          ((elemsL es').map Item.key).Pairwise keyLt := by
        intro es'
        induction es' with
        | nil =>
          intro _ _ _ _
          rw [elemsL]
          exact List.Pairwise.nil
        | cons e rest ihl =>
          intro hsz' hsort' hwfe' hkoL'
          rw [edgesSize] at hsz'
          rw [elemsL, List.map_append]
          rw [keysOKL] at hkoL'
          refine (List.pairwise_append).mpr ⟨?_, ?_, ?_⟩
          · exact ihm e.2 (by omega) _
              (WFEdges_mem hwfe' (List.mem_cons_self _ _)) hkoL'.1
          · exact ihl (by omega) (List.pairwise_cons.mp hsort').2
              (WFEdges_of_forall fun x hx => WFEdges_mem hwfe' (List.mem_cons_of_mem _ hx))
              hkoL'.2
          · intro a ha b hb
            obtain ⟨it1, hit1, ha1⟩ := List.mem_map.mp ha
            obtain ⟨it2, hit2, hb1⟩ := List.mem_map.mp hb
            obtain ⟨s1, hs1⟩ := elems_key_prefix_aux (nodeSize e.2) e.2 (le_refl _) _
              hkoL'.1 it1 hit1
            obtain ⟨e2, he2, x2, hx2⟩ := elemsL_key_shape hkoL'.2 it2 hit2
            have hr : e.1 < e2.1 := (List.pairwise_cons.mp hsort').1 e2 he2
            rw [← ha1, ← hb1, hs1, hx2, List.append_assoc]
            exact keyLt_middle q hr _ _
      exact hinner es (le_refl _) hwf.sorted hwf.wfEdges (keysOK_edges hko)
    · intro a ha b hb
      cases l with
      | none => cases ha
      | some it =>
        rw [Option.toList_some, List.map_singleton, List.mem_singleton] at ha
        obtain ⟨it2, hit2, hb1⟩ := List.mem_map.mp hb
        obtain ⟨e2, he2, x2, hx2⟩ := elemsL_key_shape (keysOK_edges hko) it2 hit2
        rw [ha, keysOK_leaf hko rfl, ← hb1, hx2]
        exact keyLt_prefix_cons q e2.1 x2

theorem prefix_drop {a b : List Nat} (h : List.IsPrefix a b) (n : Nat) (hn : n ≤ a.length) :
    List.IsPrefix (a.drop n) (b.drop n) := by
  obtain ⟨t, ht⟩ := h
  subst ht
  rw [List.drop_append_eq_append_drop, Nat.sub_eq_zero_of_le hn, List.drop_zero]
  exact List.prefix_append _ _

theorem walkDescend_none_aux {α : Type} :
    ∀ (n : Nat) (key : List Nat), key.length ≤ n →
      ∀ (node : radixNode α), walkDescend node key = none →
        ∀ k, List.IsPrefix key k → getRest node k = none := by
  intro n
  induction n with
  | zero =>
    intro key hk node hdes
    have : key = [] := List.eq_nil_of_length_eq_zero (by omega)
    subst this
    rw [walkDescend] at hdes
    cases hdes
  | succ n ihn =>
    intro key hk node hdes k hkk
    cases key with
    | nil =>
      rw [walkDescend] at hdes
      cases hdes
    | cons r rest =>
      rw [walkDescend] at hdes
      obtain ⟨k', hk'⟩ : ∃ k', k = r :: k' := by
        obtain ⟨t, ht⟩ := hkk
        exact ⟨rest ++ t, by rw [← ht]; rfl⟩
      subst hk'
      have hrk : List.IsPrefix rest k' := (List.cons_prefix_cons.mp hkk).2
      rw [getRest]
      cases hge : node.getEdge r with
      | none => rfl
      | some c =>
        rw [hge] at hdes
        simp only [] at hdes
        simp only []
        by_cases hck : c.pre.isPrefixOf k'
        · rw [if_pos hck]
          by_cases hcr : c.pre.isPrefixOf rest
          · rw [if_pos hcr] at hdes
            have hlen : (rest.drop c.pre.length).length ≤ n := by
              simp only [List.length_drop, List.length_cons] at hk ⊢
              omega
            refine ihn _ hlen c hdes (k'.drop c.pre.length) ?_
            exact prefix_drop hrk c.pre.length
              (List.IsPrefix.length_le (List.isPrefixOf_iff_prefix.mp hcr))
          · rw [if_neg hcr] at hdes
            by_cases hrc : rest.isPrefixOf c.pre
            · rw [if_pos hrc] at hdes
              cases hdes
            · rcases List.prefix_or_prefix_of_prefix
                (List.isPrefixOf_iff_prefix.mp hck) hrk with h | h
              · exact absurd (List.isPrefixOf_iff_prefix.mpr h) hcr
              · exact absurd (List.isPrefixOf_iff_prefix.mpr h) hrc
        · rw [if_neg hck]

theorem walkDescend_some_aux {α : Type} :
    ∀ (n : Nat) (key : List Nat), key.length ≤ n →
      ∀ (node d : radixNode α), walkDescend node key = some d →
        ∃ u : List Nat, List.IsPrefix key u ∧
          (∀ s, getRest node (u ++ s) = getRest d s) ∧
          (∀ k, List.IsPrefix key k → getRest node k ≠ none → List.IsPrefix u k) ∧
          (WFNode node → WFNode d) ∧
          (∀ q, keysOK q node → keysOK (q ++ u) d) := by
  intro n
  induction n with
  | zero =>
    intro key hk node d hdes
    have : key = [] := List.eq_nil_of_length_eq_zero (by omega)
    subst this
    rw [walkDescend] at hdes
    injection hdes with hdes
    subst hdes
    exact ⟨[], List.nil_prefix, fun s => by rw [List.nil_append],
      fun k _ _ => List.nil_prefix, id, fun q h => by rw [List.append_nil]; exact h⟩
  | succ n ihn =>
    intro key hk node d hdes
    cases key with
    | nil =>
      rw [walkDescend] at hdes
      injection hdes with hdes
      subst hdes
      exact ⟨[], List.nil_prefix, fun s => by rw [List.nil_append],
        fun k _ _ => List.nil_prefix, id, fun q h => by rw [List.append_nil]; exact h⟩
    | cons r rest =>
      rw [walkDescend] at hdes
      cases hge : node.getEdge r with
      | none =>
        rw [hge] at hdes
        cases hdes
      | some c =>
        rw [hge] at hdes
        simp only [] at hdes
        have hmem := getEdge_mem hge
        by_cases hcr : c.pre.isPrefixOf rest
        · rw [if_pos hcr] at hdes
          have hlen : (rest.drop c.pre.length).length ≤ n := by
            simp only [List.length_drop, List.length_cons] at hk ⊢
            omega
          obtain ⟨u', hu1, hu2, hu3, hu4, hu5⟩ := ihn _ hlen c d hdes
          obtain ⟨rest', hrest'⟩ := List.isPrefixOf_iff_prefix.mp hcr
          refine ⟨r :: (c.pre ++ u'), ?_, ?_, ?_, ?_, ?_⟩
          · rw [List.cons_prefix_cons]
            refine ⟨rfl, ?_⟩
            rw [← hrest', List.drop_left] at hu1
            rw [← hrest']
            exact (List.prefix_append_right_inj c.pre).mpr hu1
          · intro s
            have hshape : (r :: (c.pre ++ u')) ++ s = r :: (c.pre ++ (u' ++ s)) := by
              simp [List.append_assoc]
            rw [hshape, getRest, hge]
            simp only []
            rw [if_pos (List.isPrefixOf_iff_prefix.mpr (List.prefix_append _ _)),
              List.drop_left]
            exact hu2 s
          · intro k hkk hnone
            obtain ⟨k', hk'⟩ : ∃ k', k = r :: k' := by
              obtain ⟨t, ht⟩ := hkk
              exact ⟨rest ++ t, by rw [← ht]; rfl⟩
            subst hk'
            have hrk : List.IsPrefix rest k' := (List.cons_prefix_cons.mp hkk).2
            rw [getRest, hge] at hnone
            simp only [] at hnone
            by_cases hck : c.pre.isPrefixOf k'
            · obtain ⟨k3, hk3⟩ := List.isPrefixOf_iff_prefix.mp hck
              rw [if_pos hck] at hnone
              rw [List.cons_prefix_cons]
              refine ⟨rfl, ?_⟩
              rw [← hk3, List.prefix_append_right_inj]
              have hr3 : List.IsPrefix (rest.drop c.pre.length) k3 := by
                have := prefix_drop hrk c.pre.length
                  (List.IsPrefix.length_le (List.isPrefixOf_iff_prefix.mp hcr))
                rw [← hk3, List.drop_left] at this
                exact this
              refine hu3 k3 hr3 ?_
              rw [← hk3, List.drop_left] at hnone
              exact hnone
            · rw [if_neg hck] at hnone
              exact absurd rfl hnone
          · intro hwf
            exact hu4 (hwf.child hmem)
          · intro q hko
            have := hu5 (q ++ r :: c.pre) (keysOKL_mem (keysOK_edges hko) hmem)
            rw [List.append_assoc] at this
            exact this
        · rw [if_neg hcr] at hdes
          by_cases hrc : rest.isPrefixOf c.pre
          · rw [if_pos hrc] at hdes
            injection hdes with hdes
            subst hdes
            refine ⟨r :: c.pre, ?_, ?_, ?_, ?_, ?_⟩
            · rw [List.cons_prefix_cons]
              exact ⟨rfl, List.isPrefixOf_iff_prefix.mp hrc⟩
            · intro s
              rw [List.cons_append, getRest, hge]
              simp only []
              rw [if_pos (List.isPrefixOf_iff_prefix.mpr (List.prefix_append _ _)),
                List.drop_left]
            · intro k hkk hnone
              obtain ⟨k', hk'⟩ : ∃ k', k = r :: k' := by
                obtain ⟨t, ht⟩ := hkk
                exact ⟨rest ++ t, by rw [← ht]; rfl⟩
              subst hk'
              rw [getRest, hge] at hnone
              simp only [] at hnone
              by_cases hck : c.pre.isPrefixOf k'
              · rw [List.cons_prefix_cons]
                exact ⟨rfl, List.isPrefixOf_iff_prefix.mp hck⟩
              · rw [if_neg hck] at hnone
                exact absurd rfl hnone
            · intro hwf
              exact hwf.child hmem
            · intro q hko
              exact keysOKL_mem (keysOK_edges hko) hmem
          · rw [if_neg hrc] at hdes
            cases hdes

/-- The sequence of items `Walk` visits: the whole subtree below the node
the descent loop finds. -/
def walkList {α : Type} (t : Tree α) (p : List Nat) : List (Item α) :=
  match walkDescend t.root p with
  | none => []
  | some d => elems d

/-- The key invariants traversal semantics depend on: recursively sorted
edges and position-correct stored keys. -/
def KeysWF {α : Type} (t : Tree α) : Prop :=
  WFNode t.root ∧ keysOK [] t.root

theorem walk_runVisit {α σ : Type} (t : Tree α) (p : List Nat)
    (f : σ → List Nat → α → σ × Bool) (s : σ) :
    Tree.walk t p f s = runVisit f s (walkList t p) := by
  rw [Tree.walk, walkList]
  cases hdes : walkDescend t.root p with
  | none => rw [runVisit]
  | some d => exact walkNode_runVisit f d s

theorem walkList_mem {α : Type} (t : Tree α) (p : List Nat) (h : KeysWF t)
    (k : List Nat) (v : α) :
    Item.mk k v ∈ walkList t p ↔ List.IsPrefix p k ∧ Tree.get t k = some v := by
  rw [walkList]
  cases hdes : walkDescend t.root p with
  | none =>
    constructor
    · intro hin
      cases hin
    · rintro ⟨h1, h2⟩
      have := walkDescend_none_aux p.length p (le_refl _) t.root hdes k h1
      rw [Tree.get] at h2
      rw [this] at h2
      cases h2
  | some d =>
    obtain ⟨u, hu1, hu2, hu3, hu4, hu5⟩ :=
      walkDescend_some_aux p.length p (le_refl _) t.root d hdes
    have hkod : keysOK u d := by
      have := hu5 [] h.2
      rw [List.nil_append] at this
      exact this
    rw [elems_get_aux (nodeSize d) d (le_refl _) u (hu4 h.1) hkod k v]
    constructor
    · rintro ⟨s, hk, hg⟩
      subst hk
      refine ⟨hu1.trans (List.prefix_append _ _), ?_⟩
      rw [Tree.get, hu2 s]
      exact hg
    · rintro ⟨h1, h2⟩
      rw [Tree.get] at h2
      obtain ⟨s, hs⟩ := hu3 k h1 (by rw [h2]; intro hc; cases hc)
      refine ⟨s, hs.symm, ?_⟩
      rw [← hu2 s, hs]
      exact h2

theorem walkList_sorted {α : Type} (t : Tree α) (p : List Nat) (h : KeysWF t) :
    ((walkList t p).map Item.key).Pairwise keyLt := by
  rw [walkList]
  cases hdes : walkDescend t.root p with
  | none => exact List.Pairwise.nil
  | some d =>
    obtain ⟨u, hu1, hu2, hu3, hu4, hu5⟩ :=
      walkDescend_some_aux p.length p (le_refl _) t.root d hdes
    have hkod : keysOK u d := by
      have := hu5 [] h.2
      rw [List.nil_append] at this
      exact this
    exact elems_keys_sorted_aux (nodeSize d) d (le_refl _) u (hu4 h.1) hkod

/-- The sequence of items `WalkPath` visits: the leaves on the descent path. -/
def pathList {α : Type} : radixNode α → List Nat → List (Item α)
  | node, key =>
    node.leaf.toList ++
      (match key with
       | [] => []
       | r :: rest =>
         match node.getEdge r with
         | none => []
         | some c =>
           if c.pre.isPrefixOf rest then pathList c (rest.drop c.pre.length) else [])
termination_by _ key => key.length
decreasing_by simp only [List.length_drop, List.length_cons]; omega

theorem walkPathRec_runVisit_aux {α σ : Type} (f : σ → List Nat → α → σ × Bool) :
    ∀ (n : Nat) (key : List Nat), key.length ≤ n →
      ∀ (node : radixNode α) (s : σ),
        walkPathRec node key f s = runVisit f s (pathList node key) := by
  intro n
  induction n with
  | zero =>
    intro key hk node s
    have hkey : key = [] := List.eq_nil_of_length_eq_zero (by omega)
    subst hkey
    rw [walkPathRec, pathList]
    cases hL : node.leaf with
    | none =>
      simp only [Option.toList_none, List.nil_append, List.append_nil, runVisit]
    | some it =>
      simp only [Option.toList_some, List.singleton_append, List.append_nil, runVisit]
  | succ n ihn =>
    intro key hk node s
    cases key with
    | nil =>
      rw [walkPathRec, pathList]
      cases hL : node.leaf with
      | none =>
        simp only [Option.toList_none, List.nil_append, List.append_nil, runVisit]
      | some it =>
        simp only [Option.toList_some, List.singleton_append, List.append_nil, runVisit]
    | cons r rest =>
      rw [walkPathRec, pathList]
      cases hL : node.leaf with
      | none =>
        simp only [Option.toList_none, List.nil_append]
        cases hge : node.getEdge r with
        | none =>
          simp only [List.append_nil, runVisit]
        | some c =>
          simp only []
          by_cases hpre : c.pre.isPrefixOf rest
          · rw [if_pos hpre, if_pos hpre]
            refine ihn _ ?_ c s
            simp only [List.length_drop, List.length_cons] at hk ⊢
            omega
          · simp only [if_neg hpre, runVisit]
      | some it =>
        simp only [Option.toList_some, List.singleton_append, runVisit]
        rcases hf : f s it.key it.value with ⟨s', b'⟩
        cases b' with
        | true => rfl
        | false =>
          simp only []
          cases hge : node.getEdge r with
          | none =>
            simp only [List.nil_append, List.append_nil, runVisit]
          | some c =>
            simp only []
            by_cases hpre : c.pre.isPrefixOf rest
            · rw [if_pos hpre, if_pos hpre]
              refine ihn _ ?_ c s'
              simp only [List.length_drop, List.length_cons] at hk ⊢
              omega
            · simp only [if_neg hpre, runVisit]

theorem pathList_subset_elems_aux {α : Type} :
    ∀ (n : Nat) (key : List Nat), key.length ≤ n →
      ∀ (node : radixNode α) (it : Item α), it ∈ pathList node key → it ∈ elems node := by
  intro n
  induction n with
  | zero =>
    intro key hk node it hin
    have hkey : key = [] := List.eq_nil_of_length_eq_zero (by omega)
    subst hkey
    rw [pathList] at hin
    rcases node with ⟨p, es, l⟩
    rw [elems]
    exact List.mem_append.mpr (Or.inl (by simpa using hin))
  | succ n ihn =>
    intro key hk node it hin
    cases key with
    | nil =>
      rw [pathList] at hin
      rcases node with ⟨p, es, l⟩
      rw [elems]
      exact List.mem_append.mpr (Or.inl (by simpa using hin))
    | cons r rest =>
      rw [pathList] at hin
      rcases List.mem_append.mp hin with hl | ht
      · rcases node with ⟨p, es, l⟩
        rw [elems]
        exact List.mem_append.mpr (Or.inl (by simpa using hl))
      · cases hge : node.getEdge r with
        | none =>
          rw [hge] at ht
          cases ht
        | some c =>
          rw [hge] at ht
          simp only [] at ht
          by_cases hpre : c.pre.isPrefixOf rest
          · rw [if_pos hpre] at ht
            have hmem := getEdge_mem hge
            have hsub : it ∈ elems c := by
              refine ihn (rest.drop c.pre.length) ?_ c it ht
              simp only [List.length_drop, List.length_cons] at hk ⊢
              omega
            rcases node with ⟨p, es, l⟩
            rw [elems]
            refine List.mem_append.mpr (Or.inr ?_)
            exact (elemsL_mem es it).mpr ⟨(r, c), by simpa using hmem, hsub⟩
          · rw [if_neg hpre] at ht
            cases ht

theorem pathList_mem_aux {α : Type} :
    ∀ (n : Nat) (key : List Nat), key.length ≤ n →
      ∀ (node : radixNode α) (q : List Nat), keysOK q node →
        ∀ (k : List Nat) (v : α),
          (Item.mk k v ∈ pathList node key ↔
            ∃ s, k = q ++ s ∧ List.IsPrefix s key ∧ getRest node s = some v) := by
  intro n
  induction n with
  | zero =>
    intro key hk node q hko k v
    have hkey : key = [] := List.eq_nil_of_length_eq_zero (by omega)
    subst hkey
    rw [pathList]
    constructor
    · intro hin
      rw [List.append_nil] at hin
      cases hL : node.leaf with
      | none =>
        rw [hL] at hin
        cases hin
      | some it =>
        rw [hL, Option.toList_some, List.mem_singleton] at hin
        refine ⟨[], ?_, List.nil_prefix, ?_⟩
        · rw [List.append_nil]
          rw [← keysOK_leaf hko hL, ← hin]
        · rw [getRest, hL, ← hin]
          rfl
    · rintro ⟨s, hks, hsle, hg⟩
      have hs : s = [] := List.prefix_nil.mp hsle
      subst hs
      rw [getRest] at hg
      cases hL : node.leaf with
      | none =>
        rw [hL] at hg
        cases hg
      | some it =>
        rw [hL] at hg
        rw [List.append_nil] at hks
        rw [List.append_nil, Option.toList_some, List.mem_singleton]
        have hkey' : Item.key it = q := keysOK_leaf hko hL
        have hval : Item.value it = v := by injection hg
        rcases it with ⟨ik, iv⟩
        simp only [] at hkey' hval
        rw [hks, ← hkey', ← hval]
  | succ n ihn =>
    intro key hk node q hko k v
    cases key with
    | nil => exact ihn [] (Nat.zero_le _) node q hko k v
    | cons r rest =>
      rw [pathList]
      constructor
      · intro hin
        rcases List.mem_append.mp hin with hl | ht
        · cases hL : node.leaf with
          | none =>
            rw [hL] at hl
            cases hl
          | some it =>
            rw [hL, Option.toList_some, List.mem_singleton] at hl
            refine ⟨[], ?_, List.nil_prefix, ?_⟩
            · rw [List.append_nil]
              rw [← keysOK_leaf hko hL, ← hl]
            · rw [getRest, hL, ← hl]
              rfl
        · cases hge : node.getEdge r with
          | none =>
            rw [hge] at ht
            cases ht
          | some c =>
            rw [hge] at ht
            simp only [] at ht
            by_cases hpre : c.pre.isPrefixOf rest
            · rw [if_pos hpre] at ht
              have hmem := getEdge_mem hge
              have hko' := keysOKL_mem (keysOK_edges hko) hmem
              obtain ⟨s3, hk3, hle3, hg3⟩ :=
                (ihn (rest.drop c.pre.length) (by
                    simp only [List.length_drop, List.length_cons] at hk ⊢
                    omega) c _ hko' k v).mp ht
              obtain ⟨rest', hrest'⟩ := List.isPrefixOf_iff_prefix.mp hpre
              refine ⟨r :: (c.pre ++ s3), by rw [hk3, List.append_assoc]; rfl, ?_, ?_⟩
              · rw [List.cons_prefix_cons]
                refine ⟨rfl, ?_⟩
                rw [← hrest']
                refine (List.prefix_append_right_inj c.pre).mpr ?_
                rw [← hrest', List.drop_left] at hle3
                exact hle3
              · rw [getRest, hge]
                simp only []
                rw [if_pos (List.isPrefixOf_iff_prefix.mpr (List.prefix_append _ _)),
                  List.drop_left]
                exact hg3
            · rw [if_neg hpre] at ht
              cases ht
      · rintro ⟨s, hks, hsle, hg⟩
        cases s with
        | nil =>
          rw [getRest] at hg
          cases hL : node.leaf with
          | none =>
            rw [hL] at hg
            cases hg
          | some it =>
            rw [hL] at hg
            refine List.mem_append.mpr (Or.inl ?_)
            rw [Option.toList_some, List.mem_singleton]
            have hkey' : Item.key it = q := keysOK_leaf hko hL
            have hval : Item.value it = v := by injection hg
            rcases it with ⟨ik, iv⟩
            simp only [] at hkey' hval
            rw [List.append_nil] at hks
            rw [hks, ← hkey', ← hval]
        | cons r0 s2 =>
          have hr0 : r0 = r := (List.cons_prefix_cons.mp hsle).1
          subst hr0
          have hs2 : List.IsPrefix s2 rest := (List.cons_prefix_cons.mp hsle).2
          rw [getRest] at hg
          cases hge : node.getEdge r0 with
          | none =>
            rw [hge] at hg
            cases hg
          | some c =>
            rw [hge] at hg
            simp only [] at hg
            by_cases hck : c.pre.isPrefixOf s2
            · rw [if_pos hck] at hg
              have hpre : c.pre.isPrefixOf rest := List.isPrefixOf_iff_prefix.mpr
                ((List.isPrefixOf_iff_prefix.mp hck).trans hs2)
              refine List.mem_append.mpr (Or.inr ?_)
              simp only []
              rw [if_pos hpre]
              have hmem := getEdge_mem hge
              have hko' := keysOKL_mem (keysOK_edges hko) hmem
              refine (ihn (rest.drop c.pre.length) (by
                  simp only [List.length_drop, List.length_cons] at hk ⊢
                  omega) c _ hko' k v).mpr ?_
              obtain ⟨s3, hs3⟩ := List.isPrefixOf_iff_prefix.mp hck
              refine ⟨s2.drop c.pre.length, ?_, ?_, ?_⟩
              · rw [hks, ← hs3, List.drop_left, List.append_assoc]
                rfl
              · exact prefix_drop hs2 c.pre.length
                  (List.IsPrefix.length_le (List.isPrefixOf_iff_prefix.mp hck))
              · exact hg
            · rw [if_neg hck] at hg
              cases hg

theorem pathList_lengths_aux {α : Type} :
    ∀ (n : Nat) (key : List Nat), key.length ≤ n →
      ∀ (node : radixNode α) (q : List Nat), keysOK q node →
        ((pathList node key).map Item.key).Pairwise (fun a b => a.length < b.length) := by
  intro n
  induction n with
  | zero =>
    intro key hk node q hko
    have hkey : key = [] := List.eq_nil_of_length_eq_zero (by omega)
    subst hkey
    rw [pathList, List.append_nil]
    cases node.leaf with
    | none => exact List.Pairwise.nil
    | some it => simp
  | succ n ihn =>
    intro key hk node q hko
    cases key with
    | nil =>
      rw [pathList, List.append_nil]
      cases node.leaf with
      | none => exact List.Pairwise.nil
      | some it => simp
    | cons r rest =>
      rw [pathList, List.map_append]
      refine (List.pairwise_append).mpr ⟨?_, ?_, ?_⟩
      · cases node.leaf with
        | none => exact List.Pairwise.nil
        | some it => simp
      · cases hge : node.getEdge r with
        | none => simp
        | some c =>
          simp only []
          by_cases hpre : c.pre.isPrefixOf rest
          · rw [if_pos hpre]
            exact ihn (rest.drop c.pre.length) (by
                simp only [List.length_drop, List.length_cons] at hk ⊢
                omega) c _ (keysOKL_mem (keysOK_edges hko) (getEdge_mem hge))
          · rw [if_neg hpre]
            simp
      · intro a ha b hb
        cases hL : node.leaf with
        | none =>
          rw [hL] at ha
          cases ha
        | some it =>
          rw [hL, Option.toList_some, List.map_singleton, List.mem_singleton] at ha
          subst ha
          rw [keysOK_leaf hko hL]
          cases hge : node.getEdge r with
          | none =>
            rw [hge] at hb
            cases hb
          | some c =>
            rw [hge] at hb
            simp only [] at hb
            by_cases hpre : c.pre.isPrefixOf rest
            · rw [if_pos hpre] at hb
              obtain ⟨it2, hit2, hb1⟩ := List.mem_map.mp hb
              have hsub : it2 ∈ elems c :=
                pathList_subset_elems_aux (rest.drop c.pre.length).length (rest.drop c.pre.length) (le_refl _) c it2 hit2
              obtain ⟨s2, hs2⟩ := elems_key_prefix_aux (nodeSize c) c (le_refl _) _
                (keysOKL_mem (keysOK_edges hko) (getEdge_mem hge)) it2 hsub
              rw [← hb1, hs2]
              simp only [List.length_append, List.length_cons]
              omega
            · rw [if_neg hpre] at hb
              cases hb

theorem elemsL_eq_join {α : Type} (es : List (Nat × radixNode α)) :
    ((es.map (fun e => e.2)).map elems).flatten = elemsL es := by
  induction es with
  | nil => rw [elemsL]; rfl
  | cons e rest ih =>
    rw [elemsL, List.map_cons, List.map_cons, List.flatten_cons, ih]

theorem iterDrain_stack_aux {α : Type} :
    ∀ (m : Nat) (st : List (radixNode α)), stackSize st ≤ m →
      iterDrain st = (st.map elems).flatten := by
  intro m
  induction m with
  | zero =>
    intro st hsz
    cases st with
    | nil =>
      rw [iterDrain_of_none (by rw [iterNext])]
      rfl
    | cons nd rest =>
      cases nd
      rw [stackSize, nodeSize] at hsz
      omega
  | succ m ihm =>
    intro st hsz
    cases st with
    | nil =>
      rw [iterDrain_of_none (by rw [iterNext])]
      rfl
    | cons nd rest =>
      rcases nd with ⟨p, es, l⟩
      rw [stackSize, nodeSize] at hsz
      have hstack' : stackSize (es.map (fun e => e.2) ++ rest) ≤ m := by
        rw [stackSize_append, stackSize_map_snd]
        omega
      cases l with
      | some it =>
        have hnx : iterNext (radixNode.mk p es (some it) :: rest) =
            (some it, es.map (fun e => e.2) ++ rest) := by
          rw [iterNext]
        rw [iterDrain_of_some hnx, ihm _ hstack', List.map_cons, List.flatten_cons,
          List.map_append, List.flatten_append, List.map_map, elems]
        simp only [Option.toList_some, List.singleton_append]
        rw [show (List.map (elems ∘ fun e => e.2) es).flatten = elemsL es from by
          rw [← List.map_map]; exact elemsL_eq_join es]
        rw [List.cons_append]
      | none =>
        have hnx : iterNext (radixNode.mk p es none :: rest) =
            iterNext (es.map (fun e => e.2) ++ rest) := by
          rw [iterNext]
        have hdr : iterDrain (radixNode.mk p es none :: rest) =
            iterDrain (es.map (fun e => e.2) ++ rest) := by
          rcases ho : iterNext (es.map (fun e => e.2) ++ rest) with ⟨o, st2⟩
          cases o with
          | none =>
            rw [iterDrain_of_none (hnx.trans ho), iterDrain_of_none ho]
          | some it2 =>
            rw [iterDrain_of_some (hnx.trans ho), iterDrain_of_some ho]
        rw [hdr, ihm _ hstack', List.map_cons, List.flatten_cons,
          List.map_append, List.flatten_append, List.map_map, elems]
        simp only [Option.toList_none, List.nil_append]
        rw [show (List.map (elems ∘ fun e => e.2) es).flatten = elemsL es from by
          rw [← List.map_map]; exact elemsL_eq_join es]

theorem iterDrain_newIterator {α : Type} (t : Tree α) :
    iterDrain (Tree.newIterator t) = elems t.root := by
  rw [Tree.newIterator, iterDrain_stack_aux (stackSize [t.root]) [t.root] (le_refl _)]
  rw [List.map_cons, List.map_nil, List.flatten_cons, List.flatten_nil, List.append_nil]

theorem walkList_nil {α : Type} (t : Tree α) : walkList t [] = elems t.root := by
  rw [walkList, walkDescend]

/-! ### The claims -/

theorem TreeWF_new {α : Type} : TreeWF (Tree.new : Tree α) :=
  ⟨rfl, WFNode.intro List.Pairwise.nil
    (WFEdges_of_forall fun e he => absurd he (List.not_mem_nil e))⟩

theorem KeysWF_new {α : Type} : KeysWF (Tree.new : Tree α) :=
  ⟨TreeWF_new.2, keysOK_intro [] _ (fun it h => Option.noConfusion h)
    (fun e he => absurd he (List.not_mem_nil e))⟩

/-- Claim C1: Put/Get round trip and isNewValue — after `Put(k, v)` a `Get(k)`
returns the value (`some v`), `Put` reports `true` exactly when no value was
stored at `k` beforehand (so `false` means an existing value was replaced),
and `size` increments exactly on creation. -/
theorem claim_C1_put_get_roundtrip {α : Type} (t : Tree α) (k : List Nat) (v : α)
    (hwf : TreeWF t) :
    Tree.get (Tree.put t k v).1 k = some v ∧
    ((Tree.put t k v).2 = true ↔ Tree.get t k = none) ∧
    (Tree.put t k v).1.size = t.size + (if (Tree.put t k v).2 then 1 else 0) := by
  obtain ⟨_, h2, h3, _, h5⟩ := put_root_spec t k v hwf
  exact ⟨h2, h3, h5⟩

theorem claim_C1_witness :
    TreeWF (Tree.new : Tree Nat) ∧
    Tree.get (Tree.put (Tree.new : Tree Nat) [1, 2] 7).1 [1, 2] = some 7 :=
  ⟨TreeWF_new,
    (claim_C1_put_get_roundtrip (Tree.new : Tree Nat) [1, 2] 7 TreeWF_new).1⟩

/-- Claim C2: Delete postcondition — `Delete(k)` returns `true` iff a value was
stored at `k`; on `true` a subsequent `Get(k)` finds nothing, `Len` drops by
one, and a second `Delete(k)` returns `false`; on `false` the tree is
unchanged. -/
theorem claim_C2_delete_postcondition {α : Type} (t : Tree α) (k : List Nat)
    (hwf : TreeWF t) :
    ((Tree.delete t k).2 = true ↔ Tree.get t k ≠ none) ∧
    ((Tree.delete t k).2 = true → Tree.get (Tree.delete t k).1 k = none) ∧
    ((Tree.delete t k).2 = false → (Tree.delete t k).1 = t) ∧
    ((Tree.delete t k).2 = true → (Tree.delete (Tree.delete t k).1 k).2 = false) ∧
    ((Tree.delete t k).2 = true → Tree.len (Tree.delete t k).1 = Tree.len t - 1) := by
  obtain ⟨h1, h2, h3⟩ := delete_root_spec t k hwf
  refine ⟨h1, fun hb => (h3 hb).2.1, h2, ?_, fun hb => (h3 hb).2.2.2⟩
  intro hb
  obtain ⟨hwf', hget', _, _⟩ := h3 hb
  have h4 := (delete_root_spec (Tree.delete t k).1 k hwf').1
  cases hdb : (Tree.delete (Tree.delete t k).1 k).2 with
  | false => rfl
  | true => exact absurd hget' (h4.mp hdb)

theorem claim_C2_witness :
    TreeWF (Tree.new : Tree Nat) ∧
    ((Tree.delete (Tree.new : Tree Nat) [1]).2 = true ↔
      Tree.get (Tree.new : Tree Nat) [1] ≠ none) :=
  ⟨TreeWF_new, (claim_C2_delete_postcondition (Tree.new : Tree Nat) [1] TreeWF_new).1⟩

/-- Claim C3: refuted as stated — on the empty tree, `DeletePrefix ""` (empty
prefix, no entries stored, nothing removable) returns `true` and drives
`size` to `-1`: the concrete failing evaluation of the code. -/
theorem claim_C3_deleteprefix_empty_bug :
    (Tree.deletePrefix (Tree.new : Tree Nat) []).2 = true ∧
    (∀ k, Tree.get (Tree.new : Tree Nat) k = none) ∧
    (Tree.deletePrefix (Tree.new : Tree Nat) []).1.size = -1 := by
  refine ⟨?_, get_new_none, ?_⟩
  · rw [deletePrefix_new_eval]
  · rw [deletePrefix_new_eval]

/-- Claim C4: refuted as stated — after `DeletePrefix ""` on a fresh tree,
`Len` returns `-1` although no key is stored, so `Len` can be negative and
can differ from the number of stored keys. -/
theorem claim_C4_len_negative_bug :
    Tree.len (Tree.deletePrefix (Tree.new : Tree Nat) []).1 = -1 ∧
    (∀ k, Tree.get (Tree.new : Tree Nat) k = none) := by
  refine ⟨?_, get_new_none⟩
  rw [Tree.len, deletePrefix_new_eval]

/-- Claim C5: structural invariant — the fresh tree satisfies it, and each of
`Put`, `Delete` and `DeletePrefix` preserves it: every edge array strictly
sorted by symbol (no duplicates), and every non-root node has a leaf or at
least two edges (`nodeOK`, via `edgesOK`). -/
theorem claim_C5_structural_invariant {α : Type} (t : Tree α) (k p' : List Nat)
    (v : α) (h : StructOK t) :
    StructOK (Tree.new : Tree α) ∧
    StructOK (Tree.put t k v).1 ∧
    StructOK (Tree.delete t k).1 ∧
    StructOK (Tree.deletePrefix t p').1 :=
  ⟨structOK_new, structOK_put t k v h, structOK_delete t k h,
    structOK_deletePrefix t p' h⟩

theorem claim_C5_witness :
    StructOK (Tree.new : Tree Nat) ∧ StructOK (Tree.put (Tree.new : Tree Nat) [1] 5).1 :=
  ⟨structOK_new,
    (claim_C5_structural_invariant (Tree.new : Tree Nat) [1] [] 5 structOK_new).2.1⟩

/-- Claim C6: Walk semantics — `Walk(p, f)` equals running `f` (with early
stop at the first `true`) over the list `walkList t p`, whose members are
exactly the stored entries whose key has `p` as a prefix, listed in strictly
ascending byte-lexicographic key order (hence each visited once, and nothing
visited when no key matches). -/
theorem claim_C6_walk_semantics {α σ : Type} (t : Tree α) (p : List Nat)
    (h : KeysWF t) :
    (∀ (f : σ → List Nat → α → σ × Bool) (s : σ),
        Tree.walk t p f s = runVisit f s (walkList t p)) ∧
    (∀ (k : List Nat) (v : α),
        Item.mk k v ∈ walkList t p ↔ List.IsPrefix p k ∧ Tree.get t k = some v) ∧
    ((walkList t p).map Item.key).Pairwise keyLt :=
  ⟨fun f s => walk_runVisit t p f s,
    fun k v => walkList_mem t p h k v,
    walkList_sorted t p h⟩

theorem claim_C6_witness :
    KeysWF (Tree.new : Tree Nat) ∧
    ((walkList (Tree.new : Tree Nat) []).map Item.key).Pairwise keyLt :=
  ⟨KeysWF_new,
    (@claim_C6_walk_semantics Nat Nat (Tree.new : Tree Nat) [] KeysWF_new).2.2⟩

/-- Claim C7: WalkPath semantics — `WalkPath(k, f)` equals running `f` (early
stop at the first `true`) over `pathList t.root k`, whose members are exactly
the stored entries whose key is a prefix of `k` (including the empty key and
`k` itself), in strictly increasing key-length order. -/
theorem claim_C7_walkpath_semantics {α σ : Type} (t : Tree α) (k : List Nat)
    (h : KeysWF t) :
    (∀ (f : σ → List Nat → α → σ × Bool) (s : σ),
        Tree.walkPath t k f s = runVisit f s (pathList t.root k)) ∧
    (∀ (k' : List Nat) (v : α),
        Item.mk k' v ∈ pathList t.root k ↔
          List.IsPrefix k' k ∧ Tree.get t k' = some v) ∧
    ((pathList t.root k).map Item.key).Pairwise (fun a b => a.length < b.length) := by
  refine ⟨?_, ?_, ?_⟩
  · intro f s
    rw [Tree.walkPath]
    exact walkPathRec_runVisit_aux f k.length k (le_refl _) t.root s
  · intro k' v
    rw [pathList_mem_aux k.length k (le_refl _) t.root [] h.2 k' v]
    constructor
    · rintro ⟨s, hs, hle, hg⟩
      rw [List.nil_append] at hs
      subst hs
      exact ⟨hle, by rw [Tree.get]; exact hg⟩
    · rintro ⟨hle, hg⟩
      exact ⟨k', by rw [List.nil_append], hle, by rw [Tree.get] at hg; exact hg⟩
  · exact pathList_lengths_aux k.length k (le_refl _) t.root [] h.2

theorem claim_C7_witness :
    KeysWF (Tree.new : Tree Nat) ∧
    ((pathList (Tree.new : Tree Nat).root [1]).map Item.key).Pairwise
      (fun a b => a.length < b.length) :=
  ⟨KeysWF_new,
    (@claim_C7_walkpath_semantics Nat Nat (Tree.new : Tree Nat) [1] KeysWF_new).2.2⟩

/-- Claim C8: iterator enumeration — draining a fresh iterator yields exactly
the sequence `Walk ""` visits (`walkList t []`), whose members are exactly
the stored entries, in strictly ascending byte-lexicographic key order; and
once `Next` reports done (`none`) it keeps reporting done. -/
theorem claim_C8_iterator_enumeration {α : Type} (t : Tree α) (h : KeysWF t) :
    iterDrain (Tree.newIterator t) = walkList t [] ∧
    (∀ (k : List Nat) (v : α),
        Item.mk k v ∈ iterDrain (Tree.newIterator t) ↔ Tree.get t k = some v) ∧
    ((iterDrain (Tree.newIterator t)).map Item.key).Pairwise keyLt ∧
    (∀ st st' : List (radixNode α), iterNext st = (none, st') →
        iterNext st' = (none, st')) := by
  have heq : iterDrain (Tree.newIterator t) = walkList t [] := by
    rw [iterDrain_newIterator, walkList_nil]
  refine ⟨heq, ?_, ?_, ?_⟩
  · intro k v
    rw [heq, walkList_mem t [] h k v]
    constructor
    · rintro ⟨_, hg⟩
      exact hg
    · intro hg
      exact ⟨List.nil_prefix, hg⟩
  · rw [heq]
    exact walkList_sorted t [] h
  · intro st st' hnx
    have hst' := iterNext_none st st' hnx
    subst hst'
    rw [iterNext]

theorem claim_C8_witness :
    KeysWF (Tree.new : Tree Nat) ∧
    iterDrain (Tree.newIterator (Tree.new : Tree Nat)) = walkList (Tree.new : Tree Nat) [] :=
  ⟨KeysWF_new,
    (claim_C8_iterator_enumeration (Tree.new : Tree Nat) KeysWF_new).1⟩

/-- Claim C9: the stepper refines Get — feeding the bytes of `k` to a fresh
stepper (stopping at the first `Next` that reports `false`): if every step
succeeds, `Value()` returns exactly `Get(k)`; if a step fails, `Get(k)` finds
nothing; and a failing `Next` leaves the stepper state unchanged. -/
theorem claim_C9_stepper_refines_get {α : Type} (t : Tree α) (k : List Nat)
    (hpre : t.root.pre = []) :
    (∀ s', stepperRun (Tree.newStepper t) k = (true, s') →
        stepperValue s' = Tree.get t k) ∧
    (∀ s', stepperRun (Tree.newStepper t) k = (false, s') → Tree.get t k = none) ∧
    (∀ (s : Stepper α) (r : Nat) (s' : Stepper α),
        stepperNext s r = (false, s') → s' = s) :=
  ⟨(stepper_refines_get t k hpre).1, (stepper_refines_get t k hpre).2,
    fun s r s' hf => stepperNext_false_eq s r s' hf⟩

theorem claim_C9_witness :
    (Tree.new : Tree Nat).root.pre = [] ∧
    (∀ s', stepperRun (Tree.newStepper (Tree.new : Tree Nat)) [1] = (false, s') →
        Tree.get (Tree.new : Tree Nat) [1] = none) :=
  ⟨rfl, (claim_C9_stepper_refines_get (Tree.new : Tree Nat) [1] rfl).2.1⟩

/-- Claim C10: frame property — for any key `k'` other than `k`, `Get(k')` is
unchanged by `Put(k, v)` and by `Delete(k)`: restructuring (split, prune,
compress) never disturbs other entries. -/
theorem claim_C10_mutation_frame {α : Type} (t : Tree α) (k k' : List Nat) (v : α)
    (hwf : TreeWF t) (hne : k' ≠ k) :
    Tree.get (Tree.put t k v).1 k' = Tree.get t k' ∧
    Tree.get (Tree.delete t k).1 k' = Tree.get t k' := by
  obtain ⟨_, _, _, h4, _⟩ := put_root_spec t k v hwf
  refine ⟨h4 k' hne, ?_⟩
  obtain ⟨_, h2, h3⟩ := delete_root_spec t k hwf
  cases hb : (Tree.delete t k).2 with
  | false => rw [h2 hb]
  | true => exact (h3 hb).2.2.1 k' hne

theorem claim_C10_witness :
    (TreeWF (Tree.new : Tree Nat) ∧ ([2] : List Nat) ≠ [1]) ∧
    Tree.get (Tree.put (Tree.new : Tree Nat) [1] 5).1 [2] =
      Tree.get (Tree.new : Tree Nat) [2] :=
  ⟨⟨TreeWF_new, by decide⟩,
    (claim_C10_mutation_frame (Tree.new : Tree Nat) [1] [2] 5 TreeWF_new
      (by decide)).1⟩

theorem take_cons_drop {β : Type} (l : List β) (p : Nat) (h : p < l.length) :
    l.take p ++ l[p] :: l.drop (p + 1) = l := by
  rw [← List.drop_eq_getElem_cons h, List.take_append_drop]

theorem putNode_keysOK {α : Type} (key : List Nat) :
    ∀ (node : radixNode α) (p : Nat) (fk : List Nat) (v : α) (qb : List Nat),
      p ≤ node.pre.length → WFNode node →
      keysOK (qb ++ node.pre) node →
      fk = qb ++ node.pre.take p ++ key →
      keysOK (qb ++ (putNode node p key fk v).1.pre) (putNode node p key fk v).1 := by
  induction key with
  | nil =>
    intro node p fk v qb hp hwf hko hfk
    rw [putNode]
    by_cases hlt : p < node.pre.length
    · rw [if_pos hlt]
      simp only []
      rw [split_eq node p hlt]
      simp only [radixNode.pre_mk, radixNode.edges_mk]
      have hgd : node.pre.getD p 0 = node.pre.get ⟨p, hlt⟩ := by
        rw [List.getD_eq_getElem?_getD, List.getElem?_eq_getElem hlt]
        rfl
      refine keysOK_intro _ _ ?_ ?_
      · intro it hit
        have : it = ⟨fk, v⟩ := by
          simp only [radixNode.leaf_mk] at hit
          injection hit with h1
          exact h1.symm
        subst this
        rw [hfk, List.append_nil]
      · intro e he
        simp only [radixNode.edges_mk, List.mem_singleton] at he
        subst he
        simp only [radixNode.pre_mk]
        have hq : (qb ++ node.pre.take p) ++
            node.pre.getD p 0 :: node.pre.drop (p + 1) = qb ++ node.pre := by
          rw [hgd, List.append_assoc]
          exact congrArg (fun z => qb ++ z) (take_cons_drop node.pre p hlt)
        rw [hq]
        refine keysOK_intro _ _ ?_ ?_
        · intro it hit
          simp only [radixNode.leaf_mk] at hit
          exact keysOK_leaf hko hit
        · intro e2 he2
          simp only [radixNode.edges_mk] at he2
          exact keysOKL_mem (keysOK_edges hko) he2
    · rw [if_neg hlt]
      simp only []
      have hpe : node.pre.take p = node.pre :=
        List.take_of_length_le (by omega)
      refine keysOK_intro _ _ ?_ ?_
      · intro it hit
        simp only [radixNode.leaf_mk] at hit
        injection hit with h1
        subst h1
        simp only [radixNode.pre_mk]
        rw [hfk, List.append_nil, hpe]
      · intro e he
        simp only [radixNode.edges_mk] at he
        simp only [radixNode.pre_mk]
        exact keysOKL_mem (keysOK_edges hko) he
  | cons r rest ih =>
    intro node p fk v qb hp hwf hko hfk
    rw [putNode]
    by_cases hlt : p < node.pre.length
    · rw [dif_pos hlt]
      by_cases hr : r = node.pre.get ⟨p, hlt⟩
      · rw [if_pos hr]
        refine ih node (p + 1) fk v qb (by omega) hwf hko ?_
        have htake : node.pre.take (p + 1) =
            node.pre.take p ++ [node.pre.get ⟨p, hlt⟩] := by
          rw [List.take_succ, List.getElem?_eq_getElem hlt]
          rfl
        rw [hfk, htake, ← hr]
        simp [List.append_assoc]
      · rw [if_neg hr]
        simp only []
        have hgd : node.pre.getD p 0 = node.pre.get ⟨p, hlt⟩ := by
          rw [List.getD_eq_getElem?_getD, List.getElem?_eq_getElem hlt]
          rfl
        have haddpre : ((node.split p).addEdge
            (r, radixNode.mk rest [] (some ⟨fk, v⟩))).pre = node.pre.take p := by
          rw [addEdge_pre, split_eq node p hlt]
          rfl
        rw [haddpre]
        refine keysOK_intro _ _ ?_ ?_
        · intro it hit
          rw [addEdge_leaf, split_eq node p hlt] at hit
          cases hit
        · intro e he
          rcases addEdge_mem_iff.mp he with heq | hmem
          · subst heq
            simp only [radixNode.pre_mk]
            refine keysOK_intro _ _ ?_ ?_
            · intro it hit
              simp only [radixNode.leaf_mk] at hit
              injection hit with h1
              subst h1
              rw [hfk, List.append_assoc]
            · intro e2 he2
              simp only [radixNode.edges_mk] at he2
              cases he2
          · rw [split_eq node p hlt] at hmem
            simp only [radixNode.edges_mk, List.mem_singleton] at hmem
            subst hmem
            simp only [radixNode.pre_mk]
            have hq : (qb ++ node.pre.take p) ++
                node.pre.getD p 0 :: node.pre.drop (p + 1) = qb ++ node.pre := by
              rw [hgd, List.append_assoc]
              exact congrArg (fun z => qb ++ z) (take_cons_drop node.pre p hlt)
            rw [hq]
            refine keysOK_intro _ _ ?_ ?_
            · intro it hit
              simp only [radixNode.leaf_mk] at hit
              exact keysOK_leaf hko hit
            · intro e2 he2
              simp only [radixNode.edges_mk] at he2
              exact keysOKL_mem (keysOK_edges hko) he2
    · rw [dif_neg hlt]
      have hpe : node.pre.take p = node.pre :=
        List.take_of_length_le (by omega)
      cases hge : node.getEdge r with
      | some child =>
        simp only []
        have hmem := getEdge_mem hge
        have hko' : keysOK ((qb ++ node.pre ++ [r]) ++ child.pre) child := by
          have := keysOKL_mem (keysOK_edges hko) hmem
          rw [List.append_cons] at this
          exact this
        have hfk' : fk = (qb ++ node.pre ++ [r]) ++ child.pre.take 0 ++ rest := by
          rw [hfk, hpe, List.take_zero, List.append_nil]
          simp [List.append_assoc]
        have hch := ih child 0 fk v (qb ++ node.pre ++ [r]) (Nat.zero_le _)
          (hwf.child hmem) hko' hfk'
        rw [setEdge_pre]
        refine keysOK_intro _ _ ?_ ?_
        · intro it hit
          rw [setEdge_leaf] at hit
          exact keysOK_leaf hko hit
        · intro e he
          rcases (setEdge_mem_iff hwf.sorted hmem).mp he with heq | hm
          · subst heq
            rw [List.append_cons]
            exact hch
          · exact keysOKL_mem (keysOK_edges hko) hm.1
      | none =>
        simp only []
        rw [addEdge_pre]
        refine keysOK_intro _ _ ?_ ?_
        · intro it hit
          rw [addEdge_leaf] at hit
          exact keysOK_leaf hko hit
        · intro e he
          rcases addEdge_mem_iff.mp he with heq | hmem
          · subst heq
            refine keysOK_intro _ _ ?_ ?_
            · intro it hit
              simp only [radixNode.leaf_mk] at hit
              injection hit with h1
              subst h1
              rw [hfk, hpe]
              rfl
            · intro e2 he2
              simp only [radixNode.edges_mk] at he2
              cases he2
          · exact keysOKL_mem (keysOK_edges hko) hmem

theorem keysWF_put {α : Type} (t : Tree α) (k : List Nat) (v : α) (hwf : TreeWF t)
    (hk : keysOK [] t.root) : KeysWF (Tree.put t k v).1 := by
  obtain ⟨hpre, hwfn⟩ := hwf
  refine ⟨(put_root_spec t k v ⟨hpre, hwfn⟩).1.2, ?_⟩
  have hko : keysOK ([] ++ t.root.pre) t.root := by
    rw [hpre, List.append_nil]
    exact hk
  have hfk : k = [] ++ t.root.pre.take 0 ++ k := by
    rw [List.take_zero]
    rfl
  have h := putNode_keysOK k t.root 0 k v [] (by rw [hpre]; exact Nat.le_refl 0)
    hwfn hko hfk
  have hpre' : (putNode t.root 0 k k v).1.pre = [] := by
    have := (put_root_spec t k v ⟨hpre, hwfn⟩).1.1
    exact this
  rw [List.nil_append, hpre'] at h
  show keysOK [] (putNode t.root 0 k k v).1
  exact h

theorem compress_keysOK {α : Type} {qb : List Nat} {n : radixNode α}
    (hko : keysOK (qb ++ n.pre) n) :
    keysOK (qb ++ n.compress.pre) n.compress := by
  rw [radixNode.compress]
  split
  · rename_i r c heq hleaf
    simp only [radixNode.pre_mk]
    have hc : keysOK ((qb ++ n.pre) ++ r :: c.pre) c :=
      keysOKL_mem (keysOK_edges hko) (by rw [heq]; exact List.mem_singleton.mpr rfl)
    rw [List.append_assoc] at hc
    refine keysOK_intro _ _ ?_ ?_
    · intro it hit
      simp only [radixNode.leaf_mk] at hit
      exact keysOK_leaf hc hit
    · intro e he
      simp only [radixNode.edges_mk] at he
      exact keysOKL_mem (keysOK_edges hc) he
  · exact hko

theorem pruneChild_keysOK {α : Type} (b : Bool) (node : radixNode α) (r : Nat)
    (child' : radixNode α) {c0 : radixNode α} {qb : List Nat}
    (hs : EdgesSorted node.edges) (hmem : (r, c0) ∈ node.edges)
    (hko : keysOK (qb ++ node.pre) node)
    (hkoc : keysOK ((qb ++ node.pre ++ [r]) ++ child'.pre) child') :
    keysOK (qb ++ (pruneChild b node r child').pre) (pruneChild b node r child') := by
  have hkoDel : keysOK (qb ++ (node.delEdge r).pre) (node.delEdge r) := by
    rw [delEdge_pre]
    refine keysOK_intro _ _ ?_ ?_
    · intro it hit
      rw [delEdge_leaf] at hit
      exact keysOK_leaf hko hit
    · intro e he
      exact keysOKL_mem (keysOK_edges hko) ((delEdge_mem_iff hs).mp he).1
  rw [pruneChild]
  rcases hce : child'.edges with _ | ⟨ce, ces⟩
  · rcases hcl : child'.leaf with _ | cv
    · simp only []
      rcases h1 : (node.delEdge r).edges with _ | ⟨d1, ds⟩
      · rcases h2 : (node.delEdge r).leaf with _ | dv
        · exact hkoDel
        · simp only []
          cases b with
          | true =>
            rw [if_pos rfl]
            exact hkoDel
          | false =>
            rw [if_neg (by simp)]
            exact compress_keysOK hkoDel
      · simp only []
        cases b with
        | true =>
          rw [if_pos rfl]
          exact hkoDel
        | false =>
          rw [if_neg (by simp)]
          exact compress_keysOK hkoDel
    · simp only []
      rw [setEdge_pre]
      refine keysOK_intro _ _ ?_ ?_
      · intro it hit
        rw [setEdge_leaf] at hit
        exact keysOK_leaf hko hit
      · intro e he
        rcases (setEdge_mem_iff hs hmem).mp he with heq | hm
        · subst heq
          rw [List.append_cons]
          exact hkoc
        · exact keysOKL_mem (keysOK_edges hko) hm.1
  · simp only []
    rw [setEdge_pre]
    refine keysOK_intro _ _ ?_ ?_
    · intro it hit
      rw [setEdge_leaf] at hit
      exact keysOK_leaf hko hit
    · intro e he
      rcases (setEdge_mem_iff hs hmem).mp he with heq | hm
      · subst heq
        rw [List.append_cons]
        exact hkoc
      · exact keysOKL_mem (keysOK_edges hko) hm.1

theorem deleteRec_keysOK_nil {α : Type} (b : Bool) (node node' : radixNode α)
    (qb : List Nat) (hko : keysOK (qb ++ node.pre) node)
    (hdel : deleteRec b node [] = some node') :
    keysOK (qb ++ node'.pre) node' := by
  rw [deleteRec] at hdel
  cases hL : node.leaf with
  | none =>
    rw [hL] at hdel
    cases hdel
  | some it =>
    rw [hL] at hdel
    simp only [] at hdel
    have hko0 : keysOK (qb ++ (radixNode.mk node.pre node.edges none).pre)
        (radixNode.mk node.pre node.edges none) := by
      simp only [radixNode.pre_mk]
      refine keysOK_intro _ _ ?_ ?_
      · intro it2 hit2
        simp only [radixNode.leaf_mk] at hit2
        cases hit2
      · intro e he
        simp only [radixNode.edges_mk] at he
        exact keysOKL_mem (keysOK_edges hko) he
    split at hdel
    · injection hdel with hdel
      subst hdel
      exact hko0
    · injection hdel with hdel
      subst hdel
      cases b with
      | true =>
        rw [if_pos rfl]
        exact hko0
      | false =>
        simp only [Bool.false_eq_true, if_false]
        exact compress_keysOK hko0

theorem deleteRec_keysOK_aux {α : Type} :
    ∀ (n : Nat) (key : List Nat), key.length ≤ n →
      ∀ (b : Bool) (node node' : radixNode α) (qb : List Nat),
        WFNode node → keysOK (qb ++ node.pre) node →
        deleteRec b node key = some node' →
        keysOK (qb ++ node'.pre) node' := by
  intro n
  induction n with
  | zero =>
    intro key hk b node node' qb hwf hko hdel
    have : key = [] := List.eq_nil_of_length_eq_zero (by omega)
    subst this
    exact deleteRec_keysOK_nil b node node' qb hko hdel
  | succ n ihn =>
    intro key hk b node node' qb hwf hko hdel
    cases key with
    | nil =>
      exact deleteRec_keysOK_nil b node node' qb hko hdel
    | cons r rest =>
      rw [deleteRec] at hdel
      cases hge : node.getEdge r with
      | none =>
        rw [hge] at hdel
        cases hdel
      | some child =>
        rw [hge] at hdel
        simp only [] at hdel
        by_cases hpre : child.pre.isPrefixOf rest
        · rw [if_pos hpre] at hdel
          cases hrec : deleteRec false child (rest.drop child.pre.length) with
          | none =>
            rw [hrec] at hdel
            cases hdel
          | some child'' =>
            rw [hrec] at hdel
            simp only [] at hdel
            injection hdel with hdel
            subst hdel
            have hmem := getEdge_mem hge
            have hlen : (rest.drop child.pre.length).length ≤ n := by
              simp only [List.length_drop, List.length_cons] at hk ⊢
              omega
            have hkoc0 : keysOK ((qb ++ node.pre ++ [r]) ++ child.pre) child := by
              have := keysOKL_mem (keysOK_edges hko) hmem
              rw [List.append_cons] at this
              exact this
            have hkoc := ihn _ hlen false child child'' (qb ++ node.pre ++ [r])
              (hwf.child hmem) hkoc0 hrec
            exact pruneChild_keysOK b node r child'' hwf.sorted hmem hko hkoc
        · rw [if_neg hpre] at hdel
          cases hdel

theorem deletePrefixRec_keysOK_aux {α : Type} :
    ∀ (n : Nat) (key : List Nat), key.length ≤ n →
      ∀ (b : Bool) (node node' : radixNode α) (delta : Int) (qb : List Nat),
        WFNode node → keysOK (qb ++ node.pre) node →
        deletePrefixRec b node key = some (node', delta) →
        keysOK (qb ++ node'.pre) node' := by
  intro n
  induction n with
  | zero =>
    intro key hk b node node' delta qb hwf hko hdel
    have : key = [] := List.eq_nil_of_length_eq_zero (by omega)
    subst this
    rw [deletePrefixRec] at hdel
    injection hdel with hdel
    have h1 : node' = radixNode.mk node.pre [] none := (congrArg Prod.fst hdel).symm
    subst h1
    simp only [radixNode.pre_mk]
    refine keysOK_intro _ _ ?_ ?_
    · intro it hit
      simp only [radixNode.leaf_mk] at hit
      cases hit
    · intro e he
      simp only [radixNode.edges_mk] at he
      cases he
  | succ n ihn =>
    intro key hk b node node' delta qb hwf hko hdel
    cases key with
    | nil =>
      rw [deletePrefixRec] at hdel
      injection hdel with hdel
      have h1 : node' = radixNode.mk node.pre [] none := (congrArg Prod.fst hdel).symm
      subst h1
      simp only [radixNode.pre_mk]
      refine keysOK_intro _ _ ?_ ?_
      · intro it hit
        simp only [radixNode.leaf_mk] at hit
        cases hit
      · intro e he
        simp only [radixNode.edges_mk] at he
        cases he
    | cons r rest =>
      rw [deletePrefixRec] at hdel
      cases hge : node.getEdge r with
      | none =>
        rw [hge] at hdel
        cases hdel
      | some child =>
        rw [hge] at hdel
        simp only [] at hdel
        have hmem := getEdge_mem hge
        have hkoc0 : keysOK ((qb ++ node.pre ++ [r]) ++ child.pre) child := by
          have := keysOKL_mem (keysOK_edges hko) hmem
          rw [List.append_cons] at this
          exact this
        by_cases hpre : child.pre.isPrefixOf rest
        · rw [if_pos hpre] at hdel
          cases hrec : deletePrefixRec false child (rest.drop child.pre.length) with
          | none =>
            rw [hrec] at hdel
            cases hdel
          | some cd =>
            rw [hrec] at hdel
            simp only [] at hdel
            injection hdel with hdel
            have hc1 : pruneChild b node r cd.1 = node' := congrArg Prod.fst hdel
            subst hc1
            have hlen : (rest.drop child.pre.length).length ≤ n := by
              simp only [List.length_drop, List.length_cons] at hk ⊢
              omega
            have hkoc := ihn _ hlen false child cd.1 cd.2 (qb ++ node.pre ++ [r])
              (hwf.child hmem) hkoc0 (by rw [hrec])
            exact pruneChild_keysOK b node r cd.1 hwf.sorted hmem hko hkoc
        · rw [if_neg hpre] at hdel
          by_cases hpre2 : rest.isPrefixOf child.pre
          · rw [if_pos hpre2] at hdel
            cases hrec : deletePrefixRec false child ([] : List Nat) with
            | none =>
              rw [hrec] at hdel
              cases hdel
            | some cd =>
              rw [hrec] at hdel
              simp only [] at hdel
              injection hdel with hdel
              have hc1 : pruneChild b node r cd.1 = node' := congrArg Prod.fst hdel
              subst hc1
              have hkoc := ihn ([] : List Nat) (Nat.zero_le n) false child cd.1 cd.2
                (qb ++ node.pre ++ [r]) (hwf.child hmem) hkoc0 (by rw [hrec])
              exact pruneChild_keysOK b node r cd.1 hwf.sorted hmem hko hkoc
          · rw [if_neg hpre2] at hdel
            cases hdel

/-- `Delete` preserves the traversal invariants: the rebuilt tree is still
recursively sorted and every stored key still names its position. -/
theorem keysWF_delete {α : Type} (t : Tree α) (k : List Nat) (hwf : TreeWF t)
    (hk : keysOK [] t.root) : KeysWF (Tree.delete t k).1 := by
  obtain ⟨hpre, hwfn⟩ := hwf
  rw [Tree.delete]
  cases hdel : deleteRec true t.root k with
  | none => exact ⟨hwfn, hk⟩
  | some root' =>
    simp only []
    have hwf' : WFNode root' :=
      (deleteRec_spec_aux k.length k (le_refl _) true t.root root' hwfn hdel).1
    have hko' := deleteRec_keysOK_aux k.length k (le_refl _) true t.root root' []
      hwfn (by rw [hpre, List.append_nil]; exact hk) hdel
    rw [deleteRec_root_pre t.root root' k hdel, hpre, List.nil_append] at hko'
    exact ⟨hwf', hko'⟩

/-- `DeletePrefix` preserves the traversal invariants. -/
theorem keysWF_deletePrefix {α : Type} (t : Tree α) (k : List Nat) (hwf : TreeWF t)
    (hk : keysOK [] t.root) (hstruct : StructOK t) : KeysWF (Tree.deletePrefix t k).1 := by
  obtain ⟨hpre, hwfn⟩ := hwf
  rw [Tree.deletePrefix]
  cases hdel : deletePrefixRec true t.root k with
  | none => exact ⟨hwfn, hk⟩
  | some cd =>
    simp only []
    obtain ⟨ds, dok, _⟩ := deletePrefixRec_structOK_aux k.length k (le_refl _) true t.root
      cd.1 cd.2 hstruct.2.1 hstruct.2.2 (fun hc => by cases hc) (by rw [hdel])
    have hwf' : WFNode cd.1 := WFNode.intro ds (edgesOK_imp_WFEdges dok)
    have hko' := deletePrefixRec_keysOK_aux k.length k (le_refl _) true t.root cd.1 cd.2 []
      hwfn (by rw [hpre, List.append_nil]; exact hk) (by rw [hdel])
    rw [deletePrefixRec_root_pre t.root cd.1 k cd.2 (by rw [hdel]), hpre,
      List.nil_append] at hko'
    exact ⟨hwf', hko'⟩

end Radix
